import Mathlib

/-!
# yamlfmt: path tokenizer, segment matcher, ordering functions and Lint

A shallow embedding of `fmt.go` of the yamlfmt package.

* Go strings are lists of characters (`Str`). The tokenizer reads a path byte by
  byte, and its structural characters `.`, `[`, `]` are ASCII, so on well-formed
  UTF-8 text reading bytes and reading characters cut the path at the same places.
* `*yaml.Node` values are pointers into a heap of node records (`Heap`); the
  ordering functions rewrite the `Content` slice of one record in place.
* A `panic` is the `Except.error` outcome of the embedded function.
* Functions of the Go standard library (`strings.EqualFold`, `cmp.Compare`,
  `slices.Index`, `slices.SortedFunc`, `errors.Join`, `strconv.Itoa`) are
  embedded next to their callers; `slices.SortedFunc` is a parameter, since Go
  promises a sorted permutation but no particular (and no stable) algorithm.
* The Unicode case folding tables behind `strings.EqualFold` are a parameter
  too, the class `Folding`. A theorem with `[Folding]` holds for every folding
  that meets the contract of the class, so for the folding of Go; the examples
  on concrete documents and paths, all of ASCII text, are evaluated at
  `asciiFolding`, with which every folding agrees on ASCII text
  (`contains_ascii`, `match_ascii`). `latinFolding` is a folding that, like the
  one of Go, folds 'É' with 'é' (`folds_latin_letters`).
-/

namespace Yamlfmt

/-! ## Strings -/

/-- A Go string, as the list of its characters. -/
abbrev Str := List Char

/-- The constant root: the root path matches the yaml document node. -/
def root : Str := ['$']

/-- The constant all: the all path matches any array or map element. -/
def all : Str := ['*']

/-- The delimiter token denotes a level in the yaml hierarchy. -/
def delimiter : Str := ['.']

/-- The indexOpen token denotes the start of an array indexing operation. -/
def indexOpen : Str := ['[']

/-- The indexClose token denotes the closure of an array indexing operation. -/
def indexClose : Str := [']']

/-- Simple case folding of one rune, on the ASCII letters: an upper-case letter
folds to its lower-case letter, every other rune to itself. -/
def foldRune (c : Char) : Nat :=
  if 65 ≤ c.toNat ∧ c.toNat ≤ 90 then c.toNat + 32 else c.toNat

/-- The Unicode tables behind Go strings.EqualFold, taken as a parameter:
foldEq a b says that the runes a and b are equal under simple Unicode case
folding. The contract is what holds of these tables and is used here: folding
is an equivalence of runes; the runes '$', '*', '.', '[' and ']' have no case,
only they themselves are equal to them; and two ASCII runes are equal under
folding exactly when they are equal up to the case of the letters A to Z. -/
class Folding where
  foldEq : Char → Char → Bool
  foldEq_refl : ∀ a, foldEq a a = true
  foldEq_symm : ∀ a b, foldEq a b = foldEq b a
  foldEq_trans : ∀ a b c, foldEq a b = true → foldEq b c = true → foldEq a c = true
  foldEq_plain : ∀ a b, a ∈ ['$', '*', '.', '[', ']'] → foldEq a b = true → a = b
  foldEq_ascii : ∀ a b, a.toNat < 128 → b.toNat < 128 → foldEq a b = (foldRune a == foldRune b)

/-- The folding that folds the ASCII letters and nothing else: it is simple
Unicode case folding on every pair of ASCII runes, and the folding at which the
examples, all of ASCII text, are evaluated. -/
instance asciiFolding : Folding where
  foldEq a b := foldRune a == foldRune b
  foldEq_refl a := by simp
  foldEq_symm a b := by
    rw [Bool.eq_iff_iff]
    simp only [beq_iff_eq]
    exact eq_comm
  foldEq_trans a b c h1 h2 := by
    simp only [beq_iff_eq] at h1 h2 ⊢
    exact h1.trans h2
  foldEq_plain a b ha h := by
    simp only [beq_iff_eq] at h
    simp only [List.mem_cons, List.mem_singleton, List.not_mem_nil, or_false] at ha
    have key : ∀ n, (n < 65 ∨ (90 < n ∧ n < 97)) → n = foldRune b → Char.ofNat n = b := by
      intro n hn hb
      unfold foldRune at hb
      have hn2 : b.toNat = n := by split at hb <;> omega
      rw [← hn2, Char.ofNat_toNat]
    rcases ha with rfl | rfl | rfl | rfl | rfl
    · exact key 36 (by decide) h
    · exact key 42 (by decide) h
    · exact key 46 (by decide) h
    · exact key 91 (by decide) h
    · exact key 93 (by decide) h
  foldEq_ascii _ _ _ _ := rfl

/-- Simple case folding of one rune, on the letters of Latin-1: the letters A to
Z and the letters from U+00C0 to U+00DE other than the sign U+00D7 fold to the
rune 32 above them, every other rune to itself. -/
def foldLatin (c : Char) : Nat :=
  if (65 ≤ c.toNat ∧ c.toNat ≤ 90) ∨ (192 ≤ c.toNat ∧ c.toNat ≤ 222 ∧ c.toNat ≠ 215) then
    c.toNat + 32
  else c.toNat

/-- A folding that folds more than the ASCII letters: on the letters of Latin-1
it folds each upper-case letter with its lower-case letter, as simple Unicode
case folding does ('É' with 'é'). -/
def latinFolding : Folding where
  foldEq a b := foldLatin a == foldLatin b
  foldEq_refl a := by simp
  foldEq_symm a b := by
    rw [Bool.eq_iff_iff]
    simp only [beq_iff_eq]
    exact eq_comm
  foldEq_trans a b c h1 h2 := by
    simp only [beq_iff_eq] at h1 h2 ⊢
    exact h1.trans h2
  foldEq_plain a b ha h := by
    simp only [beq_iff_eq] at h
    simp only [List.mem_cons, List.mem_singleton, List.not_mem_nil, or_false] at ha
    have key : ∀ n, (n < 65 ∨ (90 < n ∧ n < 97)) → n = foldLatin b → Char.ofNat n = b := by
      intro n hn hb
      unfold foldLatin at hb
      have hn2 : b.toNat = n := by split at hb <;> omega
      rw [← hn2, Char.ofNat_toNat]
    rcases ha with rfl | rfl | rfl | rfl | rfl
    · exact key 36 (by decide) h
    · exact key 42 (by decide) h
    · exact key 46 (by decide) h
    · exact key 91 (by decide) h
    · exact key 93 (by decide) h
  foldEq_ascii a b ha hb := by
    have e : ∀ c : Char, c.toNat < 128 → foldLatin c = foldRune c := by
      intro c hc
      unfold foldLatin foldRune
      split <;> split <;> omega
    simp only [e a ha, e b hb]

/-- Go strings.EqualFold: the two strings are equal rune by rune under simple
Unicode case folding. -/
def EqualFold [Folding] : Str → Str → Bool
  | [], [] => true
  | a :: s, b :: t => Folding.foldEq a b && EqualFold s t
  | _, _ => false

/-- Go strings.HasPrefix. -/
def HasPrefix (s pre : Str) : Bool := pre.isPrefixOf s

/-- Go cmp.Compare on strings: -1, 0 or +1 under the lexicographic order of
the strings (by character code, which on UTF-8 text is the order of the bytes). -/
def Compare : Str → Str → Int
  | [], [] => 0
  | [], _ :: _ => -1
  | _ :: _, [] => 1
  | a :: s, b :: t =>
    if a.toNat < b.toNat then -1 else if b.toNat < a.toNat then 1 else Compare s t

/-- Go cmp.Compare on ints. -/
def CompareInt (a b : Int) : Int :=
  if a < b then -1 else if b < a then 1 else 0

/-- Go slices.Index: the index of the first occurrence of v in s, or -1. -/
def Index {α : Type} [DecidableEq α] : List α → α → Int
  | [], _ => -1
  | a :: s, v => if a = v then 0 else
    let i := Index s v
    if i < 0 then -1 else i + 1

/-- Go slices.Contains. -/
def Contains {α : Type} [DecidableEq α] (s : List α) (v : α) : Bool :=
  decide (Index s v ≥ 0)

/-! ## Errors and panics -/

/-- The error values the package builds. -/
inductive Error where
  /-- The sentinel errors.New("illegal token"). -/
  | ErrIllegalToken : Error
  /-- The value fmt.Errorf("char %q: %w", char, err). -/
  | char (char : Str) (err : Error) : Error
  /-- The value fmt.Errorf("invalid path %q: %w", path, err). -/
  | invalidPath (path : Str) (err : Error) : Error
  /-- The value errors.Join builds from the non-nil errors it is given. -/
  | join (errs : List Error) : Error

/-- Go errors.Join: nil errors are discarded, nil is returned when none is left. -/
def Join (errs : List (Option Error)) : Option Error :=
  match errs.filterMap id with
  | [] => none
  | es => some (Error.join es)

mutual
/-- Go errors.Is(err, ErrIllegalToken): the error is the sentinel, or wraps an
error that is or wraps it; a joined error wraps each of the errors joined. -/
def Error.wrapsIllegalToken : Error → Bool
  | .ErrIllegalToken => true
  | .char _ err => err.wrapsIllegalToken
  | .invalidPath _ err => err.wrapsIllegalToken
  | .join errs => Error.anyWrapsIllegalToken errs
/-- Some error of the list is or wraps ErrIllegalToken. -/
def Error.anyWrapsIllegalToken : List Error → Bool
  | [] => false
  | err :: errs => err.wrapsIllegalToken || Error.anyWrapsIllegalToken errs
end

/-- What stops a call: a panic with an error value, or the runtime panic of an
index expression out of range. -/
inductive Panic where
  | error (err : Error) : Panic
  | indexOutOfRange (index : Int) (length : Nat) : Panic

/-- The index expression s[i] of Go, which panics outside 0 ≤ i < len(s). -/
def index (s : List Str) (i : Int) : Except Panic Str :=
  if 0 ≤ i ∧ i < (s.length : Int) then .ok (s.getD i.toNat []) else .error (.indexOutOfRange i s.length)

/-! ## Path tokenizer -/

/-- The function parseToken: is char a token, and if so is it allowed here; the
new set of allowed tokens is returned. -/
def parseToken (char : Str) (allowed : List Str) : Except Error (Bool × List Str) :=
  let res := char == delimiter || char == indexOpen || char == indexClose
  if res && !Contains allowed char then
    .error (.char char .ErrIllegalToken)
  else if res then
    if char == indexClose then .ok (res, [delimiter, indexOpen])
    else if char == delimiter then .ok (res, [delimiter, indexOpen])
    else if char == indexOpen then .ok (res, [indexClose])
    else .ok (res, allowed)
  else .ok (res, allowed)

/-- The loop of parts over the characters from cursor on. The slice
path[start:cursor] is carried as cur, so start != cursor reads cur ≠ []. -/
def partsLoop (path : Str) : List Char → List Str → List Str → Str → Except Error (List Str)
  | [], _, res, cur => .ok (if cur ≠ [] then res ++ [cur] else res)
  | c :: rest, allowed, res, cur =>
    match parseToken [c] allowed with
    | .error err => .error (.invalidPath path err)
    | .ok (isToken, allowed) =>
      if isToken && cur ≠ [] && ([c] == delimiter || [c] == indexOpen) then
        partsLoop path rest allowed (res ++ [cur]) [c]
      else
        partsLoop path rest allowed res (cur ++ [c])

/-- The function parts: the segments of a path, each with the delimiter or
bracket that opens it. -/
def parts (path : Str) : Except Error (List Str) :=
  if path = [] then .ok []
  else partsLoop path path [indexOpen, delimiter] [] []

/-! ## Nodes -/

/-- The kind of a yaml.Node; zero is the kind of the zero value. -/
inductive Kind where
  | zero | DocumentNode | SequenceNode | MappingNode | ScalarNode | AliasNode
  deriving DecidableEq

/-- A pointer to a yaml.Node (never nil; a nilable pointer is an Option Ptr). -/
abbrev Ptr := Nat

/-- The fields of yaml.Node the package reads and writes; Content holds the
pointers to the children. -/
structure Node where
  Kind : Kind
  Value : Str
  Content : List Ptr
  deriving DecidableEq

/-- The memory the pointers point into. -/
abbrev Heap := List Node

/-- The node a pointer points to (the zero Node for a pointer outside the heap,
which a tree built by the decoder never holds). -/
def Heap.deref (H : Heap) (p : Ptr) : Node := H.getD p ⟨.zero, [], []⟩

/-- The assignment of a new Content slice to the node at p. -/
def Heap.setContent (H : Heap) (p : Ptr) (content : List Ptr) : Heap :=
  H.set p { H.deref p with Content := content }

/-- The local type Pair of both ordering functions: a single entry that has both
the key and the value of a mapping. -/
structure Pair where
  Key : Ptr
  Value : Ptr
  deriving DecidableEq

/-- The pairs gathered from a Content slice by the loops
"for i, node := range value.Content" of both ordering functions: every odd i
gives Pair(Content[i-1], Content[i]). -/
def pairs : List Ptr → List Pair
  | key :: value :: rest => ⟨key, value⟩ :: pairs rest
  | _ => []

/-- The loop "for i, pair := range sorted" that writes the pairs back:
Content[i*2] = pair.Key, Content[i*2+1] = pair.Value. -/
def writePairs : List Pair → Nat → List Ptr → List Ptr
  | [], _, content => content
  | pair :: sorted, i, content =>
    writePairs sorted (i + 1) ((content.set (i * 2) pair.Key).set (i * 2 + 1) pair.Value)

/-- The builtin copy(dst, src) of Go, as the new value of dst. -/
def copy (dst src : List Ptr) : List Ptr :=
  src.take dst.length ++ dst.drop src.length

/-! ## Rules and ordering functions -/

/-- The type OrderFn: executed on some yaml.Node with the key being a JSONPath
like value; it acts on the heap. -/
abbrev OrderFn := Str → Option Ptr → Heap → Heap

/-- Go slices.SortedFunc (of slices.Values of a slice), taken as a parameter. -/
abbrev Sorter := (α : Type) → (α → α → Int) → List α → List α

/-- The comparison function of NewSimpleOrdering. -/
def simpleCmp (H : Heap) (keys : List Str) (nodes : List Pair) (e e2 : Pair) : Int :=
  let eIdx := Index keys (H.deref e.Key).Value
  let e2Idx := Index keys (H.deref e2.Key).Value
  if eIdx ≥ 0 ∧ e2Idx ≥ 0 then CompareInt eIdx e2Idx
  else if eIdx ≥ 0 then -1
  else if e2Idx ≥ 0 then 1
  else CompareInt (Index nodes e) (Index nodes e2)

/-- The function NewSimpleOrdering: sorts the keys of a yaml.MappingNode in the
order provided with keys; keys of the node that are not among them keep their
original order after all supplied keys. -/
def NewSimpleOrdering (SortedFunc : Sorter) (keys : List Str) : OrderFn :=
  fun _ value H =>
    match value with
    | none => H
    | some value =>
      let node := H.deref value
      if keys.length = 0 ∨ node.Content.length = 0 ∨ node.Kind ≠ .MappingNode then H
      else
        let nodes := pairs node.Content
        let sorted := SortedFunc Pair (simpleCmp H keys nodes) nodes
        H.setContent value (writePairs sorted 0 node.Content)

/-- The function StringOrderingFn: sorts a yaml.MappingNode and a
yaml.SequenceNode on their yaml.Node.Value using cmp.Compare. -/
def StringOrderingFn (SortedFunc : Sorter) : OrderFn :=
  fun _ value H =>
    match value with
    | none => H
    | some value =>
      let node := H.deref value
      if node.Content.length = 0 ∨ (node.Kind ≠ .MappingNode ∧ node.Kind ≠ .SequenceNode) then H
      else if node.Kind = .SequenceNode then
        let sorted := SortedFunc Ptr
          (fun e e2 => Compare (H.deref e).Value (H.deref e2).Value) node.Content
        H.setContent value (copy node.Content sorted)
      else
        let nodes := pairs node.Content
        let sorted := SortedFunc Pair
          (fun e e2 => Compare (H.deref e.Key).Value (H.deref e2.Key).Value) nodes
        H.setContent value (writePairs sorted 0 node.Content)

/-- The type Rule: combines a JSONPath like syntax to the functions to apply on
the node. -/
structure Rule where
  Path : Str
  Functions : List OrderFn

/-- The constructor NewRule. -/
def NewRule (path : Str) (fns : List OrderFn) : Rule := ⟨path, fns⟩

/-- The method Rule.Run: run Rule.Functions for given key and value. -/
def Rule.Run (r : Rule) (key : Str) (value : Ptr) (H : Heap) : Heap :=
  r.Functions.foldl (fun H fn => fn key (some value) H) H

/-! ## Segment matcher -/

/-- The loop "for i, pathPart := range pathParts" of contains, from index i on. -/
def containsLoop [Folding] (rulePathParts : List Str) : Nat → List Str → Except Panic Bool
  | _, [] => .ok true
  | i, pathPart :: rest =>
    if (i : Int) > (rulePathParts.length : Int) - 1 then .ok false -- to deep
    else
      match index rulePathParts i with
      | .error p => .error p
      | .ok rulePart =>
        if !EqualFold pathPart rulePart && !EqualFold rulePart all &&
            !EqualFold rulePart (indexOpen ++ all ++ indexClose) then .ok false
        else containsLoop rulePathParts (i + 1) rest

/-- The method Rule.contains: true iff the path is still possible from the
Rule.Path. -/
def Rule.contains [Folding] (r : Rule) (path : Str) : Except Panic Bool :=
  if !HasPrefix r.Path root then .ok true
  else
    match parts path with
    | .error pathErr => .error (.error pathErr)
    | .ok pathParts =>
      match parts r.Path with
      | .error rulePathErr => .error (.error rulePathErr)
      | .ok rulePathParts => containsLoop rulePathParts 0 pathParts

/-- The loop "for i := len(rulePathParts) - 1; i >= 0; i--" of match, with n
iterations left, the next one at i = n - 1. -/
def matchRelativeLoop [Folding] (rulePathParts pathParts : List Str) : Nat → Except Panic Bool
  | 0 => .ok true
  | i + 1 =>
    match index rulePathParts i with
    | .error p => .error p
    | .ok rulePart =>
      let pathPartIndex : Int :=
        ((pathParts.length : Int) - 1) - (((rulePathParts.length : Int) - 1) - i)
      if pathPartIndex > (pathParts.length : Int) - 1 then .ok false -- path did not match
      else
        match index pathParts pathPartIndex with
        | .error p => .error p
        | .ok pathPart =>
          if !EqualFold pathPart rulePart && !EqualFold rulePart (delimiter ++ all) &&
              !EqualFold rulePart (indexOpen ++ all ++ indexClose) then .ok false
          else matchRelativeLoop rulePathParts pathParts i

/-- The loop "for i, pathPart := range pathParts" of match, from index i on. -/
def matchLoop [Folding] (rulePathParts : List Str) : Nat → List Str → Except Panic Bool
  | _, [] => .ok true
  | i, pathPart :: rest =>
    if (i : Int) > (rulePathParts.length : Int) - 1 then .ok false -- to deep
    else
      match index rulePathParts i with
      | .error p => .error p
      | .ok rulePart =>
        if !EqualFold pathPart rulePart && !EqualFold rulePart (delimiter ++ all) &&
            !EqualFold rulePart (indexOpen ++ all ++ indexClose) then .ok false
        else matchLoop rulePathParts (i + 1) rest

/-- The method Rule.match: true iff the Rule.Path matches the provided path. -/
def Rule.«match» [Folding] (r : Rule) (path : Str) : Except Panic Bool :=
  match parts path with
  | .error pathErr => .error (.error pathErr)
  | .ok pathParts =>
    match parts r.Path with
    | .error rulePathErr => .error (.error rulePathErr)
    | .ok rulePathParts =>
      let relative := !HasPrefix r.Path root
      if !relative && pathParts.length ≠ rulePathParts.length then .ok false
      else if relative then matchRelativeLoop rulePathParts pathParts rulePathParts.length
      else matchLoop rulePathParts 0 pathParts

/-! ## Children expansion and Lint -/

/-- A Go map from path strings to node pointers, as the list of its entries
(no two with the same key). -/
abbrev PathMap := List (Str × Ptr)

/-- The assignment m[k] = v on a map. -/
def mapSet : PathMap → Str → Ptr → PathMap
  | [], k, v => [(k, v)]
  | (k0, v0) :: m, k, v => if k0 = k then (k, v) :: m else (k0, v0) :: mapSet m k v

/-- Go strconv.Itoa on an index. -/
def Itoa (i : Nat) : Str := Nat.toDigits 10 i

/-- The loop of next over the Content of a mapping node, from index i on. -/
def nextMapping (H : Heap) (cursor : Str) : List Ptr → Nat → Str → PathMap → PathMap
  | [], _, _, res => res
  | content :: rest, i, key, res =>
    if i % 2 = 0 then
      nextMapping H cursor rest (i + 1) (cursor ++ delimiter ++ (H.deref content).Value) res
    else nextMapping H cursor rest (i + 1) key (mapSet res key content)

/-- The loop of next over the Content of a sequence node, from index i on. -/
def nextSequence (cursor : Str) : List Ptr → Nat → PathMap → PathMap
  | [], _, res => res
  | content :: rest, i, res =>
    nextSequence cursor rest (i + 1) (mapSet res (cursor ++ indexOpen ++ Itoa i ++ indexClose) content)

/-- The function next: the paths that can be taken on the node, suffixed to the
passed cursor. -/
def next (H : Heap) (cursor : Str) (node : Option Ptr) : PathMap :=
  match node with
  | none => []
  | some node =>
    if (H.deref node).Kind = .MappingNode then nextMapping H cursor (H.deref node).Content 0 [] []
    else if (H.deref node).Kind = .SequenceNode then nextSequence cursor (H.deref node).Content 0 []
    else []

/-- What a run of Lint has done so far: the heap, and (for the proofs only) the
calls of Rule.Run it made, oldest first. -/
structure State where
  heap : Heap
  calls : List (Str × Ptr)
  deriving DecidableEq

/-- How a run ends: normally, by a panic (with the state the panic leaves
behind), or not within the removals given. -/
inductive Outcome where
  | done (st : State) (choices : List Nat) : Outcome
  | panic (p : Panic) (st : State) : Outcome
  | pending : Outcome

/-- The loop "for len(queue) > 0" of Lint for one rule. Go removes an arbitrary
entry of the map: the entry removed in an iteration is the one numbered by the
next element of choices (modulo the size of the queue). -/
def lintLoop [Folding] (rule : Rule) : List Nat → PathMap → State → Outcome
  | [], queue, st => if queue.length > 0 then .pending else .done st []
  | c :: choices, queue, st =>
    if ¬ queue.length > 0 then .done st (c :: choices)
    else
      -- dequeue key=value pair
      let key := (queue.getD (c % queue.length) ([], 0)).1
      let node := (queue.getD (c % queue.length) ([], 0)).2
      let queue := queue.eraseIdx (c % queue.length)
      -- match rule
      match rule.contains key with
      | .error p => .panic p st
      | .ok false => lintLoop rule choices queue st
      | .ok true =>
        -- add next to queue
        let queue := (next st.heap key (some node)).foldl (fun q kv => mapSet q kv.1 kv.2) queue
        -- if match, run Fn
        match rule.«match» key with
        | .error p => .panic p st
        | .ok true =>
          lintLoop rule choices queue ⟨rule.Run key node st.heap, st.calls ++ [(key, node)]⟩
        | .ok false => lintLoop rule choices queue st

/-- The loop "for _, rule := range rules" of Lint. -/
def lintRules [Folding] (path : Str) (cursor : Ptr) : List Rule → List Nat → State → Outcome
  | [], choices, st => .done st choices
  | rule :: rules, choices, st =>
    match lintLoop rule choices [(path, cursor)] st with
    | .done st choices => lintRules path cursor rules choices st
    | .panic p st => .panic p st
    | .pending => .pending

/-- The function Lint: lint a yaml.Node with the provided slice of Rule. -/
def Lint [Folding] (choices : List Nat) (st : State) (node : Option Ptr) (rules : List Rule) : Outcome :=
  match node with
  | none => .done st choices
  | some node =>
    if rules.length = 0 then .done st choices
    else if (st.heap.deref node).Kind = .DocumentNode then
      -- document node, the root path starts with $
      match (st.heap.deref node).Content with
      | [] => .done st choices -- nothing to order
      | cursor :: _ => lintRules root cursor rules choices st
    else lintRules [] node rules choices st

/-- The function Validate: validate rules that there are no parse errors. -/
def Validate (rules : List Rule) : Option Error :=
  if rules.length = 0 then none
  else
    rules.foldl (fun err rule =>
      match parts rule.Path with
      | .error ruleErr => Join [err, some ruleErr]
      | .ok _ => err) none


/-! ## Specification vocabulary -/

/-- Is the character one of the structural characters '.', '[' and ']'. -/
def isStructural (c : Char) : Bool := c = '.' ∨ c = '[' ∨ c = ']'

/-- The structural characters of a path, in order. -/
def structural (path : Str) : List Char := path.filter isStructural

/-- A structural character that may not stand after the structural character
prev (none at the start of the path): a ']' not immediately preceded by '[', or
a '.' or '[' immediately preceded by '['. -/
def Illegal (prev : Option Char) (c : Char) : Prop :=
  (c = ']' ∧ prev ≠ some '[') ∨ ((c = '.' ∨ c = '[') ∧ prev = some '[')

instance (prev : Option Char) (c : Char) : Decidable (Illegal prev c) := by
  unfold Illegal; infer_instance

/-- The first illegal character of a list of structural characters read after prev. -/
def firstIllegal : Option Char → List Char → Option Char
  | _, [] => none
  | prev, c :: rest => if Illegal prev c then some c else firstIllegal (some c) rest

/-- The allowed tokens of parts after the structural character prev. -/
def allowedAfter : Option Char → List Str
  | none => [indexOpen, delimiter]
  | some c => if c = '[' then [indexClose] else [delimiter, indexOpen]

mutual
/-- The errors an error value aggregates, in order: those joined by errors.Join
(however nested), or the error itself. -/
def Error.flatten : Error → List Error
  | .join errs => flattenAll errs
  | .ErrIllegalToken => [.ErrIllegalToken]
  | .char c err => [.char c err]
  | .invalidPath path err => [.invalidPath path err]
/-- The errors a list of error values aggregates, in order. -/
def flattenAll : List Error → List Error
  | [] => []
  | err :: errs => err.flatten ++ flattenAll errs
end

/-- The tokenizer errors of the rule paths the tokenizer rejects, in list order. -/
def pathErrors (rules : List Rule) : List Error :=
  rules.filterMap (fun rule =>
    match parts rule.Path with
    | .error err => some err
    | .ok _ => none)

/-- The key wildcard segment '.*'. -/
def keyWildcard : Str := ['.', '*']

/-- The index wildcard segment '[*]'. -/
def indexWildcard : Str := ['[', '*', ']']

/-- A rule segment accepts a candidate segment: the two are equal ignoring case,
that is equal under strings.EqualFold, or the rule segment is the key wildcard
or the index wildcard. -/
def Accepts [Folding] (pathPart rulePart : Str) : Prop :=
  EqualFold pathPart rulePart = true ∨ rulePart = keyWildcard ∨ rulePart = indexWildcard

instance [Folding] (pathPart rulePart : Str) : Decidable (Accepts pathPart rulePart) := by
  unfold Accepts; infer_instance

/-- What Go documents of slices.SortedFunc: the result holds the values of the
slice (a permutation of them), and it is sorted in ascending order as determined
by cmp, no value being less than one before it, when "cmp(a, b) < 0" is a strict
weak ordering. Nothing is promised about the order of values that compare equal. -/
def SortContract (SortedFunc : Sorter) : Prop :=
  ∀ (α : Type) (cmp : α → α → Int) (l : List α),
    (SortedFunc α cmp l).Perm l ∧
      (IsStrictWeakOrder α (fun a b => cmp a b < 0) →
        (SortedFunc α cmp l).Pairwise (fun a b => ¬ cmp b a < 0))

/-- Insertion sort, the algorithm of Go's slices package on short slices: one
sorter that meets the contract. -/
def insertionSortedFunc : Sorter :=
  fun _ cmp l => l.insertionSort (fun a b => ¬ cmp b a < 0)

/-- The Content slice that holds the given pairs, each key followed by its value. -/
def unpairs : List Pair → List Ptr
  | [] => []
  | e :: rest => e.Key :: e.Value :: unpairs rest

/-- The text of the node at p. -/
def Heap.text (H : Heap) (p : Ptr) : Str := (H.deref p).Value

/-- The text of the key of a pair. -/
def Heap.keyText (H : Heap) (e : Pair) : Str := (H.deref e.Key).Value

/-! ## Example trees -/

/-- The tree of TestStringOrderingFn_SortsSequence: the sequence c, b, a. -/
def sequenceCBA : Heap :=
  [⟨.SequenceNode, [], [1, 2, 3]⟩, ⟨.ScalarNode, "c".toList, []⟩, ⟨.ScalarNode, "b".toList, []⟩,
    ⟨.ScalarNode, "a".toList, []⟩]

/-- The tree of TestNewSimpleOrdering: the mapping with the keys c, f, b, e, a. -/
def mappingCFBEA : Heap :=
  [⟨.MappingNode, [], [1, 2, 3, 4, 5, 6, 7, 8, 9, 10]⟩,
    ⟨.ScalarNode, "c".toList, []⟩, ⟨.ScalarNode, "c-value".toList, []⟩,
    ⟨.ScalarNode, "f".toList, []⟩, ⟨.ScalarNode, "f-value".toList, []⟩,
    ⟨.ScalarNode, "b".toList, []⟩, ⟨.ScalarNode, "b-value".toList, []⟩,
    ⟨.ScalarNode, "e".toList, []⟩, ⟨.ScalarNode, "e-value".toList, []⟩,
    ⟨.ScalarNode, "a".toList, []⟩, ⟨.ScalarNode, "a-value".toList, []⟩]

/-- The tree of TestLint_DocumentNode: a document whose content is the mapping
foo: bar, test: value, abc: def. -/
def documentFooTestAbc : Heap :=
  [⟨.DocumentNode, [], [1]⟩, ⟨.MappingNode, [], [2, 3, 4, 5, 6, 7]⟩,
    ⟨.ScalarNode, "foo".toList, []⟩, ⟨.ScalarNode, "bar".toList, []⟩,
    ⟨.ScalarNode, "test".toList, []⟩, ⟨.ScalarNode, "value".toList, []⟩,
    ⟨.ScalarNode, "abc".toList, []⟩, ⟨.ScalarNode, "def".toList, []⟩]

/-- A document whose content is the mapping a: (z: 1, y: 2), a mapping in a
mapping. -/
def documentNested : Heap :=
  [⟨.DocumentNode, [], [1]⟩, ⟨.MappingNode, [], [2, 3]⟩,
    ⟨.ScalarNode, "a".toList, []⟩, ⟨.MappingNode, [], [4, 5, 6, 7]⟩,
    ⟨.ScalarNode, "z".toList, []⟩, ⟨.ScalarNode, "1".toList, []⟩,
    ⟨.ScalarNode, "y".toList, []⟩, ⟨.ScalarNode, "2".toList, []⟩]


/-- A well-cut segment: it is not empty, and '.' and '[' occur in it only as its
first character. -/
def WellCut (seg : Str) : Prop :=
  seg ≠ [] ∧ ∀ c ∈ seg.tail, c ≠ '.' ∧ c ≠ '['

/-- A segment that starts with the delimiter '.' or with the bracket '['. -/
def StartsSegment (seg : Str) : Prop :=
  ∃ c t, seg = c :: t ∧ (c = '.' ∨ c = '[')

/-- The heap H2 differs from H only by position: it has the same nodes, each
with its kind and text, the Content of each node is a permutation of what it
was, and the (key, value) pairs of each Mapping are, as pairs, a permutation of
what they were. -/
def Reordered (H H2 : Heap) : Prop :=
  H2.length = H.length ∧
    ∀ p, (H2.deref p).Kind = (H.deref p).Kind ∧ (H2.deref p).Value = (H.deref p).Value ∧
      (H2.deref p).Content.Perm (H.deref p).Content ∧
      ((H.deref p).Kind = .MappingNode →
        (pairs (H2.deref p).Content).Perm (pairs (H.deref p).Content))

/-- A document whose content is the mapping b: 1, a: 2. -/
def documentBA : Heap :=
  [⟨.DocumentNode, [], [1]⟩, ⟨.MappingNode, [], [2, 3, 4, 5]⟩,
    ⟨.ScalarNode, "b".toList, []⟩, ⟨.ScalarNode, "1".toList, []⟩,
    ⟨.ScalarNode, "a".toList, []⟩, ⟨.ScalarNode, "2".toList, []⟩]

/-! ## The default rules -/

/-- A list of Go string literals. -/
def strs (l : List String) : List Str := l.map String.toList

/-- The ordering operationFn of DefaultOpenAPIRules. -/
def operationFn (SortedFunc : Sorter) : OrderFn :=
  NewSimpleOrdering SortedFunc
    (strs ["tags", "summary", "description", "externalDocs", "operationId", "parameters",
      "requestBody", "responses", "callbacks", "deprecated", "security", "servers"])

/-- The ordering mediaTypeFn of DefaultOpenAPIRules. -/
def mediaTypeFn (SortedFunc : Sorter) : OrderFn :=
  NewSimpleOrdering SortedFunc
    (strs ["schema", "example", "examples", "encoding"])

/-- The ordering schemaFn of DefaultOpenAPIRules. -/
def schemaFn (SortedFunc : Sorter) : OrderFn :=
  NewSimpleOrdering SortedFunc
    (strs ["title", "type", "format", "required", "oneOf", "anyOf", "allOf", "properties",
      "additionalProperties"])

/-- The function DefaultOpenAPIRules: an opinionated ordering of an openapi.yaml
file. -/
def DefaultOpenAPIRules (SortedFunc : Sorter) : List Rule :=
  [NewRule "$".toList
      [StringOrderingFn SortedFunc,
        NewSimpleOrdering SortedFunc (strs ["openapi", "info", "jsonSchemaDialect", "servers",
          "paths", "webhooks", "components", "security", "tags", "externalDocs"])],
    NewRule "$.info".toList
      [StringOrderingFn SortedFunc,
        NewSimpleOrdering SortedFunc (strs ["title", "summary", "description", "termsOfService",
          "contact", "license", "version"])],
    NewRule "$.info.contact".toList
      [StringOrderingFn SortedFunc,
        NewSimpleOrdering SortedFunc (strs ["name", "url", "email"])],
    NewRule "$.info.license".toList
      [StringOrderingFn SortedFunc,
        NewSimpleOrdering SortedFunc (strs ["name", "identifier", "url"])],
    NewRule "$.servers[*]".toList
      [StringOrderingFn SortedFunc,
        NewSimpleOrdering SortedFunc (strs ["url", "description", "variables"])],
    NewRule "$.servers[*].variables".toList
      [StringOrderingFn SortedFunc],
    NewRule "$.servers[*].variables[*]".toList
      [StringOrderingFn SortedFunc,
        NewSimpleOrdering SortedFunc (strs ["enum", "default", "description"])],
    NewRule "$.components".toList
      [StringOrderingFn SortedFunc,
        NewSimpleOrdering SortedFunc (strs ["schemas", "responses", "parameters", "examples",
          "requestBodies", "headers", "securitySchemes", "links", "callbacks", "pathItems"])],
    NewRule "$.paths".toList
      [StringOrderingFn SortedFunc],
    NewRule "$.paths[*]".toList
      [StringOrderingFn SortedFunc,
        NewSimpleOrdering SortedFunc (strs ["$ref", "summary", "description", "get", "put",
          "post", "delete", "options", "head", "patch", "trace", "servers", "parameters"])],
    NewRule "$.paths[*].get".toList
      [StringOrderingFn SortedFunc,
        operationFn SortedFunc],
    NewRule "$.paths[*].put".toList
      [StringOrderingFn SortedFunc,
        operationFn SortedFunc],
    NewRule "$.paths[*].post".toList
      [StringOrderingFn SortedFunc,
        operationFn SortedFunc],
    NewRule "$.paths[*].delete".toList
      [StringOrderingFn SortedFunc,
        operationFn SortedFunc],
    NewRule "$.paths[*].options".toList
      [StringOrderingFn SortedFunc,
        operationFn SortedFunc],
    NewRule "$.paths[*].head".toList
      [StringOrderingFn SortedFunc,
        operationFn SortedFunc],
    NewRule "$.paths[*].patch".toList
      [StringOrderingFn SortedFunc,
        operationFn SortedFunc],
    NewRule "$.paths[*].trace".toList
      [StringOrderingFn SortedFunc,
        operationFn SortedFunc],
    NewRule "$.paths[*][*].externalDocs".toList
      [StringOrderingFn SortedFunc,
        NewSimpleOrdering SortedFunc (strs ["description", "url"])],
    NewRule "$.paths[*][*].parameters[*]".toList
      [StringOrderingFn SortedFunc,
        NewSimpleOrdering SortedFunc (strs ["$ref", "name", "in", "description", "required",
          "deprecated", "allowEmptyValue", "style", "explode", "allowReserved", "schema"])],
    NewRule "$.paths[*][*].requestBody".toList
      [StringOrderingFn SortedFunc,
        NewSimpleOrdering SortedFunc (strs ["description", "content", "required"])],
    NewRule "$.paths[*][*].requestBody.content".toList
      [StringOrderingFn SortedFunc],
    NewRule "$.paths[*][*].requestBody.content[*]".toList
      [StringOrderingFn SortedFunc,
        mediaTypeFn SortedFunc],
    NewRule "$.paths[*][*].responses".toList
      [StringOrderingFn SortedFunc],
    NewRule "$.paths[*][*].responses[*]".toList
      [StringOrderingFn SortedFunc,
        NewSimpleOrdering SortedFunc (strs ["description", "headers", "content", "links"])],
    NewRule "$.paths[*][*].responses[*].content".toList
      [StringOrderingFn SortedFunc,
        mediaTypeFn SortedFunc],
    NewRule ".schema".toList
      [StringOrderingFn SortedFunc,
        schemaFn SortedFunc],
    NewRule "$.components.schemas[*]".toList
      [StringOrderingFn SortedFunc,
        schemaFn SortedFunc],
    NewRule ".schema.properties".toList
      [StringOrderingFn SortedFunc],
    NewRule ".schemas[*].properties".toList
      [StringOrderingFn SortedFunc]]

/-! ## The nodes a traversal reaches -/

/-- The node p at path k together with everything children expansion reaches
from it within n levels, parents before their children. -/
def entries (H : Heap) : Nat → Str → Ptr → PathMap
  | 0, k, p => [(k, p)]
  | n + 1, k, p => (k, p) :: (next H k (some p)).flatMap (fun kv => entries H n kv.1 kv.2)

/-- Below the node p at path k, children expansion ends within n levels. -/
def Covered (H : Heap) : Nat → Str → Ptr → Prop
  | 0, k, p => next H k (some p) = []
  | n + 1, k, p => ∀ kv ∈ next H k (some p), Covered H n kv.1 kv.2

instance (H : Heap) (n : Nat) (k : Str) (p : Ptr) : Decidable (Covered H n k p) := by
  induction n generalizing k p with
  | zero => unfold Covered; infer_instance
  | succ n ih => unfold Covered; infer_instance

/-- The entries a pass of the rule takes from its queue when it starts at the
node p with path k: the children of an entry are visited when contains is true
for its path. -/
def visits [Folding] (r : Rule) (H : Heap) : Nat → Str → Ptr → PathMap
  | 0, k, p => [(k, p)]
  | n + 1, k, p =>
    (k, p) :: (match r.contains k with
      | .ok true => (next H k (some p)).flatMap (fun kv => visits r H n kv.1 kv.2)
      | _ => [])

/-- The rule rewrites nothing but the Content of the node it is run on, and the
new Content is a function of the key, of that node and of the texts of the
nodes. -/
def LocalRule (r : Rule) : Prop :=
  ∃ g : Str → Node → (Ptr → Str) → List Ptr,
    ∀ (key : Str) (p : Ptr) (H : Heap),
      r.Run key p H = H.setContent p (g key (H.deref p) (fun q => (H.deref q).Value))

/-- The rule is run at the path: contains and match are both true for it. -/
def Rule.runsAt [Folding] (r : Rule) (k : Str) : Prop :=
  r.contains k = .ok true ∧ r.«match» k = .ok true

/-- Neither contains nor, where Lint gets to it, match panics at the path. -/
def Rule.safeAt [Folding] (r : Rule) (k : Str) : Prop :=
  (∃ b, r.contains k = .ok b) ∧ (r.contains k = .ok true → ∃ b, r.«match» k = .ok b)

/-- The heap H2 is the heap H after the rule was run once at each of the entries
of V it is run at, and nowhere else. -/
def PassResult [Folding] (r : Rule) (H : Heap) (V : PathMap) (H2 : Heap) : Prop :=
  H2.length = H.length ∧
    (∀ q, (H2.deref q).Value = (H.deref q).Value) ∧
    (∀ q, (∀ kv ∈ V, kv.2 = q → ¬ r.runsAt kv.1) → H2.deref q = H.deref q) ∧
    (∀ kv ∈ V, r.runsAt kv.1 → H2.deref kv.2 = (r.Run kv.1 kv.2 H).deref kv.2) ∧
    (∀ kv ∈ V, r.safeAt kv.1)

/-- The ordering function rewrites nothing but the Content of the node it is
given, and the new Content is a function of the key, of that node and of the
texts of the nodes. -/
def LocalFn (f : OrderFn) : Prop :=
  ∃ g : Str → Node → (Ptr → Str) → List Ptr,
    ∀ (key : Str) (p : Ptr) (H : Heap),
      f key (some p) H = H.setContent p (g key (H.deref p) (fun q => (H.deref q).Value))

/-- If the node is a Mapping, its Content is a list of (key, value) pairs with
pairwise distinct key texts. -/
def WellKeyed (H : Heap) (p : Ptr) : Prop :=
  (H.deref p).Kind = .MappingNode →
    Even (H.deref p).Content.length ∧ ((pairs (H.deref p).Content).map H.keyText).Nodup

instance (H : Heap) (p : Ptr) : Decidable (WellKeyed H p) := by
  unfold WellKeyed; infer_instance

/-- The part of the heap below the node p at path k is a tree of at most n
levels: children expansion ends, reaches no node twice and gives no two nodes
the same path, and every Mapping it reaches has pairwise distinct key texts. -/
def TreeLike (H : Heap) (n : Nat) (k : Str) (p : Ptr) : Prop :=
  Covered H n k p ∧ ((entries H n k p).map Prod.fst).Nodup ∧
    ((entries H n k p).map Prod.snd).Nodup ∧ ∀ kv ∈ entries H n k p, WellKeyed H kv.2

instance (H : Heap) (n : Nat) (k : Str) (p : Ptr) : Decidable (TreeLike H n k p) := by
  unfold TreeLike; infer_instance

/-- The heap H2 is the heap H with the (key, value) pairs of some Mappings in
another order; nothing else differs. -/
def Shuffled (H H2 : Heap) : Prop :=
  H2.length = H.length ∧
    ∀ p, (H2.deref p).Kind = (H.deref p).Kind ∧ (H2.deref p).Value = (H.deref p).Value ∧
      ((H.deref p).Kind ≠ .MappingNode → (H2.deref p).Content = (H.deref p).Content) ∧
      ((H.deref p).Kind = .MappingNode →
        (pairs (H2.deref p).Content).Perm (pairs (H.deref p).Content) ∧
          (H2.deref p).Content.length = (H.deref p).Content.length)

/-- The document info.contact: (b: 1, a: 2), info: (contact: x), where the key
info.contact and the key contact of info get the same path. -/
def docCollide : Heap :=
  [⟨.DocumentNode, [], [1]⟩, ⟨.MappingNode, [], [2, 3, 4, 5]⟩,
    ⟨.ScalarNode, "info.contact".toList, []⟩, ⟨.MappingNode, [], [6, 7, 8, 9]⟩,
    ⟨.ScalarNode, "info".toList, []⟩, ⟨.MappingNode, [], [10, 11]⟩,
    ⟨.ScalarNode, "b".toList, []⟩, ⟨.ScalarNode, "1".toList, []⟩,
    ⟨.ScalarNode, "a".toList, []⟩, ⟨.ScalarNode, "2".toList, []⟩,
    ⟨.ScalarNode, "contact".toList, []⟩, ⟨.ScalarNode, "x".toList, []⟩]

/-- The document info: (version: 1, title: t), openapi: 3. -/
def docInfo : Heap :=
  [⟨.DocumentNode, [], [1]⟩, ⟨.MappingNode, [], [2, 3, 4, 5]⟩,
    ⟨.ScalarNode, "info".toList, []⟩, ⟨.MappingNode, [], [6, 7, 8, 9]⟩,
    ⟨.ScalarNode, "openapi".toList, []⟩, ⟨.ScalarNode, "3".toList, []⟩,
    ⟨.ScalarNode, "version".toList, []⟩, ⟨.ScalarNode, "1".toList, []⟩,
    ⟨.ScalarNode, "title".toList, []⟩, ⟨.ScalarNode, "t".toList, []⟩]

/-- The document a]: 1, a mapping whose key holds a ']'. -/
def docBracketKey : Heap :=
  [⟨.DocumentNode, [], [1]⟩, ⟨.MappingNode, [], [2, 3]⟩,
    ⟨.ScalarNode, "a]".toList, []⟩, ⟨.ScalarNode, "1".toList, []⟩]

/-- The document b: 1, a: 2 of documentBA, and next to it, outside the document,
the mapping d: 3, c: 4 at node 6. -/
def docSpare : Heap :=
  documentBA ++ [⟨.MappingNode, [], [7, 8, 9, 10]⟩,
    ⟨.ScalarNode, "d".toList, []⟩, ⟨.ScalarNode, "3".toList, []⟩,
    ⟨.ScalarNode, "c".toList, []⟩, ⟨.ScalarNode, "4".toList, []⟩]

/-- An ordering function that does not order: whatever node it is given, it
makes node 6 the content of the Document at node 0 (in Go, a function value that
holds the document and the other node and assigns to the Content of the
document). -/
def repoint : OrderFn := fun _ _ H => H.setContent 0 [6]

/-- The document a: (x), b: (y) with two one-element sequences. -/
def docSiblings : Heap :=
  [⟨.DocumentNode, [], [1]⟩, ⟨.MappingNode, [], [2, 3, 4, 5]⟩,
    ⟨.ScalarNode, "a".toList, []⟩, ⟨.SequenceNode, [], [6]⟩,
    ⟨.ScalarNode, "b".toList, []⟩, ⟨.SequenceNode, [], [7]⟩,
    ⟨.ScalarNode, "x".toList, []⟩, ⟨.ScalarNode, "y".toList, []⟩]

/-- An ordering function that rewrites only the Content of the node it is given
but reads another node: given node 3 it assigns it the Content of node 5, given
node 5 the Content of node 3 (in Go, a function value that holds the two
sequences of docSiblings). -/
def peek : OrderFn := fun _ value H =>
  match value with
  | some 3 => H.setContent 3 (H.deref 5).Content
  | some 5 => H.setContent 5 (H.deref 3).Content
  | _ => H
/-! ## The tokenizer -/

theorem partsLoop_nonstructural (path : Str) (c : Char) (rest : List Char) (allowed res : List Str)
    (cur : Str) (h : isStructural c = false) :
    partsLoop path (c :: rest) allowed res cur = partsLoop path rest allowed res (cur ++ [c]) := by
  simp only [isStructural, decide_eq_false_iff_not, not_or, Bool.decide_or, Bool.or_eq_false_iff] at h
  obtain ⟨h1, h2, h3⟩ := h
  simp [partsLoop, parseToken, delimiter, indexOpen, indexClose, h1, h2, h3]

theorem partsLoop_illegal (path : Str) (c : Char) (rest : List Char) (prev : Option Char)
    (res : List Str) (cur : Str) (hs : isStructural c = true) (h : Illegal prev c) :
    partsLoop path (c :: rest) (allowedAfter prev) res cur =
      .error (.invalidPath path (.char [c] .ErrIllegalToken)) := by
  simp only [isStructural, Bool.decide_or, Bool.or_eq_true, decide_eq_true_eq] at hs
  rcases h with ⟨rfl, hp⟩ | ⟨hc, rfl⟩
  · cases prev with
    | none => rfl
    | some p =>
      have hp2 : p ≠ '[' := fun e => hp (by rw [e])
      simp [partsLoop, parseToken, allowedAfter, hp2, delimiter, indexOpen, indexClose, Contains, Index]
  · rcases hc with rfl | rfl <;> rfl

theorem partsLoop_legal (path : Str) (c : Char) (rest : List Char) (prev : Option Char)
    (res : List Str) (cur : Str) (hs : isStructural c = true) (h : ¬ Illegal prev c) :
    ∃ res2 cur2, partsLoop path (c :: rest) (allowedAfter prev) res cur =
      partsLoop path rest (allowedAfter (some c)) res2 cur2 := by
  simp only [isStructural, Bool.decide_or, Bool.or_eq_true, decide_eq_true_eq] at hs
  have key : parseToken [c] (allowedAfter prev) = .ok (true, allowedAfter (some c)) := by
    rcases hs with rfl | rfl | rfl
    · cases prev with
      | none => rfl
      | some p =>
        have hp : p ≠ '[' := fun e => h (Or.inr ⟨Or.inl rfl, by rw [e]⟩)
        simp [parseToken, allowedAfter, hp, delimiter, indexOpen, indexClose, Contains, Index]
    · cases prev with
      | none => rfl
      | some p =>
        have hp : p ≠ '[' := fun e => h (Or.inr ⟨Or.inr rfl, by rw [e]⟩)
        simp [parseToken, allowedAfter, hp, delimiter, indexOpen, indexClose, Contains, Index]
    · cases prev with
      | none => exact absurd (Or.inl ⟨rfl, by simp⟩) h
      | some p =>
        have hp : p = '[' := by
          by_contra hne
          exact h (Or.inl ⟨rfl, fun e => hne (Option.some.inj e)⟩)
        subst hp
        rfl
  simp only [partsLoop, key]
  split
  · exact ⟨_, _, rfl⟩
  · exact ⟨_, _, rfl⟩

theorem partsLoop_spec (path : Str) (s : List Char) :
    ∀ (prev : Option Char) (res : List Str) (cur : Str),
      match firstIllegal prev (structural s) with
      | some c => partsLoop path s (allowedAfter prev) res cur =
          .error (.invalidPath path (.char [c] .ErrIllegalToken))
      | none => ∃ l, partsLoop path s (allowedAfter prev) res cur = .ok l := by
  induction s with
  | nil => intro prev res cur; exact ⟨_, rfl⟩
  | cons c rest ih =>
    intro prev res cur
    by_cases hs : isStructural c = true
    · have hst : structural (c :: rest) = c :: structural rest := by
        simp [structural, List.filter_cons, hs]
      rw [hst]
      by_cases hi : Illegal prev c
      · simp only [firstIllegal, hi, if_true]
        exact partsLoop_illegal path c rest prev res cur hs hi
      · simp only [firstIllegal, hi, if_false]
        obtain ⟨res2, cur2, e⟩ := partsLoop_legal path c rest prev res cur hs hi
        rw [e]
        exact ih (some c) res2 cur2
    · have hs2 : isStructural c = false := by simpa using hs
      have hst : structural (c :: rest) = structural rest := by
        simp [structural, List.filter_cons, hs2]
      rw [hst, partsLoop_nonstructural path c rest _ res cur hs2]
      exact ih prev res _

theorem parts_spec (path : Str) :
    match firstIllegal none (structural path) with
    | some c => parts path = .error (.invalidPath path (.char [c] .ErrIllegalToken))
    | none => ∃ l, parts path = .ok l := by
  unfold parts
  by_cases h : path = []
  · subst h; exact ⟨_, rfl⟩
  · simp only [h, if_false]
    exact partsLoop_spec path path none [] []

/-- The first illegal character, as a split of the list around it: the character
before it is the last of pre, or prev when pre is empty. -/
theorem firstIllegal_eq_some (l : List Char) :
    ∀ (prev : Option Char) (c : Char), firstIllegal prev l = some c ↔
      ∃ pre post, l = pre ++ c :: post ∧ Illegal ((pre.getLast?).or prev) c ∧
        ∀ pre2 c2 post2, pre = pre2 ++ c2 :: post2 → ¬ Illegal ((pre2.getLast?).or prev) c2 := by
  induction l with
  | nil => intro prev c; simp [firstIllegal]
  | cons a rest ih =>
    intro prev c
    by_cases hi : Illegal prev a
    · simp only [firstIllegal, hi, if_true, Option.some.injEq]
      constructor
      · rintro rfl
        exact ⟨[], rest, rfl, by simpa using hi, by simp⟩
      · rintro ⟨pre, post, e, hc, hno⟩
        cases pre with
        | nil => simp at e; exact e.1
        | cons b pre1 =>
          simp only [List.cons_append, List.cons.injEq] at e
          obtain ⟨rfl, -⟩ := e
          exact absurd (by simpa using hi) (hno [] a pre1 rfl)
    · simp only [firstIllegal, hi, if_false]
      rw [ih (some a) c]
      constructor
      · rintro ⟨pre, post, e, hc, hno⟩
        refine ⟨a :: pre, post, by simp [e], ?_, ?_⟩
        · cases pre with
          | nil => simpa using hc
          | cons b pre1 => simpa [List.getLast?_cons_cons] using hc
        · intro pre2 c2 post2 e2
          cases pre2 with
          | nil =>
            simp only [List.nil_append, List.cons.injEq] at e2
            obtain ⟨rfl, -⟩ := e2
            simpa using hi
          | cons b pre3 =>
            simp only [List.cons_append, List.cons.injEq] at e2
            obtain ⟨rfl, e3⟩ := e2
            have := hno pre3 c2 post2 e3
            cases pre3 with
            | nil => simpa using this
            | cons d pre4 => simpa [List.getLast?_cons_cons] using this
      · rintro ⟨pre, post, e, hc, hno⟩
        cases pre with
        | nil =>
          simp only [List.nil_append, List.cons.injEq] at e
          obtain ⟨rfl, -⟩ := e
          exact absurd (by simpa using hc) hi
        | cons b pre1 =>
          simp only [List.cons_append, List.cons.injEq] at e
          obtain ⟨rfl, e1⟩ := e
          refine ⟨pre1, post, e1, ?_, ?_⟩
          · cases pre1 with
            | nil => simpa using hc
            | cons d pre4 => simpa [List.getLast?_cons_cons] using hc
          · intro pre2 c2 post2 e2
            have := hno (a :: pre2) c2 post2 (by simp [e2])
            cases pre2 with
            | nil => simpa using this
            | cons d pre4 => simpa [List.getLast?_cons_cons] using this

/-- C10: parts fails exactly when, among the structural characters of the path
read in order, some ']' is not immediately preceded by '[' or some '.' or '['
is immediately preceded by '['; the error then names the first such character
and the full path and wraps ErrIllegalToken. -/
theorem parts_fails_iff_illegal (path : Str) :
    ((∃ e, parts path = .error e) ↔
      ∃ pre c post, structural path = pre ++ c :: post ∧ Illegal pre.getLast? c) ∧
    (∀ e, parts path = .error e →
      ∃ pre c post, structural path = pre ++ c :: post ∧ Illegal pre.getLast? c ∧
        (∀ pre2 c2 post2, pre = pre2 ++ c2 :: post2 → ¬ Illegal pre2.getLast? c2) ∧
        e = .invalidPath path (.char [c] .ErrIllegalToken) ∧ e.wrapsIllegalToken = true) := by
  have hspec := parts_spec path
  have hsome := firstIllegal_eq_some (structural path) none
  simp only [Option.or_none] at hsome
  refine ⟨⟨?_, ?_⟩, ?_⟩
  · rintro ⟨e, he⟩
    cases hf : firstIllegal none (structural path) with
    | none =>
      rw [hf] at hspec
      obtain ⟨l, hl⟩ := hspec
      rw [hl] at he
      cases he
    | some c =>
      obtain ⟨pre, post, h1, h2, -⟩ := (hsome c).1 hf
      exact ⟨pre, c, post, h1, h2⟩
  · rintro ⟨pre, c, post, h1, h2⟩
    cases hf : firstIllegal none (structural path) with
    | none =>
      exfalso
      -- some illegal character exists, so a first one does
      have hex : ∀ (l : List Char) (prev : Option Char), firstIllegal prev l = none →
          ∀ pre c post, l = pre ++ c :: post → ¬ Illegal ((pre.getLast?).or prev) c := by
        intro l
        induction l with
        | nil => intro prev _ pre c post e; simp at e
        | cons a rest ih =>
          intro prev hn pre c post e
          by_cases hi : Illegal prev a
          · simp [firstIllegal, hi] at hn
          · simp only [firstIllegal, hi, if_false] at hn
            cases pre with
            | nil =>
              simp only [List.nil_append, List.cons.injEq] at e
              obtain ⟨rfl, -⟩ := e
              simpa using hi
            | cons b pre1 =>
              simp only [List.cons_append, List.cons.injEq] at e
              obtain ⟨rfl, e1⟩ := e
              have := ih (some a) hn pre1 c post e1
              cases pre1 with
              | nil => simpa using this
              | cons d pre4 => simpa [List.getLast?_cons_cons] using this
      exact hex _ none hf pre c post h1 (by simpa using h2)
    | some c0 =>
      rw [hf] at hspec
      exact ⟨_, hspec⟩
  · intro e he
    cases hf : firstIllegal none (structural path) with
    | none =>
      rw [hf] at hspec
      obtain ⟨l, hl⟩ := hspec
      rw [hl] at he
      cases he
    | some c =>
      rw [hf] at hspec
      obtain ⟨pre, post, h1, h2, h3⟩ := (hsome c).1 hf
      have he2 : e = .invalidPath path (.char [c] .ErrIllegalToken) := by
        rw [hspec] at he
        exact (Except.error.inj he).symm
      refine ⟨pre, c, post, h1, h2, h3, he2, ?_⟩
      rw [he2]
      rfl

/-! ## How the tokenizer cuts a path -/

theorem parseToken_ok (c : Char) (allowed allowed2 : List Str) (b : Bool)
    (h : parseToken [c] allowed = .ok (b, allowed2)) : b = isStructural c := by
  have hres : ([c] == delimiter || [c] == indexOpen || [c] == indexClose) = isStructural c := by
    rw [Bool.eq_iff_iff]
    simp [isStructural, delimiter, indexOpen, indexClose, or_assoc]
  unfold parseToken at h
  simp only [hres] at h
  split at h
  · cases h
  · split at h
    · split at h
      · cases h; rfl
      · split at h
        · cases h; rfl
        · split at h <;> (cases h; rfl)
    · cases h; rfl

/-- One iteration of the loop of parts that does not fail: a '.' or '[' after a
non-empty segment closes that segment and opens the next one, any other
character joins the segment. -/
theorem partsLoop_cons_ok (path : Str) (c : Char) (s : List Char) (allowed res : List Str)
    (cur : Str) (l : List Str) (h : partsLoop path (c :: s) allowed res cur = .ok l) :
    ∃ allowed2, (cur ≠ [] ∧ (c = '.' ∨ c = '[') ∧
        partsLoop path s allowed2 (res ++ [cur]) [c] = .ok l) ∨
      (¬ (cur ≠ [] ∧ (c = '.' ∨ c = '[')) ∧ partsLoop path s allowed2 res (cur ++ [c]) = .ok l) := by
  simp only [partsLoop] at h
  cases hp : parseToken [c] allowed with
  | error e => rw [hp] at h; cases h
  | ok v =>
    obtain ⟨b, allowed2⟩ := v
    rw [hp] at h
    have hb := parseToken_ok c allowed allowed2 b hp
    refine ⟨allowed2, ?_⟩
    simp only at h
    have hdel : ([c] == delimiter || [c] == indexOpen) = decide (c = '.' ∨ c = '[') := by
      rw [Bool.eq_iff_iff]
      simp [delimiter, indexOpen]
    rw [hdel] at h
    by_cases hc : cur ≠ [] ∧ (c = '.' ∨ c = '[')
    · left
      have hs : isStructural c = true := by
        rcases hc.2 with e | e <;> simp [isStructural, e]
      refine ⟨hc.1, hc.2, ?_⟩
      simpa [hb, hs, hc.1, hc.2] using h
    · right
      refine ⟨hc, ?_⟩
      have hcond : (b && decide (cur ≠ []) && decide (c = '.' ∨ c = '[')) = false := by
        by_cases h1 : cur ≠ []
        · have h2 : ¬ (c = '.' ∨ c = '[') := fun h2 => hc ⟨h1, h2⟩
          simp [h2]
        · simp [h1]
      rw [hcond] at h
      simpa using h

theorem partsLoop_struct (path : Str) (s : List Char) :
    ∀ (allowed res : List Str) (cur : Str) (l : List Str),
      partsLoop path s allowed res cur = .ok l →
      (∀ seg ∈ res, WellCut seg) → (∀ c ∈ cur.tail, c ≠ '.' ∧ c ≠ '[') →
      (∀ seg ∈ res.tail, StartsSegment seg) → (res ≠ [] → StartsSegment cur) →
      l.flatten = res.flatten ++ (cur ++ s) ∧ (∀ seg ∈ l, WellCut seg) ∧
        (∀ seg ∈ l.tail, StartsSegment seg) := by
  induction s with
  | nil =>
    intro allowed res cur l h hres hcur htail hstart
    simp only [partsLoop] at h
    by_cases hc : cur = []
    · subst hc
      simp only [ne_eq, not_true_eq_false, if_false] at h
      cases h
      exact ⟨by simp, hres, htail⟩
    · simp only [ne_eq, hc, not_false_eq_true, if_true] at h
      cases h
      refine ⟨by simp, ?_, ?_⟩
      · intro seg hseg
        rcases List.mem_append.1 hseg with h1 | h1
        · exact hres seg h1
        · rw [List.mem_singleton] at h1
          rw [h1]
          exact ⟨hc, hcur⟩
      · intro seg hseg
        cases res with
        | nil => simp at hseg
        | cons a res =>
          simp only [List.cons_append, List.tail_cons] at hseg
          rcases List.mem_append.1 hseg with h1 | h1
          · exact htail seg h1
          · rw [List.mem_singleton] at h1
            rw [h1]
            exact hstart (by simp)
  | cons c s ih =>
    intro allowed res cur l h hres hcur htail hstart
    obtain ⟨allowed2, hcase | hcase⟩ := partsLoop_cons_ok path c s allowed res cur l h
    · obtain ⟨hc, hdel, h2⟩ := hcase
      have := ih allowed2 (res ++ [cur]) [c] l h2
        (by
          intro seg hseg
          rcases List.mem_append.1 hseg with h1 | h1
          · exact hres seg h1
          · rw [List.mem_singleton] at h1
            rw [h1]
            exact ⟨hc, hcur⟩)
        (by simp)
        (by
          intro seg hseg
          cases res with
          | nil => simp at hseg
          | cons a res =>
            simp only [List.cons_append, List.tail_cons] at hseg
            rcases List.mem_append.1 hseg with h1 | h1
            · exact htail seg h1
            · rw [List.mem_singleton] at h1
              rw [h1]
              exact hstart (by simp))
        (fun _ => ⟨c, [], rfl, hdel⟩)
      refine ⟨?_, this.2⟩
      rw [this.1]
      simp
    · obtain ⟨hc, h2⟩ := hcase
      have := ih allowed2 res (cur ++ [c]) l h2 hres
        (by
          intro x hx
          cases cur with
          | nil => simp at hx
          | cons a cur =>
            simp only [List.cons_append, List.tail_cons] at hx
            rcases List.mem_append.1 hx with h1 | h1
            · exact hcur x h1
            · rw [List.mem_singleton] at h1
              rw [h1]
              have : ¬ (c = '.' ∨ c = '[') := fun h3 => hc ⟨by simp, h3⟩
              exact ⟨fun e => this (Or.inl e), fun e => this (Or.inr e)⟩)
        htail
        (by
          intro hne
          obtain ⟨a, t, e, ha⟩ := hstart hne
          exact ⟨a, t ++ [c], by simp [e], ha⟩)
      refine ⟨?_, this.2⟩
      rw [this.1]
      simp

/-- The segments of an accepted path: they concatenate to the path, each is
well cut, and each but the first starts with '.' or '['. -/
theorem parts_struct (path : Str) (l : List Str) (h : parts path = .ok l) :
    l.flatten = path ∧ (∀ seg ∈ l, WellCut seg) ∧ (∀ seg ∈ l.tail, StartsSegment seg) := by
  unfold parts at h
  by_cases hp : path = []
  · subst hp
    simp only [if_true] at h
    cases h
    exact ⟨rfl, by simp, by simp⟩
  · simp only [hp, if_false] at h
    have := partsLoop_struct path path _ [] [] l h (by simp) (by simp) (by simp) (by simp)
    simpa using this

/-! ## Validate -/

theorem parts_error_shape (path : Str) (e : Error) (h : parts path = .error e) :
    ∃ c, e = .invalidPath path (.char [c] .ErrIllegalToken) := by
  have hspec := parts_spec path
  cases hf : firstIllegal none (structural path) with
  | none =>
    rw [hf] at hspec
    obtain ⟨l, hl⟩ := hspec
    rw [hl] at h
    cases h
  | some c =>
    rw [hf] at hspec
    rw [hspec] at h
    exact ⟨c, (Except.error.inj h).symm⟩

theorem flattenAll_append (xs ys : List Error) :
    flattenAll (xs ++ ys) = flattenAll xs ++ flattenAll ys := by
  induction xs with
  | nil => rfl
  | cons x xs ih => simp [flattenAll, ih]

/-- The loop of Validate, started with the error acc. -/
theorem validate_fold (rules : List Rule) :
    ∀ acc : Option Error,
      let r := rules.foldl (fun err rule =>
        match parts rule.Path with
        | .error ruleErr => Join [err, some ruleErr]
        | .ok _ => err) acc
      (r = none ↔ acc = none ∧ ∀ rule ∈ rules, ∃ l, parts rule.Path = .ok l) ∧
      (match r with
        | none => []
        | some err => err.flatten) =
        (match acc with
          | none => []
          | some err => err.flatten) ++ pathErrors rules := by
  induction rules with
  | nil => intro acc; simp [pathErrors]
  | cons rule rules ih =>
    intro acc
    simp only [List.foldl_cons]
    cases hp : parts rule.Path with
    | ok l =>
      have := ih acc
      simp only [pathErrors, List.filterMap_cons, hp, List.mem_cons, forall_eq_or_imp] at this ⊢
      refine ⟨?_, this.2⟩
      rw [this.1]
      constructor
      · rintro ⟨h1, h2⟩; exact ⟨h1, ⟨l, rfl⟩, h2⟩
      · rintro ⟨h1, -, h2⟩; exact ⟨h1, h2⟩
    | error e =>
      obtain ⟨c, rfl⟩ := parts_error_shape _ _ hp
      have hj : Join [acc, some (.invalidPath rule.Path (.char [c] .ErrIllegalToken))] =
          some (.join (acc.toList ++ [.invalidPath rule.Path (.char [c] .ErrIllegalToken)])) := by
        cases acc <;> rfl
      have := ih (Join [acc, some (.invalidPath rule.Path (.char [c] .ErrIllegalToken))])
      simp only [pathErrors, List.filterMap_cons, hp, List.mem_cons, forall_eq_or_imp] at this ⊢
      refine ⟨?_, ?_⟩
      · rw [this.1, hj]
        simp
      · rw [this.2, hj]
        cases acc with
        | none => simp [Error.flatten, flattenAll]
        | some a => simp [Error.flatten, flattenAll]

/-- C9: Validate returns no error exactly when the tokenizer accepts the path of
every rule of the list (so for the empty list); an error it returns aggregates
the tokenizer errors of all rejected rule paths, in list order. -/
theorem Validate_spec (rules : List Rule) :
    (Validate rules = none ↔ ∀ rule ∈ rules, ∃ l, parts rule.Path = .ok l) ∧
    (∀ err, Validate rules = some err → err.flatten = pathErrors rules) := by
  unfold Validate
  by_cases h0 : rules.length = 0
  · have : rules = [] := List.length_eq_zero.mp h0
    subst this
    simp
  · simp only [h0, if_false]
    have h := validate_fold rules none
    simp only [true_and, List.nil_append] at h
    refine ⟨h.1, ?_⟩
    intro err herr
    have h2 := h.2
    rw [herr] at h2
    exact h2

/-! ## Folding on ASCII text -/

/-- On two texts of ASCII runes every folding is the folding of the ASCII
letters. -/
theorem equalFold_ascii [Folding] : ∀ (s t : Str), (∀ c ∈ s, c.toNat < 128) →
    (∀ c ∈ t, c.toNat < 128) → EqualFold s t = @EqualFold asciiFolding s t
  | [], [], _, _ => rfl
  | [], _ :: _, _, _ => rfl
  | _ :: _, [], _, _ => rfl
  | a :: s, b :: t, hs, ht => by
    have ih := equalFold_ascii s t (fun c hc => hs c (List.mem_cons_of_mem _ hc))
      (fun c hc => ht c (List.mem_cons_of_mem _ hc))
    have hab := Folding.foldEq_ascii a b (hs a (List.mem_cons_self _ _))
      (ht b (List.mem_cons_self _ _))
    simp only [EqualFold, ih, hab]
    rfl

theorem index_mem (s : List Str) (i : Int) (x : Str) (h : index s i = .ok x) : x ∈ s := by
  unfold index at h
  split at h
  · rename_i hi
    cases h
    have hlt : i.toNat < s.length := by omega
    rw [List.getD_eq_getElem?_getD, List.getElem?_eq_getElem hlt]
    exact List.getElem_mem _
  · cases h

theorem containsLoop_ascii [Folding] (rs : List Str) (hrs : ∀ s ∈ rs, ∀ c ∈ s, c.toNat < 128) :
    ∀ (cs : List Str) (i : Nat), (∀ s ∈ cs, ∀ c ∈ s, c.toNat < 128) →
      containsLoop rs i cs = @containsLoop asciiFolding rs i cs
  | [], _, _ => rfl
  | c :: cs, i, hcs => by
    have ih := containsLoop_ascii rs hrs cs (i + 1) (fun s hs => hcs s (List.mem_cons_of_mem _ hs))
    simp only [containsLoop]
    split
    · rfl
    · cases hx : index rs i with
      | error e => rfl
      | ok x =>
        have hxa := hrs x (index_mem rs i x hx)
        simp only [ih, equalFold_ascii c x (hcs c (List.mem_cons_self _ _)) hxa,
          equalFold_ascii x all hxa (by decide),
          equalFold_ascii x (indexOpen ++ all ++ indexClose) hxa (by decide)]

theorem matchLoop_ascii [Folding] (rs : List Str) (hrs : ∀ s ∈ rs, ∀ c ∈ s, c.toNat < 128) :
    ∀ (cs : List Str) (i : Nat), (∀ s ∈ cs, ∀ c ∈ s, c.toNat < 128) →
      matchLoop rs i cs = @matchLoop asciiFolding rs i cs
  | [], _, _ => rfl
  | c :: cs, i, hcs => by
    have ih := matchLoop_ascii rs hrs cs (i + 1) (fun s hs => hcs s (List.mem_cons_of_mem _ hs))
    simp only [matchLoop]
    split
    · rfl
    · cases hx : index rs i with
      | error e => rfl
      | ok x =>
        have hxa := hrs x (index_mem rs i x hx)
        simp only [ih, equalFold_ascii c x (hcs c (List.mem_cons_self _ _)) hxa,
          equalFold_ascii x (delimiter ++ all) hxa (by decide),
          equalFold_ascii x (indexOpen ++ all ++ indexClose) hxa (by decide)]

theorem matchRelativeLoop_ascii [Folding] (rs cs : List Str)
    (hrs : ∀ s ∈ rs, ∀ c ∈ s, c.toNat < 128) (hcs : ∀ s ∈ cs, ∀ c ∈ s, c.toNat < 128) :
    ∀ n : Nat, matchRelativeLoop rs cs n = @matchRelativeLoop asciiFolding rs cs n
  | 0 => rfl
  | n + 1 => by
    have ih := matchRelativeLoop_ascii rs cs hrs hcs n
    simp only [matchRelativeLoop]
    cases hx : index rs n with
    | error e => rfl
    | ok x =>
      have hxa := hrs x (index_mem rs n x hx)
      simp only
      split
      · rfl
      · cases hy : index cs ((cs.length : Int) - 1 - ((rs.length : Int) - 1 - n)) with
        | error e => rfl
        | ok y =>
          have hya := hcs y (index_mem cs _ y hy)
          simp only [ih, equalFold_ascii y x hya hxa,
            equalFold_ascii x (delimiter ++ all) hxa (by decide),
            equalFold_ascii x (indexOpen ++ all ++ indexClose) hxa (by decide)]

theorem parts_ascii (path : Str) (l : List Str) (h : parts path = .ok l)
    (hp : ∀ c ∈ path, c.toNat < 128) : ∀ s ∈ l, ∀ c ∈ s, c.toNat < 128 := by
  intro s hs c hc
  have hflat := (parts_struct path l h).1
  exact hp c (hflat ▸ List.mem_flatten.mpr ⟨s, hs, hc⟩)

/-- On ASCII paths contains is, for every folding, contains for the folding of
the ASCII letters. -/
theorem contains_ascii [Folding] (r : Rule) (path : Str) (hr : ∀ c ∈ r.Path, c.toNat < 128)
    (hp : ∀ c ∈ path, c.toNat < 128) : r.contains path = @Rule.contains asciiFolding r path := by
  simp only [Rule.contains]
  split
  · rfl
  · cases h1 : parts path with
    | error e => rfl
    | ok cs =>
      cases h2 : parts r.Path with
      | error e => rfl
      | ok rs =>
        exact containsLoop_ascii rs (parts_ascii _ _ h2 hr) cs 0 (parts_ascii _ _ h1 hp)

/-- On ASCII paths match is, for every folding, match for the folding of the
ASCII letters. -/
theorem match_ascii [Folding] (r : Rule) (path : Str) (hr : ∀ c ∈ r.Path, c.toNat < 128)
    (hp : ∀ c ∈ path, c.toNat < 128) : r.«match» path = @Rule.«match» asciiFolding r path := by
  simp only [Rule.«match»]
  cases h1 : parts path with
  | error e => rfl
  | ok cs =>
    cases h2 : parts r.Path with
    | error e => rfl
    | ok rs =>
      simp only
      rw [matchLoop_ascii rs (parts_ascii _ _ h2 hr) cs 0 (parts_ascii _ _ h1 hp),
        matchRelativeLoop_ascii rs cs (parts_ascii _ _ h2 hr) (parts_ascii _ _ h1 hp)]

/-! ## Folding beyond ASCII -/

/-- With a folding that folds 'É' with 'é', as the folding of Go does, the
absolute rule '$.É' matches '$.é', the relative rule '.É' matches '$.a.é', and
the rule '$.É.x' contains '$.é'; with the folding of the ASCII letters alone
none of the three holds. -/
theorem folds_latin_letters :
    @Rule.«match» latinFolding (NewRule "$.É".toList []) "$.é".toList = .ok true ∧
    @Rule.«match» latinFolding (NewRule ".É".toList []) "$.a.é".toList = .ok true ∧
    @Rule.contains latinFolding (NewRule "$.É.x".toList []) "$.é".toList = .ok true ∧
    @Rule.«match» asciiFolding (NewRule "$.É".toList []) "$.é".toList = .ok false ∧
    @Rule.«match» asciiFolding (NewRule ".É".toList []) "$.a.é".toList = .ok false ∧
    @Rule.contains asciiFolding (NewRule "$.É.x".toList []) "$.é".toList = .ok false :=
  ⟨rfl, rfl, rfl, rfl, rfl, rfl⟩

/-! ## The segment matcher -/

/-- Two texts are equal under strings.EqualFold exactly when they have the same
number of runes and the runes are equal, pair by pair, under folding. -/
theorem equalFold_iff [Folding] : ∀ s t : Str,
    EqualFold s t = true ↔ List.Forall₂ (fun a b => Folding.foldEq a b = true) s t
  | [], [] => by simp [EqualFold]
  | [], _ :: _ => by simp [EqualFold]
  | _ :: _, [] => by simp [EqualFold]
  | a :: s, b :: t => by
    simp only [EqualFold, Bool.and_eq_true, List.forall₂_cons, equalFold_iff s t]

theorem foldEq_plain_iff [Folding] (a b : Char) (hb : b ∈ ['$', '*', '.', '[', ']']) :
    Folding.foldEq a b = true ↔ a = b := by
  constructor
  · intro h
    rw [Folding.foldEq_symm] at h
    exact (Folding.foldEq_plain b a hb h).symm
  · rintro rfl
    exact Folding.foldEq_refl a

/-- A text of the runes '$', '*', '.', '[' and ']', which have no case, is equal
under folding to itself only. -/
theorem equalFold_plain [Folding] : ∀ (w : Str), (∀ c ∈ w, c ∈ ['$', '*', '.', '[', ']']) →
    ∀ x : Str, EqualFold x w = true ↔ x = w
  | [], _, [] => by simp [EqualFold]
  | [], _, a :: s => by simp [EqualFold]
  | b :: t, _, [] => by simp [EqualFold]
  | b :: t, hw, a :: s => by
    simp only [EqualFold, Bool.and_eq_true, List.cons.injEq,
      foldEq_plain_iff a b (hw b (List.mem_cons_self _ _)),
      equalFold_plain t (fun c hc => hw c (List.mem_cons_of_mem _ hc)) s]

theorem equalFold_keyWildcard [Folding] (x : Str) :
    EqualFold x (delimiter ++ all) = true ↔ x = keyWildcard :=
  equalFold_plain (delimiter ++ all) (by decide) x

theorem equalFold_indexWildcard [Folding] (x : Str) :
    EqualFold x (indexOpen ++ all ++ indexClose) = true ↔ x = indexWildcard :=
  equalFold_plain (indexOpen ++ all ++ indexClose) (by decide) x

theorem foldEq_plain_ne [Folding] (a b : Char) (ha : a ∈ ['$', '*', '.', '[', ']'])
    (hne : a ≠ b) : Folding.foldEq a b = false := by
  cases h : Folding.foldEq a b with
  | false => rfl
  | true => exact absurd (Folding.foldEq_plain a b ha h) hne

theorem equalFold_root [Folding] : EqualFold root root = true :=
  (equalFold_plain root (by decide) root).mpr rfl

/-- The test of one aligned pair of segments in match rejects exactly the pairs
the rule segment does not accept. -/
theorem match_test_eq [Folding] (pathPart rulePart : Str) :
    (!EqualFold pathPart rulePart && !EqualFold rulePart (delimiter ++ all) &&
      !EqualFold rulePart (indexOpen ++ all ++ indexClose)) = !decide (Accepts pathPart rulePart) := by
  have e1 : EqualFold rulePart (delimiter ++ all) = decide (rulePart = keyWildcard) := by
    rw [Bool.eq_iff_iff, decide_eq_true_iff]
    exact equalFold_keyWildcard rulePart
  have e2 : EqualFold rulePart (indexOpen ++ all ++ indexClose) =
      decide (rulePart = indexWildcard) := by
    rw [Bool.eq_iff_iff, decide_eq_true_iff]
    exact equalFold_indexWildcard rulePart
  rw [e1, e2]
  unfold Accepts
  by_cases a : EqualFold pathPart rulePart = true <;> by_cases b : rulePart = keyWildcard <;>
    by_cases c : rulePart = indexWildcard <;> simp [a, b, c]

theorem index_ok (s : List Str) (i : Nat) (h : i < s.length) :
    index s (i : Int) = .ok s[i] := by
  unfold index
  have : (0 : Int) ≤ (i : Int) ∧ (i : Int) < (s.length : Int) := ⟨by omega, by omega⟩
  simp [this, List.getD_eq_getElem?_getD, List.getElem?_eq_getElem h]

/-- The absolute loop of match, on parts of which as many are left as rule parts. -/
theorem matchLoop_spec [Folding] (rs : List Str) :
    ∀ (cs : List Str) (i : Nat), i + cs.length = rs.length →
      matchLoop rs i cs = .ok (decide (List.Forall₂ Accepts cs (rs.drop i))) := by
  intro cs
  induction cs with
  | nil =>
    intro i h
    have : rs.drop i = [] := List.drop_eq_nil_of_le (by simp at h; omega)
    simp [matchLoop, this]
  | cons c rest ih =>
    intro i h
    have hi : i < rs.length := by simp at h; omega
    have hd : rs.drop i = rs[i] :: rs.drop (i + 1) := List.drop_eq_getElem_cons hi
    have hg : ¬ ((i : Int) > (rs.length : Int) - 1) := by omega
    rw [hd]
    simp only [matchLoop, hg, if_false, index_ok rs i hi, match_test_eq, List.forall₂_cons]
    by_cases ha : Accepts c rs[i]
    · simp only [ha, decide_True, Bool.not_true, true_and]
      simp only [Bool.false_eq_true, if_false]
      exact ih (i + 1) (by simp at h ⊢; omega)
    · simp [ha]

/-- C5: for an absolute rule and a candidate path, both tokenizable, match does
not panic and is true exactly when the two segment lists have the same length
and at every position the rule segment accepts the candidate segment (equal
ignoring case, or the rule segment is '.*' or '[*]'). Equal ignoring case is
equal under strings.EqualFold, rune by rune under simple Unicode case folding
(equalFold_iff), whatever folding tables meet the contract of Folding. -/
theorem match_absolute [Folding] (r : Rule) (path : Str) (rs cs : List Str)
    (habs : HasPrefix r.Path root = true) (hr : parts r.Path = .ok rs)
    (hc : parts path = .ok cs) :
    r.«match» path = .ok (decide (List.Forall₂ Accepts cs rs)) := by
  unfold Rule.«match»
  simp only [hr, hc, habs, Bool.not_true, Bool.not_false, Bool.true_and]
  by_cases hl : cs.length = rs.length
  · simp only [hl, ne_eq, not_true_eq_false, decide_False, Bool.false_eq_true, if_false]
    have := matchLoop_spec rs cs 0 (by omega)
    simpa using this
  · have hn : ¬ List.Forall₂ Accepts cs rs := fun h => hl h.length_eq
    simp [hl, hn]

/-- C5 at the rule '$.with.*.name' and the candidate '$.WITH.some.name'. -/
theorem match_absolute_witness :
    (NewRule "$.with.*.name".toList []).«match» "$.WITH.some.name".toList = .ok true :=
  match_absolute (NewRule "$.with.*.name".toList []) "$.WITH.some.name".toList
    ["$".toList, ".with".toList, ".*".toList, ".name".toList]
    ["$".toList, ".WITH".toList, ".some".toList, ".name".toList] rfl rfl rfl

/-- The relative loop of match when the candidate has at least as many parts as
the rule: no index is out of range. -/
theorem matchRelativeLoop_spec [Folding] (rs cs : List Str) (hle : rs.length ≤ cs.length) :
    ∀ n, n ≤ rs.length →
      matchRelativeLoop rs cs n = .ok (decide (∀ j < n,
        Accepts (cs.getD (cs.length - rs.length + j) []) (rs.getD j []))) := by
  intro n
  induction n with
  | zero => intro _; simp [matchRelativeLoop]
  | succ n ih =>
    intro hn
    have hj : n < rs.length := hn
    have hk : cs.length - rs.length + n < cs.length := by omega
    have hidx : ((cs.length : Int) - 1) - (((rs.length : Int) - 1) - (n : Int)) =
        ((cs.length - rs.length + n : Nat) : Int) := by omega
    have hg : ¬ (((cs.length - rs.length + n : Nat) : Int) > (cs.length : Int) - 1) := by omega
    have hdec : decide (∀ j < n + 1, Accepts (cs.getD (cs.length - rs.length + j) []) (rs.getD j []))
        = (decide (Accepts (cs.getD (cs.length - rs.length + n) []) (rs.getD n [])) &&
          decide (∀ j < n, Accepts (cs.getD (cs.length - rs.length + j) []) (rs.getD j []))) := by
      rw [Bool.eq_iff_iff]
      simp only [decide_eq_true_iff, Bool.and_eq_true, Nat.forall_lt_succ_right]
      exact And.comm
    rw [hdec]
    simp only [matchRelativeLoop, index_ok rs n hj, hidx, hg, if_false,
      index_ok cs _ hk, match_test_eq]
    have e1 : cs.getD (cs.length - rs.length + n) [] = cs[cs.length - rs.length + n] := by
      simp [List.getD_eq_getElem?_getD, List.getElem?_eq_getElem hk]
    have e2 : rs.getD n [] = rs[n] := by
      simp [List.getD_eq_getElem?_getD, List.getElem?_eq_getElem hj]
    rw [e1, e2]
    by_cases ha : Accepts cs[cs.length - rs.length + n] rs[n]
    · simp only [ha, decide_True, Bool.not_true, Bool.true_and]
      simp only [Bool.false_eq_true, if_false]
      exact ih (by omega)
    · simp [ha]

/-- C6: for a relative rule with n segments and a candidate path with at least n
segments, both tokenizable, match does not panic and is true exactly when the
rule segments, aligned with the last n candidate segments, each accept the
candidate segment they face (equal ignoring case, or the rule segment is '.*'
or '[*]'); the leading candidate segments play no part. Equal ignoring case is
equal under strings.EqualFold, rune by rune under simple Unicode case folding
(equalFold_iff), whatever folding tables meet the contract of Folding. -/
theorem match_relative [Folding] (r : Rule) (path : Str) (rs cs : List Str)
    (hrel : HasPrefix r.Path root = false) (hr : parts r.Path = .ok rs)
    (hc : parts path = .ok cs) (hle : rs.length ≤ cs.length) :
    r.«match» path = .ok (decide (List.Forall₂ Accepts (cs.drop (cs.length - rs.length)) rs)) := by
  unfold Rule.«match»
  simp only [hr, hc, hrel, Bool.not_false, Bool.not_true, Bool.false_and, Bool.false_eq_true,
    if_false, if_true]
  rw [matchRelativeLoop_spec rs cs hle rs.length le_rfl]
  congr 1
  rw [Bool.eq_iff_iff]
  simp only [decide_eq_true_iff]
  rw [List.forall₂_iff_get]
  constructor
  · intro h
    refine ⟨by simp; omega, ?_⟩
    intro i h1 h2
    have := h i h2
    have hk : cs.length - rs.length + i < cs.length := by omega
    simpa [List.getD_eq_getElem?_getD, List.getElem?_eq_getElem hk,
      List.getElem?_eq_getElem h2] using this
  · rintro ⟨-, h⟩ j hj
    have hk : cs.length - rs.length + j < cs.length := by omega
    have := h j (by simp; omega) hj
    simpa [List.getD_eq_getElem?_getD, List.getElem?_eq_getElem hk,
      List.getElem?_eq_getElem hj] using this

/-- C6 at the rule '.some.*' and the candidate '$[3].with.Some.key'. -/
theorem match_relative_witness :
    (NewRule ".some.*".toList []).«match» "$[3].with.Some.key".toList = .ok true :=
  match_relative (NewRule ".some.*".toList []) "$[3].with.Some.key".toList
    [".some".toList, ".*".toList]
    ["$".toList, "[3]".toList, ".with".toList, ".Some".toList, ".key".toList] rfl rfl rfl
    (by decide)

/-- C7: with the relative rule '.*.*' and the candidate '$', and with the
relative rule '.schemas[*].properties' of the default catalog and the candidate
'$.properties' (each candidate shorter than the rule), match does not return
false: it panics on the index -1, out of range. -/
theorem match_relative_short_panics [Folding] :
    (NewRule ".*.*".toList []).«match» "$".toList = .error (.indexOutOfRange (-1) 1) ∧
    (NewRule ".schemas[*].properties".toList []).«match» "$.properties".toList =
      .error (.indexOutOfRange (-1) 2) :=
  ⟨(match_ascii _ _ (by simp only [NewRule]; decide) (by decide)).trans rfl,
    (match_ascii _ _ (by simp only [NewRule]; decide) (by decide)).trans rfl⟩

theorem accepts_wildcard [Folding] (c w : Str) (hw : w = keyWildcard ∨ w = indexWildcard) : Accepts c w :=
  Or.inr hw

theorem matchLoop_replace [Folding] (rs post : List Str) (c1 c2 w : Str)
    (hw : w = keyWildcard ∨ w = indexWildcard) :
    ∀ (pre : List Str) (i : Nat), rs[i + pre.length]? = some w →
      matchLoop rs i (pre ++ c1 :: post) = matchLoop rs i (pre ++ c2 :: post) := by
  intro pre
  induction pre with
  | nil =>
    intro i h
    simp only [List.length_nil, Nat.add_zero] at h
    have hi : i < rs.length := by
      by_contra hn
      rw [List.getElem?_eq_none (by omega)] at h
      cases h
    have hwi : rs[i] = w := by
      rw [List.getElem?_eq_getElem hi] at h
      exact Option.some.inj h
    have hg : ¬ ((i : Int) > (rs.length : Int) - 1) := by omega
    simp only [List.nil_append, matchLoop, hg, if_false, index_ok rs i hi, match_test_eq, hwi,
      accepts_wildcard _ w hw, decide_True, Bool.not_true]
  | cons p pre ih =>
    intro i h
    have h2 : rs[(i + 1) + pre.length]? = some w := by
      have : i + (p :: pre).length = (i + 1) + pre.length := by simp; omega
      rw [← this]; exact h
    simp only [List.cons_append, matchLoop, List.append_eq, ih (i + 1) h2]

theorem index_replace (pre post : List Str) (c1 c2 : Str) (k : Int)
    (hk : k ≠ (pre.length : Int)) :
    index (pre ++ c1 :: post) k = index (pre ++ c2 :: post) k := by
  unfold index
  simp only [List.length_append, List.length_cons]
  by_cases hr : 0 ≤ k ∧ k < ((pre.length + (post.length + 1) : Nat) : Int)
  · simp only [hr, and_self, if_true]
    congr 1
    have hne : k.toNat ≠ pre.length := by omega
    simp only [List.getD_eq_getElem?_getD]
    congr 1
    rcases Nat.lt_or_gt_of_ne hne with hlt | hgt
    · rw [List.getElem?_append_left hlt, List.getElem?_append_left hlt]
    · rw [List.getElem?_append_right (by omega), List.getElem?_append_right (by omega)]
      have : k.toNat - pre.length = (k.toNat - pre.length - 1) + 1 := by omega
      rw [this]
      simp
  · simp only [hr, if_false]

theorem matchRelativeLoop_replace [Folding] (rs pre post : List Str) (c1 c2 w : Str)
    (hw : w = keyWildcard ∨ w = indexWildcard) (hal : rs.reverse[post.length]? = some w) :
    ∀ n, n ≤ rs.length →
      matchRelativeLoop rs (pre ++ c1 :: post) n = matchRelativeLoop rs (pre ++ c2 :: post) n := by
  have hpl : post.length < rs.length := by
    by_contra hn
    rw [List.getElem?_eq_none (by simp; omega)] at hal
    cases hal
  have hwi : rs[rs.length - 1 - post.length]? = some w := by
    rw [List.getElem?_reverse hpl] at hal
    exact hal
  intro n
  induction n with
  | zero => intro _; rfl
  | succ n ih =>
    intro hn
    have hj : n < rs.length := hn
    have hlen : (pre ++ c1 :: post).length = (pre ++ c2 :: post).length := by simp
    simp only [matchRelativeLoop, index_ok rs n hj, match_test_eq]
    rw [hlen]
    split
    · rfl
    · by_cases hk : ((((pre ++ c2 :: post).length : Nat) : Int) - 1) -
          (((rs.length : Int) - 1) - (n : Int)) = (pre.length : Int)
      · have hnn : n = rs.length - 1 - post.length := by
          simp only [List.length_append, List.length_cons] at hk
          omega
        have hrn : rs[n] = w := by
          have := hwi
          rw [← hnn, List.getElem?_eq_getElem hj] at this
          exact Option.some.inj this
        rw [hk]
        have hp1 : pre.length < (pre ++ c1 :: post).length := by simp
        have hp2 : pre.length < (pre ++ c2 :: post).length := by simp
        rw [index_ok _ _ hp1, index_ok _ _ hp2]
        simp only [hrn, accepts_wildcard _ w hw, decide_True, Bool.not_true, Bool.false_eq_true,
          if_false]
        exact ih (by omega)
      · rw [index_replace pre post c1 c2 _ hk]
        split
        · rfl
        · rw [ih (by omega)]

theorem compare_lt_iff : ∀ s t : Str, Compare s t < 0 ↔ s < t
  | [], [] => by simp [Compare]
  | [], b :: t => by simp [Compare, List.nil_lt_cons]
  | a :: s, [] => by
    simp only [Compare]
    constructor
    · intro h; omega
    · intro h; exact absurd h (List.Lex.not_nil_right _ _)
  | a :: s, b :: t => by
    have ih := compare_lt_iff s t
    have hab : a.toNat < b.toNat ↔ a < b := by
      rw [Char.lt_iff_val_lt_val]
      exact Iff.rfl
    have hba : b.toNat < a.toNat ↔ b < a := by
      rw [Char.lt_iff_val_lt_val]
      exact Iff.rfl
    simp only [Compare]
    by_cases h1 : a.toNat < b.toNat
    · simp only [h1, if_true]
      constructor
      · intro _; exact List.Lex.rel (hab.1 h1)
      · intro _; omega
    · by_cases h2 : b.toNat < a.toNat
      · simp only [h1, h2, if_true, if_false]
        constructor
        · intro h; omega
        · intro h
          exfalso
          cases h with
          | cons h => exact h1 h2
          | rel h => exact h1 (hab.2 h)
      · have hEq : a = b := by
          have : a.toNat = b.toNat := by omega
          rw [← Char.ofNat_toNat a, ← Char.ofNat_toNat b, this]
        subst hEq
        simp only [h1, if_false]
        rw [ih]
        exact (List.Lex.cons_iff).symm

theorem strictWeak_of_rank {α β : Type} [LinearOrder β] (cmp : α → α → Int) (f : α → β)
    (h : ∀ a b, cmp a b < 0 ↔ f a < f b) : IsStrictWeakOrder α (fun a b => cmp a b < 0) where
  irrefl a := by simp only [h]; exact lt_irrefl _
  trans a b c := by simp only [h]; exact lt_trans
  incomp_trans a b c := by
    simp only [h, not_lt]
    rintro ⟨h1, h2⟩ ⟨h3, h4⟩
    exact ⟨le_trans h3 h1, le_trans h2 h4⟩

/-- A sorter that meets the contract, given a comparison that compares ranks in
a linear order, returns a permutation in ascending order of rank. -/
theorem sorted_by_rank {α β : Type} [LinearOrder β] (S : Sorter) (hS : SortContract S)
    (cmp : α → α → Int) (f : α → β) (h : ∀ a b, cmp a b < 0 ↔ f a < f b) (l : List α) :
    (S α cmp l).Perm l ∧ (S α cmp l).Pairwise (fun a b => f a ≤ f b) := by
  obtain ⟨hp, hs⟩ := hS α cmp l
  refine ⟨hp, (hs (strictWeak_of_rank cmp f h)).imp ?_⟩
  intro a b hab
  rw [h] at hab
  exact not_lt.1 hab

theorem insertionSortedFunc_contract : SortContract insertionSortedFunc := by
  intro α cmp l
  refine ⟨List.perm_insertionSort _ l, ?_⟩
  intro hw
  have htot : IsTotal α (fun a b => ¬ cmp b a < 0) :=
    ⟨fun a b => by
      by_contra hcon
      simp only [not_or, not_not] at hcon
      exact hw.irrefl a (hw.trans a b a hcon.2 hcon.1)⟩
  have htr : IsTrans α (fun a b => ¬ cmp b a < 0) :=
    ⟨fun a b c hab hbc hca => by
      by_cases h1 : cmp b c < 0
      · exact hab (hw.trans b c a h1 hca)
      · by_cases h2 : cmp a b < 0
        · exact hbc (hw.trans c a b hca h2)
        · exact (hw.incomp_trans c b a ⟨hbc, h1⟩ ⟨hab, h2⟩).1 hca⟩
  exact List.sorted_insertionSort (fun a b => ¬ cmp b a < 0) l

/-! ## Pairs and heaps -/

theorem pairs_unpairs_append (R : List Pair) (t : List Ptr) (ht : t.length ≤ 1) :
    pairs (unpairs R ++ t) = R := by
  induction R with
  | nil =>
    rcases t with _ | ⟨a, _ | ⟨b, t⟩⟩
    · rfl
    · rfl
    · simp at ht
  | cons e R ih => simp [unpairs, pairs, ih]

theorem pairs_unpairs (R : List Pair) : pairs (unpairs R) = R := by
  simpa using pairs_unpairs_append R [] (by simp)

theorem length_unpairs (R : List Pair) : (unpairs R).length = 2 * R.length := by
  induction R with
  | nil => rfl
  | cons e R ih => simp [unpairs, ih]; omega

theorem unpairs_append (A B : List Pair) : unpairs (A ++ B) = unpairs A ++ unpairs B := by
  induction A with
  | nil => rfl
  | cons e A ih => simp [unpairs, ih]

theorem length_pairs : ∀ c : List Ptr, (pairs c).length = c.length / 2
  | [] => rfl
  | [_] => by simp [pairs]
  | a :: b :: c => by
    simp only [pairs, List.length_cons, length_pairs c]
    omega

theorem unpairs_pairs : ∀ c : List Ptr, unpairs (pairs c) ++ c.drop (2 * (pairs c).length) = c
  | [] => rfl
  | [_] => rfl
  | a :: b :: c => by
    have ih := unpairs_pairs c
    have : 2 * ((pairs c).length + 1) = 2 * (pairs c).length + 1 + 1 := by omega
    simp only [pairs, unpairs, List.length_cons, List.cons_append, this, List.drop_succ_cons, ih]

theorem unpairs_pairs_of_even (c : List Ptr) (h : Even c.length) : unpairs (pairs c) = c := by
  have h1 := unpairs_pairs c
  have h2 : c.drop (2 * (pairs c).length) = [] := by
    apply List.drop_eq_nil_of_le
    rw [length_pairs]
    obtain ⟨k, hk⟩ := h
    omega
  rw [h2, List.append_nil] at h1
  exact h1

theorem writePairs_append (sorted : List Pair) :
    ∀ (i : Nat) (pre rest : List Ptr), pre.length = i * 2 → 2 * sorted.length ≤ rest.length →
      writePairs sorted i (pre ++ rest) = pre ++ unpairs sorted ++ rest.drop (2 * sorted.length) := by
  induction sorted with
  | nil => intro i pre rest _ _; simp [writePairs, unpairs]
  | cons e sorted ih =>
    intro i pre rest hpre hlen
    rcases rest with _ | ⟨a, _ | ⟨b, rest⟩⟩
    · simp at hlen
    · simp at hlen; omega
    · have h1 : (pre ++ a :: b :: rest).set (i * 2) e.Key = pre ++ e.Key :: b :: rest := by
        rw [List.set_append_right _ _ (by omega), hpre, Nat.sub_self]
        rfl
      have h2 : (pre ++ e.Key :: b :: rest).set (i * 2 + 1) e.Value =
          pre ++ e.Key :: e.Value :: rest := by
        rw [List.set_append_right _ _ (by omega), hpre, Nat.add_sub_cancel_left]
        rfl
      have h3 : pre ++ e.Key :: e.Value :: rest = (pre ++ [e.Key, e.Value]) ++ rest := by simp
      simp only [writePairs, h1, h2]
      rw [h3, ih (i + 1) (pre ++ [e.Key, e.Value]) rest (by simp; omega)
        (by simp at hlen; omega)]
      have h4 : 2 * (e :: sorted).length = 2 * sorted.length + 1 + 1 := by simp; omega
      simp only [unpairs, h4, List.drop_succ_cons, List.append_assoc, List.cons_append,
        List.nil_append]

theorem writePairs_zero (sorted : List Pair) (c : List Ptr) (h : 2 * sorted.length ≤ c.length) :
    writePairs sorted 0 c = unpairs sorted ++ c.drop (2 * sorted.length) := by
  simpa using writePairs_append sorted 0 [] c rfl h

theorem copy_of_length_eq (dst src : List Ptr) (h : src.length = dst.length) : copy dst src = src := by
  unfold copy
  rw [← h, List.take_length, List.drop_eq_nil_of_le (by omega), List.append_nil]

theorem deref_setContent_self (H : Heap) (p : Ptr) (c : List Ptr) (hp : p < H.length) :
    (H.setContent p c).deref p = { H.deref p with Content := c } := by
  simp [Heap.setContent, Heap.deref, List.getD_eq_getElem?_getD, List.getElem?_set_self hp]

theorem deref_setContent_ne (H : Heap) (p q : Ptr) (c : List Ptr) (h : p ≠ q) :
    (H.setContent p c).deref q = H.deref q := by
  simp [Heap.setContent, Heap.deref, List.getD_eq_getElem?_getD, List.getElem?_set_ne h]

theorem deref_of_not_lt (H : Heap) (p : Ptr) (hp : ¬ p < H.length) :
    H.deref p = ⟨.zero, [], []⟩ := by
  simp [Heap.deref, List.getD_eq_getElem?_getD, List.getElem?_eq_none (Nat.le_of_not_lt hp)]

theorem setContent_of_not_lt (H : Heap) (p : Ptr) (c : List Ptr) (hp : ¬ p < H.length) :
    H.setContent p c = H := by
  unfold Heap.setContent
  exact List.set_eq_of_length_le (Nat.le_of_not_lt hp)

/-- Writing a Content slice changes the kind and the text of no node. -/
theorem value_setContent (H : Heap) (p q : Ptr) (c : List Ptr) :
    ((H.setContent p c).deref q).Value = (H.deref q).Value ∧
      ((H.setContent p c).deref q).Kind = (H.deref q).Kind := by
  by_cases hp : p < H.length
  · by_cases hq : p = q
    · subst hq
      rw [deref_setContent_self H p c hp]
      exact ⟨rfl, rfl⟩
    · rw [deref_setContent_ne H p q c hq]
      exact ⟨rfl, rfl⟩
  · rw [setContent_of_not_lt H p c hp]
    exact ⟨rfl, rfl⟩

theorem lt_length_of_content_ne_nil (H : Heap) (p : Ptr) (h : (H.deref p).Content ≠ []) :
    p < H.length := by
  by_contra hp
  rw [deref_of_not_lt H p hp] at h
  exact h rfl

/-! ## StringOrderingFn -/

theorem stringOrdering_sequence (S : Sorter) (hS : SortContract S) (H : Heap) (p : Ptr) (key : Str)
    (hk : (H.deref p).Kind = .SequenceNode) (hne : (H.deref p).Content ≠ []) :
    ∃ c, StringOrderingFn S key (some p) H = H.setContent p c ∧ c.Perm (H.deref p).Content ∧
      c.Pairwise (fun a b => H.text a ≤ H.text b) := by
  obtain ⟨hp, hs⟩ := sorted_by_rank S hS
    (fun (e e2 : Ptr) => Compare (H.deref e).Value (H.deref e2).Value) H.text
    (fun a b => compare_lt_iff (H.deref a).Value (H.deref b).Value) (H.deref p).Content
  refine ⟨_, ?_, hp, hs⟩
  have h0 : ¬ ((H.deref p).Content.length = 0 ∨
      ((H.deref p).Kind ≠ .MappingNode ∧ (H.deref p).Kind ≠ .SequenceNode)) := by
    rw [hk]
    simp [hne]
  simp only [StringOrderingFn]
  rw [if_neg h0, if_pos hk, copy_of_length_eq _ _ hp.length_eq]

theorem stringOrdering_mapping (S : Sorter) (hS : SortContract S) (H : Heap) (p : Ptr) (key : Str)
    (hk : (H.deref p).Kind = .MappingNode) (hne : (H.deref p).Content ≠ []) :
    ∃ R, StringOrderingFn S key (some p) H =
        H.setContent p (unpairs R ++ (H.deref p).Content.drop (2 * R.length)) ∧
      R.Perm (pairs (H.deref p).Content) ∧
      R.Pairwise (fun a b => H.keyText a ≤ H.keyText b) := by
  obtain ⟨hp, hs⟩ := sorted_by_rank S hS
    (fun (e e2 : Pair) => Compare (H.deref e.Key).Value (H.deref e2.Key).Value) H.keyText
    (fun a b => compare_lt_iff (H.deref a.Key).Value (H.deref b.Key).Value)
    (pairs (H.deref p).Content)
  refine ⟨_, ?_, hp, hs⟩
  have h0 : ¬ ((H.deref p).Content.length = 0 ∨
      ((H.deref p).Kind ≠ .MappingNode ∧ (H.deref p).Kind ≠ .SequenceNode)) := by
    rw [hk]
    simp [hne]
  have h1 : ¬ ((H.deref p).Kind = .SequenceNode) := by rw [hk]; decide
  simp only [StringOrderingFn]
  rw [if_neg h0, if_neg h1, writePairs_zero]
  rw [hp.length_eq, length_pairs]
  omega

/-- C3: on a non-empty Sequence, StringOrderingFn leaves a permutation of the
elements in ascending order of element text; on a non-empty Mapping it leaves
the (key, value) pairs, permuted as pairs, in ascending order of key text (a
last key without a value stays last). Strings are ordered lexicographically by
character, which is their byte-wise order. No text changes. -/
theorem StringOrderingFn_sorts (S : Sorter) (hS : SortContract S) (H : Heap) (p : Ptr) (key : Str)
    (hne : (H.deref p).Content ≠ []) :
    ((H.deref p).Kind = .SequenceNode →
      ∃ c, StringOrderingFn S key (some p) H = H.setContent p c ∧
        ((StringOrderingFn S key (some p) H).deref p).Content = c ∧
        c.Perm (H.deref p).Content ∧
        c.Pairwise (fun a b => H.text a ≤ H.text b)) ∧
    ((H.deref p).Kind = .MappingNode →
      ∃ R, StringOrderingFn S key (some p) H =
          H.setContent p (unpairs R ++ (H.deref p).Content.drop (2 * R.length)) ∧
        pairs ((StringOrderingFn S key (some p) H).deref p).Content = R ∧
        R.Perm (pairs (H.deref p).Content) ∧
        R.Pairwise (fun a b => H.keyText a ≤ H.keyText b)) ∧
    (∀ q, (StringOrderingFn S key (some p) H).text q = H.text q) := by
  have hlt := lt_length_of_content_ne_nil H p hne
  refine ⟨?_, ?_, ?_⟩
  · intro hk
    obtain ⟨c, h1, h2, h3⟩ := stringOrdering_sequence S hS H p key hk hne
    refine ⟨c, h1, ?_, h2, h3⟩
    rw [h1, deref_setContent_self H p c hlt]
  · intro hk
    obtain ⟨R, h1, h2, h3⟩ := stringOrdering_mapping S hS H p key hk hne
    refine ⟨R, h1, ?_, h2, h3⟩
    rw [h1, deref_setContent_self H p _ hlt]
    apply pairs_unpairs_append
    have := length_pairs (H.deref p).Content
    rw [List.length_drop, h2.length_eq, this]
    omega
  · intro q
    by_cases hs : (H.deref p).Kind = .SequenceNode
    · obtain ⟨c, h1, -⟩ := stringOrdering_sequence S hS H p key hs hne
      rw [h1]
      exact (value_setContent H p q c).1
    · by_cases hm : (H.deref p).Kind = .MappingNode
      · obtain ⟨R, h1, -⟩ := stringOrdering_mapping S hS H p key hm hne
        rw [h1]
        exact (value_setContent H p q _).1
      · have h0 : (H.deref p).Content.length = 0 ∨
            ((H.deref p).Kind ≠ .MappingNode ∧ (H.deref p).Kind ≠ .SequenceNode) :=
          Or.inr ⟨hm, hs⟩
        simp only [StringOrderingFn]
        rw [if_pos h0]

/-! ## NewSimpleOrdering -/

theorem Index_eq_indexOf {α : Type} [DecidableEq α] (l : List α) (v : α) :
    Index l v = if v ∈ l then (l.indexOf v : Int) else -1 := by
  induction l with
  | nil => simp [Index]
  | cons a l ih =>
    by_cases h : a = v
    · subst h; simp [Index]
    · have hne : ¬ v = a := fun e => h e.symm
      simp only [Index, h, if_false, ih, List.mem_cons, hne, false_or,
        List.indexOf_cons_ne l h]
      by_cases hm : v ∈ l
      · simp only [hm, if_true]
        have : ¬ ((l.indexOf v : Int) < 0) := by omega
        simp only [this, if_false]
        push_cast
        rfl
      · simp [hm]

theorem Index_bounds {α : Type} [DecidableEq α] (l : List α) (v : α) :
    -1 ≤ Index l v ∧ Index l v < l.length := by
  rw [Index_eq_indexOf]
  by_cases hm : v ∈ l
  · have := List.indexOf_lt_length.2 hm
    simp only [hm, if_true]
    omega
  · simp only [hm, if_false]
    omega

theorem Index_nonneg_iff {α : Type} [DecidableEq α] (l : List α) (v : α) :
    0 ≤ Index l v ↔ v ∈ l := by
  rw [Index_eq_indexOf]
  by_cases hm : v ∈ l
  · simp only [hm, if_true, iff_true]
    omega
  · simp [hm]

theorem Index_pairwise_of_nodup {α : Type} [DecidableEq α] (l : List α) (h : l.Nodup) :
    l.Pairwise (fun a b => Index l a < Index l b) := by
  rw [List.pairwise_iff_getElem]
  intro i j hi hj hij
  rw [Index_eq_indexOf, Index_eq_indexOf]
  simp only [List.getElem_mem, if_true, List.indexOf_getElem h]
  omega

/-- The rank the comparison of NewSimpleOrdering orders the pairs by: the index of
the key text in keys when it is there, and behind all of those the index of the
pair in nodes. -/
theorem simpleCmp_lt_iff (H : Heap) (keys : List Str) (nodes : List Pair) (e e2 : Pair) :
    simpleCmp H keys nodes e e2 < 0 ↔
      (if 0 ≤ Index keys (H.keyText e) then Index keys (H.keyText e)
        else (keys.length : Int) + 1 + Index nodes e) <
      (if 0 ≤ Index keys (H.keyText e2) then Index keys (H.keyText e2)
        else (keys.length : Int) + 1 + Index nodes e2) := by
  have b1 := Index_bounds keys (H.keyText e)
  have b2 := Index_bounds keys (H.keyText e2)
  have b3 := Index_bounds nodes e
  have b4 := Index_bounds nodes e2
  simp only [simpleCmp, CompareInt, Heap.keyText, ge_iff_le] at *
  by_cases h1 : 0 ≤ Index keys (H.deref e.Key).Value <;>
    by_cases h2 : 0 ≤ Index keys (H.deref e2.Key).Value
  · simp only [h1, h2, and_self, if_true]
    split
    · simp [*]
    · split <;> omega
  · simp only [h1, h2, and_false, if_true, if_false]
    omega
  · simp only [h1, h2, false_and, if_true, if_false]
    omega
  · simp only [h1, h2, and_self, if_false]
    split
    · omega
    · split <;> omega

theorem filter_split_of_sorted {α : Type} (f : α → Int) (K : Int) (P : α → Bool)
    (hP : ∀ a, P a = true ↔ f a < K) :
    ∀ R : List α, R.Pairwise (fun a b => f a ≤ f b) →
      R = R.filter P ++ R.filter (fun a => !P a) := by
  intro R
  induction R with
  | nil => intro _; rfl
  | cons a R ih =>
    intro h
    rw [List.pairwise_cons] at h
    by_cases ha : P a = true
    · simp only [List.filter_cons, ha, if_true, Bool.not_true, Bool.false_eq_true, if_false,
        List.cons_append]
      rw [← ih h.2]
    · have hall : ∀ b ∈ R, P b = false := by
        intro b hb
        have h1 := h.1 b hb
        have h2 : ¬ f a < K := fun hlt => ha ((hP a).2 hlt)
        have : ¬ f b < K := by omega
        simpa using fun hp => this ((hP b).1 hp)
      have e1 : R.filter P = [] := by
        rw [List.filter_eq_nil_iff]
        intro b hb
        simp [hall b hb]
      have e2 : R.filter (fun a => !P a) = R := by
        rw [List.filter_eq_self]
        intro b hb
        simp [hall b hb]
      have ha2 : P a = false := by simpa using ha
      simp [List.filter_cons, ha2, e1, e2]

theorem eq_of_perm_of_index_sorted (nodes A B : List Pair) (hp : A.Perm B)
    (hA : A.Pairwise (fun a b => Index nodes a < Index nodes b))
    (hB : B.Pairwise (fun a b => Index nodes a < Index nodes b)) : A = B := by
  haveI : IsAntisymm Pair (fun a b => Index nodes a < Index nodes b) :=
    ⟨fun a b h1 h2 => absurd h1 (not_lt_of_gt h2)⟩
  exact List.eq_of_perm_of_sorted hp hA hB

/-- What a sorter that meets the contract returns for the comparison of
NewSimpleOrdering on distinct pairs. -/
theorem simpleOrdering_sorted (S : Sorter) (hS : SortContract S) (H : Heap) (keys : List Str)
    (nodes : List Pair) (hnd : nodes.Nodup) :
    ∃ front, S Pair (simpleCmp H keys nodes) nodes =
        front ++ nodes.filter (fun e => decide (H.keyText e ∉ keys)) ∧
      front.Perm (nodes.filter (fun e => decide (H.keyText e ∈ keys))) ∧
      front.Pairwise (fun a b => Index keys (H.keyText a) ≤ Index keys (H.keyText b)) := by
  obtain ⟨hp, hs⟩ := sorted_by_rank S hS (simpleCmp H keys nodes)
    (fun e => if 0 ≤ Index keys (H.keyText e) then Index keys (H.keyText e)
      else (keys.length : Int) + 1 + Index nodes e)
    (simpleCmp_lt_iff H keys nodes) nodes
  generalize S Pair (simpleCmp H keys nodes) nodes = R at hp hs
  have hP : ∀ a : Pair, decide (H.keyText a ∈ keys) = true ↔
      (if 0 ≤ Index keys (H.keyText a) then Index keys (H.keyText a)
        else (keys.length : Int) + 1 + Index nodes a) < (keys.length : Int) := by
    intro a
    have b1 := Index_bounds keys (H.keyText a)
    have b3 := Index_bounds nodes a
    rw [decide_eq_true_iff, ← Index_nonneg_iff]
    by_cases h1 : 0 ≤ Index keys (H.keyText a)
    · simp only [h1, if_true, true_iff]; omega
    · simp only [h1, if_false, false_iff]; omega
  have hsplit := filter_split_of_sorted _ (keys.length : Int) _ hP R hs
  have hnot : (fun a : Pair => !decide (H.keyText a ∈ keys)) =
      (fun e => decide (H.keyText e ∉ keys)) := by
    funext a; simp
  rw [hnot] at hsplit
  have hRnd : R.Nodup := hp.nodup_iff.2 hnd
  have hinj : ∀ a b : Pair, a ∈ nodes → b ∈ nodes → Index nodes a = Index nodes b → a = b := by
    intro a b ha hb hab
    rw [Index_eq_indexOf, Index_eq_indexOf] at hab
    simp only [ha, hb, if_true] at hab
    exact (List.indexOf_inj ha hb).1 (by omega)
  have hrest : R.filter (fun e => decide (H.keyText e ∉ keys)) =
      nodes.filter (fun e => decide (H.keyText e ∉ keys)) := by
    apply eq_of_perm_of_index_sorted nodes _ _ (hp.filter _)
    · refine List.Pairwise.imp_of_mem ?_ ((hs.and hRnd).filter _)
      intro a b ha hb hab
      rw [List.mem_filter, decide_eq_true_iff] at ha hb
      have ha2 : ¬ 0 ≤ Index keys (H.keyText a) := fun h => ha.2 ((Index_nonneg_iff _ _).1 h)
      have hb2 : ¬ 0 ≤ Index keys (H.keyText b) := fun h => hb.2 ((Index_nonneg_iff _ _).1 h)
      obtain ⟨hle, hne⟩ := hab
      rw [if_neg ha2, if_neg hb2] at hle
      have : Index nodes a ≠ Index nodes b :=
        fun e => hne (hinj a b (hp.subset ha.1) (hp.subset hb.1) e)
      omega
    · exact (Index_pairwise_of_nodup nodes hnd).filter _
  refine ⟨R.filter (fun a => decide (H.keyText a ∈ keys)), ?_, hp.filter _, ?_⟩
  · rw [← hrest]
    exact hsplit
  · refine List.Pairwise.imp_of_mem ?_ (hs.filter _)
    intro a b ha hb hab
    rw [List.mem_filter, decide_eq_true_iff] at ha hb
    rw [if_pos ((Index_nonneg_iff _ _).2 ha.2), if_pos ((Index_nonneg_iff _ _).2 hb.2)] at hab
    exact hab

theorem set_getElem_same {α : Type} (l : List α) (i : Nat) (h : i < l.length) :
    l.set i l[i] = l := by
  apply List.ext_getElem?
  intro j
  rw [List.getElem?_set]
  by_cases hij : i = j
  · subst hij
    simp [h]
  · simp [hij]

theorem setContent_self (H : Heap) (p : Ptr) : H.setContent p (H.deref p).Content = H := by
  by_cases hp : p < H.length
  · unfold Heap.setContent Heap.deref
    rw [List.getD_eq_getElem?_getD, List.getElem?_eq_getElem hp]
    simp only [Option.getD_some]
    exact set_getElem_same H p hp
  · exact setContent_of_not_lt H p _ hp

theorem filter_mem_append_not_mem (H : Heap) (keys : List Str) (nodes : List Pair) :
    (nodes.filter (fun e => decide (H.keyText e ∈ keys)) ++
      nodes.filter (fun e => decide (H.keyText e ∉ keys))).Perm nodes := by
  have hnot : (fun e : Pair => decide (H.keyText e ∉ keys)) =
      (fun a => !decide (H.keyText a ∈ keys)) := by
    funext a; simp
  rw [hnot]
  exact List.filter_append_perm _ nodes

/-- NewSimpleOrdering on a mapping of distinct pairs, by a sorter that meets the
contract. -/
theorem simpleOrdering_mapping (S : Sorter) (hS : SortContract S) (H : Heap) (p : Ptr) (key : Str)
    (keys : List Str) (hk : (H.deref p).Kind = .MappingNode)
    (hnd : (pairs (H.deref p).Content).Nodup) (hks : keys ≠ []) :
    ∃ front, NewSimpleOrdering S keys key (some p) H =
        H.setContent p
          (unpairs (front ++ (pairs (H.deref p).Content).filter
              (fun e => decide (H.keyText e ∉ keys))) ++
            (H.deref p).Content.drop (2 * (pairs (H.deref p).Content).length)) ∧
      front.Perm ((pairs (H.deref p).Content).filter (fun e => decide (H.keyText e ∈ keys))) ∧
      front.Pairwise (fun a b => Index keys (H.keyText a) ≤ Index keys (H.keyText b)) := by
  by_cases hne : (H.deref p).Content = []
  · refine ⟨[], ?_, by simp [hne, pairs], List.Pairwise.nil⟩
    have h0 : keys.length = 0 ∨ (H.deref p).Content.length = 0 ∨
        (H.deref p).Kind ≠ .MappingNode := Or.inr (Or.inl (by simp [hne]))
    simp only [NewSimpleOrdering]
    rw [if_pos h0]
    have := setContent_self H p
    rw [hne] at this ⊢
    simpa [pairs, unpairs] using this.symm
  · obtain ⟨front, h1, h2, h3⟩ :=
      simpleOrdering_sorted S hS H keys (pairs (H.deref p).Content) hnd
    refine ⟨front, ?_, h2, h3⟩
    have h0 : ¬ (keys.length = 0 ∨ (H.deref p).Content.length = 0 ∨
        (H.deref p).Kind ≠ .MappingNode) := by
      simp [hks, hne, hk]
    have hlen : (front ++ (pairs (H.deref p).Content).filter
        (fun e => decide (H.keyText e ∉ keys))).length = (pairs (H.deref p).Content).length := by
      rw [← h1]
      exact (hS Pair _ _).1.length_eq
    simp only [NewSimpleOrdering]
    rw [if_neg h0, h1, writePairs_zero, hlen]
    rw [hlen, length_pairs]
    omega

/-- C2: on a Mapping node with an even-length child list of distinct child
nodes and a non-empty key list ks, NewSimpleOrdering(ks...) leaves first the
pairs whose key text occurs in ks, ordered by the position of their key text in
ks, then all other pairs in their original relative order; the new pairs are a
permutation of the original pairs, so every value stays with its key. -/
theorem NewSimpleOrdering_orders (S : Sorter) (hS : SortContract S) (H : Heap) (p : Ptr)
    (key : Str) (ks : List Str) (hk : (H.deref p).Kind = .MappingNode)
    (heven : Even (H.deref p).Content.length) (hnd : (pairs (H.deref p).Content).Nodup)
    (hks : ks ≠ []) :
    ∃ front,
      pairs ((NewSimpleOrdering S ks key (some p) H).deref p).Content =
        front ++ (pairs (H.deref p).Content).filter (fun e => decide (H.keyText e ∉ ks)) ∧
      front.Perm ((pairs (H.deref p).Content).filter (fun e => decide (H.keyText e ∈ ks))) ∧
      front.Pairwise (fun a b => Index ks (H.keyText a) ≤ Index ks (H.keyText b)) ∧
      (pairs ((NewSimpleOrdering S ks key (some p) H).deref p).Content).Perm
        (pairs (H.deref p).Content) ∧
      Even ((NewSimpleOrdering S ks key (some p) H).deref p).Content.length ∧
      NewSimpleOrdering S ks key (some p) H =
        H.setContent p ((NewSimpleOrdering S ks key (some p) H).deref p).Content ∧
      ∀ q, (NewSimpleOrdering S ks key (some p) H).text q = H.text q := by
  obtain ⟨front, h1, h2, h3⟩ := simpleOrdering_mapping S hS H p key ks hk hnd hks
  have hlt : p < H.length := by
    by_contra hp
    rw [deref_of_not_lt H p hp] at hk
    cases hk
  have hdrop : (H.deref p).Content.drop (2 * (pairs (H.deref p).Content).length) = [] := by
    apply List.drop_eq_nil_of_le
    rw [length_pairs]
    obtain ⟨k, hk2⟩ := heven
    omega
  rw [hdrop, List.append_nil] at h1
  have hc : ((NewSimpleOrdering S ks key (some p) H).deref p).Content =
      unpairs (front ++ (pairs (H.deref p).Content).filter
        (fun e => decide (H.keyText e ∉ ks))) := by
    rw [h1, deref_setContent_self H p _ hlt]
  refine ⟨front, ?_, h2, h3, ?_, ?_, ?_, ?_⟩
  · rw [hc, pairs_unpairs]
  · rw [hc, pairs_unpairs]
    exact (h2.append_right _).trans (filter_mem_append_not_mem H ks _)
  · rw [hc, length_unpairs]
    exact ⟨_, two_mul _⟩
  · rw [hc]
    exact h1
  · intro q
    rw [h1]
    exact (value_setContent H p q _).1

/-! ## Lint -/

theorem partsLoop_plain (path : Str) (s : List Char) :
    ∀ (allowed res : List Str) (cur : Str), (∀ c ∈ s, isStructural c = false) →
      partsLoop path s allowed res cur = .ok (if cur ++ s ≠ [] then res ++ [cur ++ s] else res) := by
  induction s with
  | nil => intro allowed res cur _; simp [partsLoop]
  | cons c s ih =>
    intro allowed res cur h
    rw [partsLoop_nonstructural path c s allowed res cur (h c (List.mem_cons_self _ _)),
      ih allowed res (cur ++ [c]) (fun x hx => h x (List.mem_cons_of_mem _ hx))]
    simp

/-- The path of the child of the root under a key free of structural characters
has two segments. -/
theorem parts_root_key (k : Str) (h : ∀ c ∈ k, isStructural c = false) :
    parts (root ++ delimiter ++ k) = .ok [root, delimiter ++ k] := by
  have h1 : parts (root ++ delimiter ++ k) =
      partsLoop (root ++ delimiter ++ k) k [delimiter, indexOpen] [root] delimiter := rfl
  rw [h1, partsLoop_plain _ k _ _ _ h]
  simp [delimiter]

theorem contains_root_key [Folding] (fns : List OrderFn) (k : Str) (h : ∀ c ∈ k, isStructural c = false) :
    (NewRule root fns).contains (root ++ delimiter ++ k) = .ok false := by
  have h1 : (NewRule root fns).contains (root ++ delimiter ++ k) =
      match parts (root ++ delimiter ++ k) with
      | .error pathErr => .error (.error pathErr)
      | .ok pathParts => containsLoop [root] 0 pathParts := rfl
  rw [h1, parts_root_key k h]
  simp only [containsLoop]
  have hidx : index [root] ((0 : Nat) : Int) = .ok root := rfl
  simp [hidx, equalFold_root]
  rfl

theorem mapSet_forall (Q : Str × Ptr → Prop) (m : PathMap) (k : Str) (v : Ptr)
    (hm : ∀ kv ∈ m, Q kv) (hkv : Q (k, v)) : ∀ kv ∈ mapSet m k v, Q kv := by
  induction m with
  | nil =>
    intro kv hmem
    simp only [mapSet, List.mem_singleton] at hmem
    rw [hmem]; exact hkv
  | cons a m ih =>
    intro kv hmem
    obtain ⟨k0, v0⟩ := a
    simp only [mapSet] at hmem
    split at hmem
    · rcases List.mem_cons.1 hmem with h | h
      · rw [h]; exact hkv
      · exact hm kv (List.mem_cons_of_mem _ h)
    · rcases List.mem_cons.1 hmem with h | h
      · rw [h]; exact hm _ (List.mem_cons_self _ _)
      · exact ih (fun x hx => hm x (List.mem_cons_of_mem _ hx)) kv h

theorem mapSet_length (m : PathMap) (k : Str) (v : Ptr) :
    (mapSet m k v).length ≤ m.length + 1 := by
  induction m with
  | nil => simp [mapSet]
  | cons a m ih =>
    obtain ⟨k0, v0⟩ := a
    simp only [mapSet]
    split
    · simp
    · simp only [List.length_cons]; omega

/-- The entries next adds for a mapping node are those of its pairs. -/
theorem nextMapping_spec (H : Heap) (cursor : Str) (Q : Str × Ptr → Prop) :
    ∀ (n : Nat) (content : List Ptr) (i : Nat) (key : Str) (res : PathMap),
      content.length ≤ n → i % 2 = 0 → (∀ kv ∈ res, Q kv) →
      (∀ e ∈ pairs content, Q (cursor ++ delimiter ++ H.keyText e, e.Value)) →
      (∀ kv ∈ nextMapping H cursor content i key res, Q kv) ∧
        (nextMapping H cursor content i key res).length ≤ res.length + (pairs content).length := by
  intro n
  induction n with
  | zero =>
    intro content i key res hn _ hres _
    have : content = [] := List.length_eq_zero.mp (by omega)
    subst this
    exact ⟨hres, by simp [nextMapping, pairs]⟩
  | succ n ih =>
    intro content i key res hn hi hres hQ
    rcases content with _ | ⟨a, _ | ⟨b, rest⟩⟩
    · exact ⟨hres, by simp [nextMapping, pairs]⟩
    · have hi1 : ¬ ((i + 1) % 2 = 0) := by omega
      simp only [nextMapping, hi, if_true]
      exact ⟨hres, by simp [pairs]⟩
    · have hi1 : ¬ ((i + 1) % 2 = 0) := by omega
      have hstep : nextMapping H cursor (a :: b :: rest) i key res =
          nextMapping H cursor rest (i + 1 + 1) (cursor ++ delimiter ++ (H.deref a).Value)
            (mapSet res (cursor ++ delimiter ++ (H.deref a).Value) b) := by
        simp only [nextMapping, hi, hi1, if_true, if_false]
      have hab : Q (cursor ++ delimiter ++ (H.deref a).Value, b) :=
        hQ ⟨a, b⟩ (by simp [pairs])
      have := ih rest (i + 1 + 1) (cursor ++ delimiter ++ (H.deref a).Value)
        (mapSet res (cursor ++ delimiter ++ (H.deref a).Value) b)
        (by simp at hn; omega) (by omega)
        (mapSet_forall Q res _ b hres hab)
        (fun e he => hQ e (by simp [pairs, he]))
      rw [hstep]
      refine ⟨this.1, ?_⟩
      have h2 := mapSet_length res (cursor ++ delimiter ++ (H.deref a).Value) b
      simp only [pairs, List.length_cons]
      omega

theorem foldl_mapSet_spec (Q : Str × Ptr → Prop) (entries : PathMap) :
    ∀ queue : PathMap, (∀ kv ∈ queue, Q kv) → (∀ kv ∈ entries, Q kv) →
      (∀ kv ∈ entries.foldl (fun q kv => mapSet q kv.1 kv.2) queue, Q kv) ∧
        (entries.foldl (fun q kv => mapSet q kv.1 kv.2) queue).length ≤
          queue.length + entries.length := by
  induction entries with
  | nil => intro queue hq _; exact ⟨hq, by simp⟩
  | cons a entries ih =>
    intro queue hq he
    have := ih (mapSet queue a.1 a.2)
      (mapSet_forall Q queue a.1 a.2 hq (he a (List.mem_cons_self _ _)))
      (fun x hx => he x (List.mem_cons_of_mem _ hx))
    have h2 := mapSet_length queue a.1 a.2
    simp only [List.foldl_cons, List.length_cons]
    exact ⟨this.1, by omega⟩

/-- A queue of entries that contains rejects is emptied without any call. -/
theorem lintLoop_pruned [Folding] (rule : Rule) (st : State) :
    ∀ (choices : List Nat) (queue : PathMap),
      (∀ kv ∈ queue, rule.contains kv.1 = .ok false) → queue.length ≤ choices.length →
      lintLoop rule choices queue st = .done st (choices.drop queue.length) := by
  intro choices
  induction choices with
  | nil =>
    intro queue _ hlen
    have : queue = [] := List.length_eq_zero.mp (by simpa using hlen)
    subst this
    rfl
  | cons c choices ih =>
    intro queue hq hlen
    by_cases h0 : queue.length > 0
    · have hi : c % queue.length < queue.length := Nat.mod_lt _ h0
      have hmem : queue.getD (c % queue.length) ([], 0) ∈ queue := by
        rw [List.getD_eq_getElem _ _ hi]
        exact List.getElem_mem _
      have hc := hq _ hmem
      have hlen2 : (queue.eraseIdx (c % queue.length)).length = queue.length - 1 :=
        List.length_eraseIdx_of_lt hi
      have := ih (queue.eraseIdx (c % queue.length))
        (fun kv hkv => hq kv (List.mem_of_mem_eraseIdx hkv))
        (by rw [hlen2]; simp at hlen; omega)
      simp only [lintLoop, h0, not_true_eq_false, if_false, hc, this, hlen2]
      have : queue.length = (queue.length - 1) + 1 := by omega
      rw [this, List.drop_succ_cons]
      simp
    · have : queue = [] := List.length_eq_zero.mp (by omega)
      subst this
      simp [lintLoop]

theorem setContent_setContent (H : Heap) (p : Ptr) (c1 c2 : List Ptr) :
    (H.setContent p c1).setContent p c2 = H.setContent p c2 := by
  by_cases hp : p < H.length
  · have h1 : (H.setContent p c1).setContent p c2 =
        (H.setContent p c1).set p { (H.setContent p c1).deref p with Content := c2 } := rfl
    rw [h1, deref_setContent_self H p c1 hp]
    unfold Heap.setContent
    rw [List.set_set]
  · rw [setContent_of_not_lt H p c1 hp]

theorem keyText_setContent (H : Heap) (p : Ptr) (c : List Ptr) :
    (H.setContent p c).keyText = H.keyText := by
  funext e
  exact (value_setContent H p e.Key c).1

/-- The two functions of the rule of TestLint_DocumentNode, run in the order they
are attached, on a mapping with an even-length child list and distinct pairs. -/
theorem run_string_then_simple (S : Sorter) (hS : SortContract S) (H : Heap) (m : Ptr)
    (key : Str) (ks : List Str) (hm : (H.deref m).Kind = .MappingNode)
    (heven : Even (H.deref m).Content.length) (hnd : (pairs (H.deref m).Content).Nodup) :
    ∃ A B, (NewRule root [StringOrderingFn S, NewSimpleOrdering S ks]).Run key m H =
        H.setContent m (unpairs (A ++ B)) ∧
      A.Perm ((pairs (H.deref m).Content).filter (fun e => decide (H.keyText e ∈ ks))) ∧
      A.Pairwise (fun a b => Index ks (H.keyText a) ≤ Index ks (H.keyText b)) ∧
      B.Perm ((pairs (H.deref m).Content).filter (fun e => decide (H.keyText e ∉ ks))) ∧
      B.Pairwise (fun a b => H.keyText a ≤ H.keyText b) := by
  have hrun : (NewRule root [StringOrderingFn S, NewSimpleOrdering S ks]).Run key m H =
      NewSimpleOrdering S ks key (some m) (StringOrderingFn S key (some m) H) := rfl
  rw [hrun]
  have hlt : m < H.length := by
    by_contra hp
    rw [deref_of_not_lt H m hp] at hm
    cases hm
  by_cases hne : (H.deref m).Content = []
  · have h1 : StringOrderingFn S key (some m) H = H := by
      simp only [StringOrderingFn]
      rw [if_pos (Or.inl (by simp [hne]))]
    have h2 : NewSimpleOrdering S ks key (some m) H = H := by
      simp only [NewSimpleOrdering]
      rw [if_pos (Or.inr (Or.inl (by simp [hne])))]
    refine ⟨[], [], ?_, by simp [hne, pairs], List.Pairwise.nil, by simp [hne, pairs],
      List.Pairwise.nil⟩
    rw [h1, h2]
    have := setContent_self H m
    rw [hne] at this
    simpa [unpairs] using this.symm
  · obtain ⟨R, h1, h2, h3⟩ := stringOrdering_mapping S hS H m key hm hne
    have hdrop : (H.deref m).Content.drop (2 * R.length) = [] := by
      apply List.drop_eq_nil_of_le
      rw [h2.length_eq, length_pairs]
      obtain ⟨k, hk2⟩ := heven
      omega
    rw [hdrop, List.append_nil] at h1
    have hc1 : ((H.setContent m (unpairs R)).deref m).Content = unpairs R := by
      rw [deref_setContent_self H m _ hlt]
    have hk1 : ((H.setContent m (unpairs R)).deref m).Kind = .MappingNode := by
      rw [(value_setContent H m m _).2]
      exact hm
    have hRnd : R.Nodup := h2.nodup_iff.2 hnd
    rw [h1]
    by_cases hks : ks = []
    · subst hks
      have h4 : NewSimpleOrdering S [] key (some m) (H.setContent m (unpairs R)) =
          H.setContent m (unpairs R) := by
        simp only [NewSimpleOrdering, List.length_nil, true_or, if_true]
      refine ⟨[], R, by rw [h4]; rfl, by simp, List.Pairwise.nil, ?_, h3⟩
      simpa using h2
    · obtain ⟨front, h5, h6, h7⟩ := simpleOrdering_mapping S hS (H.setContent m (unpairs R)) m
        key ks hk1 (by rw [hc1, pairs_unpairs]; exact hRnd) hks
      rw [hc1, pairs_unpairs, keyText_setContent] at h5 h6
      rw [keyText_setContent] at h7
      have hdrop2 : (unpairs R).drop (2 * R.length) = [] := by
        apply List.drop_eq_nil_of_le
        rw [length_unpairs]
      rw [hdrop2, List.append_nil, setContent_setContent] at h5
      exact ⟨front, R.filter (fun e => decide (H.keyText e ∉ ks)), h5,
        h6.trans (h2.filter _), h7, h2.filter _, h3.filter _⟩

/-- C4: on a Document whose content is a Mapping (even-length child list, key
texts pairwise distinct and free of '.', '[' and ']'), Lint with the single
rule NewRule("$", StringOrderingFn, NewSimpleOrdering(ks...)) ends, whatever
the order in which the queue is emptied, after one call of the rule's functions,
on the root mapping with the path '$': StringOrderingFn first, then
NewSimpleOrdering. The mapping then holds first the pairs whose key occurs in
ks, in the order of ks, then all other pairs in ascending order of key text;
the pairs are permuted as pairs, and nothing else changes. -/
theorem Lint_root_rule [Folding] (S : Sorter) (hS : SortContract S) (H : Heap) (d m : Ptr)
    (rest : List Ptr) (ks : List Str) (choices : List Nat)
    (hd : (H.deref d).Kind = .DocumentNode) (hdc : (H.deref d).Content = m :: rest)
    (hm : (H.deref m).Kind = .MappingNode) (heven : Even (H.deref m).Content.length)
    (hkeys : ((pairs (H.deref m).Content).map H.keyText).Nodup)
    (hfree : ∀ e ∈ pairs (H.deref m).Content, ∀ c ∈ H.keyText e, isStructural c = false)
    (hch : (H.deref m).Content.length / 2 + 1 ≤ choices.length) :
    ∃ A B left,
      Lint choices ⟨H, []⟩ (some d) [NewRule root [StringOrderingFn S, NewSimpleOrdering S ks]] =
        .done ⟨H.setContent m (unpairs (A ++ B)), [(root, m)]⟩ left ∧
      H.setContent m (unpairs (A ++ B)) =
        NewSimpleOrdering S ks root (some m) (StringOrderingFn S root (some m) H) ∧
      A.Perm ((pairs (H.deref m).Content).filter (fun e => decide (H.keyText e ∈ ks))) ∧
      A.Pairwise (fun a b => Index ks (H.keyText a) ≤ Index ks (H.keyText b)) ∧
      B.Perm ((pairs (H.deref m).Content).filter (fun e => decide (H.keyText e ∉ ks))) ∧
      B.Pairwise (fun a b => H.keyText a ≤ H.keyText b) := by
  obtain ⟨A, B, hrun, hA1, hA2, hB1, hB2⟩ :=
    run_string_then_simple S hS H m root ks hm heven (List.Nodup.of_map _ hkeys)
  obtain ⟨c0, cs, rfl⟩ : ∃ c0 cs, choices = c0 :: cs := by
    cases choices with
    | nil => simp at hch
    | cons c0 cs => exact ⟨c0, cs, rfl⟩
  -- the entries of the queue after the root
  have hnext := nextMapping_spec H root
    (fun kv => ∃ k : Str, (∀ c ∈ k, isStructural c = false) ∧ kv.1 = root ++ delimiter ++ k)
    (H.deref m).Content.length (H.deref m).Content 0 [] [] le_rfl rfl (by simp)
    (fun e he => ⟨H.keyText e, hfree e he, rfl⟩)
  have hqueue := foldl_mapSet_spec
    (fun kv => ∃ k : Str, (∀ c ∈ k, isStructural c = false) ∧ kv.1 = root ++ delimiter ++ k)
    (nextMapping H root (H.deref m).Content 0 [] []) [] (by simp) hnext.1
  have hpruned := lintLoop_pruned (NewRule root [StringOrderingFn S, NewSimpleOrdering S ks])
    ⟨H.setContent m (unpairs (A ++ B)), [(root, m)]⟩ cs
    ((nextMapping H root (H.deref m).Content 0 [] []).foldl (fun q kv => mapSet q kv.1 kv.2) [])
    (by
      intro kv hkv
      obtain ⟨k, hk, hkv2⟩ := hqueue.1 kv hkv
      rw [hkv2]
      exact contains_root_key _ k hk)
    (by
      have h1 := hqueue.2
      have h2 := hnext.2
      have h3 := length_pairs (H.deref m).Content
      simp only [List.length_nil, List.length_cons] at h1 h2 hch
      omega)
  refine ⟨A, B, cs.drop ((nextMapping H root (H.deref m).Content 0 [] []).foldl
    (fun q kv => mapSet q kv.1 kv.2) []).length, ?_, ?_, hA1, hA2, hB1, hB2⟩
  · have hstep : lintLoop (NewRule root [StringOrderingFn S, NewSimpleOrdering S ks]) (c0 :: cs)
        [(root, m)] ⟨H, []⟩ =
        lintLoop (NewRule root [StringOrderingFn S, NewSimpleOrdering S ks]) cs
          ((next H root (some m)).foldl (fun q kv => mapSet q kv.1 kv.2) [])
          ⟨(NewRule root [StringOrderingFn S, NewSimpleOrdering S ks]).Run root m H,
            [(root, m)]⟩ := by
      have hmod : c0 % 1 = 0 := Nat.mod_one c0
      have hcont : (NewRule root [StringOrderingFn S, NewSimpleOrdering S ks]).contains root =
          .ok true := (contains_ascii _ _ (by simp only [NewRule]; decide) (by decide)).trans rfl
      have hmatch : (NewRule root [StringOrderingFn S, NewSimpleOrdering S ks]).«match» root =
          .ok true := (match_ascii _ _ (by simp only [NewRule]; decide) (by decide)).trans rfl
      simp only [lintLoop, List.length_singleton, hmod, List.getD_cons_zero, List.eraseIdx_cons_zero,
        hcont, hmatch, List.nil_append]
      simp
    have hnx : next H root (some m) = nextMapping H root (H.deref m).Content 0 [] [] := by
      simp only [next, hm, if_true]
    simp only [Lint, List.length_singleton, one_ne_zero, if_false, hd, if_true, hdc, lintRules]
    rw [hstep, hnx, hrun, hpruned]
  · rw [← hrun]
    rfl

/-! ## Witnesses, the tests of the repository, and the key wildcard under Lint -/

/-- C3 at the sequence c, b, a, sorted by insertion sort. -/
theorem StringOrderingFn_sorts_witness :
    ∃ c, StringOrderingFn insertionSortedFunc [] (some 0) sequenceCBA =
        sequenceCBA.setContent 0 c ∧
      ((StringOrderingFn insertionSortedFunc [] (some 0) sequenceCBA).deref 0).Content = c ∧
      c.Perm (sequenceCBA.deref 0).Content ∧
      c.Pairwise (fun a b => sequenceCBA.text a ≤ sequenceCBA.text b) :=
  (StringOrderingFn_sorts insertionSortedFunc insertionSortedFunc_contract sequenceCBA 0 []
    (by decide)).1 rfl

/-- C2 at the mapping c, f, b, e, a and the keys a, b, c: the pairs of f and e
come last, in this order. -/
theorem NewSimpleOrdering_orders_witness :
    ∃ front,
      pairs ((NewSimpleOrdering insertionSortedFunc ["a".toList, "b".toList, "c".toList] []
          (some 0) mappingCFBEA).deref 0).Content =
        front ++ [⟨3, 4⟩, ⟨7, 8⟩] :=
  (NewSimpleOrdering_orders insertionSortedFunc insertionSortedFunc_contract mappingCFBEA 0 []
    ["a".toList, "b".toList, "c".toList] rfl (by decide) (by decide) (by decide)).imp
    (fun _ h => h.1)

/-- C4 at the document foo: bar, test: value, abc: def and the key test. -/
theorem Lint_root_rule_witness :
    ∃ A B left,
      Lint [0, 0, 0, 0] ⟨documentFooTestAbc, []⟩ (some 0)
          [NewRule root [StringOrderingFn insertionSortedFunc,
            NewSimpleOrdering insertionSortedFunc ["test".toList]]] =
        .done ⟨documentFooTestAbc.setContent 1 (unpairs (A ++ B)), [(root, 1)]⟩ left :=
  let ⟨A, B, left, h, _⟩ := Lint_root_rule insertionSortedFunc insertionSortedFunc_contract
    documentFooTestAbc 0 1 [] ["test".toList] [0, 0, 0, 0] rfl rfl rfl (by decide) (by decide)
    (by decide) (by decide)
  ⟨A, B, left, h⟩

/-- TestStringOrderingFn_SortsSequence, TestNewSimpleOrdering and
TestLint_DocumentNode, with insertion sort for slices.SortedFunc: the sequence
c, b, a becomes a, b, c; the keys c, f, b, e, a become a, b, c, f, e; the
document foo, test, abc becomes test, abc, foo. -/
theorem tests_of_ordering :
    ((StringOrderingFn insertionSortedFunc [] (some 0) sequenceCBA).deref 0).Content = [3, 2, 1] ∧
    ((NewSimpleOrdering insertionSortedFunc ["a".toList, "b".toList, "c".toList] [] (some 0)
      mappingCFBEA).deref 0).Content = [9, 10, 5, 6, 1, 2, 3, 4, 7, 8] ∧
    Lint [0, 0, 0, 0] ⟨documentFooTestAbc, []⟩ (some 0)
        [NewRule root [StringOrderingFn insertionSortedFunc,
          NewSimpleOrdering insertionSortedFunc ["test".toList]]] =
      .done ⟨documentFooTestAbc.setContent 1 [4, 5, 6, 7, 2, 3], [(root, 1)]⟩ [] :=
  ⟨rfl, rfl, rfl⟩

/-- C1: on the document a: (z: 1, y: 2) the rule '$.*' matches the path '$.a'
of the inner mapping, but contains rejects that path, so Lint, whatever the
order in which the queue is emptied and whatever the rule's functions are,
ends without a single call of them and leaves the tree as it was. -/
theorem Lint_skips_key_wildcard_match [Folding] (fns : List OrderFn) (c0 c1 : Nat) (left : List Nat) :
    (NewRule "$.*".toList fns).«match» "$.a".toList = .ok true ∧
    (NewRule "$.*".toList fns).contains "$.a".toList = .ok false ∧
    next documentNested root (some 1) = [("$.a".toList, 3)] ∧
    Lint (c0 :: c1 :: left) ⟨documentNested, []⟩ (some 0) [NewRule "$.*".toList fns] =
      .done ⟨documentNested, []⟩ left := by
  refine ⟨(match_ascii _ _ (by simp only [NewRule]; decide) (by decide)).trans rfl,
    (contains_ascii _ _ (by simp only [NewRule]; decide) (by decide)).trans rfl, rfl, ?_⟩
  have hmod : c0 % 1 = 0 := Nat.mod_one c0
  have hcont : (NewRule "$.*".toList fns).contains root = .ok true :=
    (contains_ascii _ _ (by simp only [NewRule]; decide) (by decide)).trans rfl
  have hmatch : (NewRule "$.*".toList fns).«match» root = .ok false :=
    (match_ascii _ _ (by simp only [NewRule]; decide) (by decide)).trans rfl
  have hstep : lintLoop (NewRule "$.*".toList fns) (c0 :: c1 :: left) [(root, 1)]
      ⟨documentNested, []⟩ =
      lintLoop (NewRule "$.*".toList fns) (c1 :: left) [("$.a".toList, 3)]
        ⟨documentNested, []⟩ := by
    simp only [lintLoop, List.length_singleton, hmod, List.getD_cons_zero,
      List.eraseIdx_cons_zero, hcont, hmatch]
    simp
    rfl
  have hpruned := lintLoop_pruned (NewRule "$.*".toList fns) ⟨documentNested, []⟩ (c1 :: left)
    [("$.a".toList, 3)] (by
      intro kv hkv
      rw [List.mem_singleton] at hkv
      rw [hkv]
      exact (contains_ascii _ _ (by simp only [NewRule]; decide) (by decide)).trans rfl) (by simp)
  have hlint : Lint (c0 :: c1 :: left) ⟨documentNested, []⟩ (some 0) [NewRule "$.*".toList fns] =
      match lintLoop (NewRule "$.*".toList fns) (c0 :: c1 :: left) [(root, 1)]
        ⟨documentNested, []⟩ with
      | .done st choices => .done st choices
      | .panic p st => .panic p st
      | .pending => .pending := rfl
  rw [hlint, hstep, hpruned]
  rfl


/-! ## Calls that change nothing -/

/-- C11: both ordering functions leave the heap, and so the node, unchanged when
the node is nil, has no children, or is neither a Mapping nor a Sequence;
NewSimpleOrdering also leaves it unchanged on every Sequence and, with an empty
key list, on every node. -/
theorem ordering_unchanged (S : Sorter) (H : Heap) (key : Str) (ks : List Str) :
    StringOrderingFn S key none H = H ∧ NewSimpleOrdering S ks key none H = H ∧
    (∀ p, (H.deref p).Content = [] ∨
        ((H.deref p).Kind ≠ .MappingNode ∧ (H.deref p).Kind ≠ .SequenceNode) →
      StringOrderingFn S key (some p) H = H ∧ NewSimpleOrdering S ks key (some p) H = H) ∧
    (∀ p, (H.deref p).Kind = .SequenceNode → NewSimpleOrdering S ks key (some p) H = H) ∧
    (∀ v, NewSimpleOrdering S [] key v H = H) := by
  refine ⟨rfl, rfl, ?_, ?_, ?_⟩
  · intro p h
    have h1 : (H.deref p).Content.length = 0 ∨
        ((H.deref p).Kind ≠ .MappingNode ∧ (H.deref p).Kind ≠ .SequenceNode) := by
      rcases h with h | h
      · exact Or.inl (by simp [h])
      · exact Or.inr h
    have h2 : ks.length = 0 ∨ (H.deref p).Content.length = 0 ∨
        (H.deref p).Kind ≠ .MappingNode := by
      rcases h with h | h
      · exact Or.inr (Or.inl (by simp [h]))
      · exact Or.inr (Or.inr h.1)
    constructor
    · simp only [StringOrderingFn]
      rw [if_pos h1]
    · simp only [NewSimpleOrdering]
      rw [if_pos h2]
  · intro p h
    have h2 : ks.length = 0 ∨ (H.deref p).Content.length = 0 ∨
        (H.deref p).Kind ≠ .MappingNode := Or.inr (Or.inr (by rw [h]; decide))
    simp only [NewSimpleOrdering]
    rw [if_pos h2]
  · intro v
    cases v with
    | none => rfl
    | some p => simp only [NewSimpleOrdering, List.length_nil, true_or, if_true]

/-- C12: Lint ends at once, with the heap and the list of calls as they were,
when the root is nil, when the rule list is empty, and when the root is a
Document node without content. -/
theorem Lint_unchanged [Folding] (choices : List Nat) (st : State) (node : Option Ptr) (rules : List Rule) :
    Lint choices st none rules = .done st choices ∧
    Lint choices st node [] = .done st choices ∧
    (∀ d, (st.heap.deref d).Kind = .DocumentNode → (st.heap.deref d).Content = [] →
      Lint choices st (some d) rules = .done st choices) := by
  refine ⟨rfl, ?_, ?_⟩
  · cases node <;> rfl
  · intro d hk hc
    simp only [Lint, hk, hc, if_true]
    split <;> rfl

/-! ## contains against match -/

/-- C17: the absolute rule '$.*' matches the candidate '$.a', but contains
rejects '$.a' (and accepts its prefix '$'): contains is not true for every
path that match accepts. The rule '$.some.*' of TestMatch_Absolute_MatchesPath
does the same with '$.some.key'. -/
theorem contains_rejects_matched_path [Folding] :
    (NewRule "$.*".toList []).«match» "$.a".toList = .ok true ∧
    (NewRule "$.*".toList []).contains "$.a".toList = .ok false ∧
    (NewRule "$.*".toList []).contains "$".toList = .ok true ∧
    (NewRule "$.some.*".toList []).«match» "$.some.key".toList = .ok true ∧
    (NewRule "$.some.*".toList []).contains "$.some.key".toList = .ok false :=
  ⟨(match_ascii _ _ (by simp only [NewRule]; decide) (by decide)).trans rfl,
    (contains_ascii _ _ (by simp only [NewRule]; decide) (by decide)).trans rfl,
    (contains_ascii _ _ (by simp only [NewRule]; decide) (by decide)).trans rfl,
    (match_ascii _ _ (by simp only [NewRule]; decide) (by decide)).trans rfl,
    (contains_ascii _ _ (by simp only [NewRule]; decide) (by decide)).trans rfl⟩

/-! ## Two dots in sequence -/

/-- C20, as the claim states it, fails: parts accepts '$..key', with the
segments '$', '.', '.key', and Validate returns no error for a rule with that
path. -/
theorem parts_accepts_two_dots :
    parts "$..key".toList = .ok ["$".toList, ".".toList, ".key".toList] ∧
    Validate [NewRule "$..key".toList []] = none :=
  ⟨rfl, rfl⟩

theorem firstIllegal_no_bracket (l : List Char) :
    ∀ prev : Option Char, prev ≠ some '[' → (∀ c ∈ l, c ≠ '[' ∧ c ≠ ']') →
      firstIllegal prev l = none := by
  induction l with
  | nil => intro _ _ _; rfl
  | cons a l ih =>
    intro prev hprev h
    have ha := h a (List.mem_cons_self _ _)
    have hi : ¬ Illegal prev a := by
      rintro (⟨h1, -⟩ | ⟨-, h2⟩)
      · exact ha.2 h1
      · exact hprev h2
    simp only [firstIllegal, hi, if_false]
    exact ih (some a) (fun e => ha.1 (Option.some.inj e))
      (fun c hc => h c (List.mem_cons_of_mem _ hc))

/-- C20, amended: the tokenizer accepts two dots in sequence. Every path without
'[' and ']', however many adjacent '.' it has, is accepted by parts, and
Validate returns no error for a rule with such a path. -/
theorem parts_accepts_dots (path : Str) (fns : List OrderFn)
    (h : ∀ c ∈ path, c ≠ '[' ∧ c ≠ ']') :
    (∃ l, parts path = .ok l) ∧ Validate [NewRule path fns] = none := by
  have hspec := parts_spec path
  have hf : firstIllegal none (structural path) = none :=
    firstIllegal_no_bracket _ none (by simp)
      (fun c hc => h c (List.mem_of_mem_filter hc))
  rw [hf] at hspec
  obtain ⟨l, hl⟩ := hspec
  refine ⟨⟨l, hl⟩, ?_⟩
  simp [Validate, NewRule, hl]

/-- C20, amended, at the path '$..key'. -/
theorem parts_accepts_dots_witness :
    (∃ l, parts "$..key".toList = .ok l) ∧ Validate [NewRule "$..key".toList []] = none :=
  parts_accepts_dots "$..key".toList [] (by decide)

/-! ## The segments of an accepted path -/

/-- C19: the segments parts returns for a path give back the path when they are
concatenated in order; every segment is non-empty, and a '.' or '[' occurs in a
segment only as its first character. The empty path gives no segment. -/
theorem parts_segments (path : Str) (l : List Str) (h : parts path = .ok l) :
    l.flatten = path ∧ (∀ seg ∈ l, seg ≠ [] ∧ ∀ c ∈ seg.tail, c ≠ '.' ∧ c ≠ '[') ∧
      (path = [] → l = []) := by
  obtain ⟨h1, h2, -⟩ := parts_struct path l h
  refine ⟨h1, h2, ?_⟩
  intro hp
  subst hp
  cases h
  rfl

/-- C19 at the path of TestParts_ParsesComplexPath. -/
theorem parts_segments_witness :
    ["$".toList, ".key".toList, "[0]".toList, "[*]".toList, ".name".toList, "[1]".toList,
        ".ending".toList].flatten = "$.key[0][*].name[1].ending".toList ∧
      (∀ seg ∈ ["$".toList, ".key".toList, "[0]".toList, "[*]".toList, ".name".toList,
          "[1]".toList, ".ending".toList], seg ≠ [] ∧ ∀ c ∈ seg.tail, c ≠ '.' ∧ c ≠ '[') ∧
      ("$.key[0][*].name[1].ending".toList = [] →
        ["$".toList, ".key".toList, "[0]".toList, "[*]".toList, ".name".toList, "[1]".toList,
          ".ending".toList] = []) :=
  parts_segments "$.key[0][*].name[1].ending".toList _ rfl

/-! ## contains on rules without wildcard -/

theorem equalFold_all [Folding] (x : Str) : EqualFold x all = true ↔ x = all :=
  equalFold_plain all (by decide) x

/-- The first segment of an absolute path starts with the root marker. -/
theorem absolute_first_segment (path : Str) (rs : List Str)
    (habs : HasPrefix path root = true) (hr : parts path = .ok rs) :
    ∃ t tl, rs = ('$' :: t) :: tl := by
  obtain ⟨hj, hw, -⟩ := parts_struct path rs hr
  obtain ⟨rest, hrest⟩ : ∃ rest, path = '$' :: rest := by
    cases path with
    | nil => simp [HasPrefix, root] at habs
    | cons a rest =>
      simp only [HasPrefix, root, List.isPrefixOf, Bool.and_true, beq_iff_eq] at habs
      exact ⟨rest, by rw [habs]⟩
  cases rs with
  | nil => rw [hrest] at hj; simp at hj
  | cons seg tl =>
    have hseg := (hw seg (List.mem_cons_self _ _)).1
    cases seg with
    | nil => exact absurd rfl hseg
    | cons a t =>
      rw [hrest] at hj
      simp only [List.flatten_cons, List.cons_append, List.cons.injEq] at hj
      exact ⟨t, tl, by rw [hj.1]⟩

theorem absolute_segments_ne_all (path : Str) (rs : List Str)
    (habs : HasPrefix path root = true) (hr : parts path = .ok rs) : ∀ s ∈ rs, s ≠ all := by
  obtain ⟨t, tl, rfl⟩ := absolute_first_segment path rs habs hr
  obtain ⟨-, -, hs⟩ := parts_struct path _ hr
  intro s hmem
  rcases List.mem_cons.1 hmem with h | h
  · rw [h]
    simp [all]
  · obtain ⟨c, t2, e, hc⟩ := hs s (by simpa using h)
    rw [e]
    rcases hc with rfl | rfl <;> simp [all]

/-- The test of one pair of segments in contains, for a rule segment that is
neither '*' nor '[*]'. -/
theorem contains_test_eq [Folding] (pathPart rulePart : Str) (h1 : rulePart ≠ all)
    (h2 : rulePart ≠ indexWildcard) :
    (!EqualFold pathPart rulePart && !EqualFold rulePart all &&
      !EqualFold rulePart (indexOpen ++ all ++ indexClose)) = !EqualFold pathPart rulePart := by
  have e1 : EqualFold rulePart all = false := by
    simpa using fun h => h1 ((equalFold_all rulePart).1 h)
  have e2 : EqualFold rulePart (indexOpen ++ all ++ indexClose) = false := by
    have := fun h => h2 ((equalFold_indexWildcard rulePart).1 h)
    simpa using this
  rw [e1, e2]
  simp

theorem containsLoop_spec [Folding] (rs : List Str) (hrs : ∀ s ∈ rs, s ≠ all ∧ s ≠ indexWildcard) :
    ∀ (cs : List Str) (i : Nat), i ≤ rs.length →
      containsLoop rs i cs = .ok (decide (i + cs.length ≤ rs.length ∧
        List.Forall₂ (fun c r => EqualFold c r = true) cs ((rs.drop i).take cs.length))) := by
  intro cs
  induction cs with
  | nil => intro i hi; simp [containsLoop, hi]
  | cons c rest ih =>
    intro i hile
    by_cases hg : (i : Int) > (rs.length : Int) - 1
    · have : ¬ (i + (rest.length + 1) ≤ rs.length) := by omega
      simp [containsLoop, hg, this]
    · have hi : i < rs.length := by omega
      have hd : rs.drop i = rs[i] :: rs.drop (i + 1) := List.drop_eq_getElem_cons hi
      have hne := hrs rs[i] (List.getElem_mem _)
      simp only [containsLoop, hg, if_false, index_ok rs i hi,
        contains_test_eq c rs[i] hne.1 hne.2, hd, List.length_cons, List.take_succ_cons,
        List.forall₂_cons]
      by_cases he : EqualFold c rs[i] = true
      · simp only [he, Bool.not_true, Bool.false_eq_true, if_false, true_and]
        rw [ih (i + 1) (by omega)]
        congr 1
        rw [Bool.eq_iff_iff]
        simp only [decide_eq_true_iff]
        constructor
        · rintro ⟨h1, h2⟩; exact ⟨by omega, h2⟩
        · rintro ⟨h1, h2⟩; exact ⟨by omega, h2⟩
      · simp [he]

/-- C18: for an absolute rule whose path has no wildcard segment and a candidate
path, both tokenizable, contains does not panic and is true exactly when the
candidate has no more segments than the rule and each candidate segment is
equal, ignoring case, to the rule segment at its position: the candidate's
segments are a prefix of the rule's. Equal ignoring case is equal under
strings.EqualFold, rune by rune under simple Unicode case folding
(equalFold_iff), whatever folding tables meet the contract of Folding. -/
theorem contains_prefix [Folding] (r : Rule) (path : Str) (rs cs : List Str)
    (habs : HasPrefix r.Path root = true) (hr : parts r.Path = .ok rs)
    (hc : parts path = .ok cs) (hw : ∀ s ∈ rs, s ≠ keyWildcard ∧ s ≠ indexWildcard) :
    r.contains path = .ok (decide (cs.length ≤ rs.length ∧
      List.Forall₂ (fun c s => EqualFold c s = true) cs (rs.take cs.length))) := by
  have hall := absolute_segments_ne_all r.Path rs habs hr
  have := containsLoop_spec rs (fun s hs => ⟨hall s hs, (hw s hs).2⟩) cs 0 (by omega)
  simp only [Rule.contains, habs, Bool.not_true, Bool.false_eq_true, if_false, hc, hr]
  simpa using this

/-- C18 at the rule '$.some.key' of the tests and the candidate '$.Some'. -/
theorem contains_prefix_witness :
    (NewRule "$.some.key".toList []).contains "$.Some".toList = .ok true :=
  contains_prefix (NewRule "$.some.key".toList []) "$.Some".toList
    ["$".toList, ".some".toList, ".key".toList] ["$".toList, ".Some".toList] rfl rfl rfl
    (by decide)

/-! ## Lint on a rule list with a malformed rule -/

/-- The rules of a list are passed one after the other: the loop over pre ++ rs
is the loop over rs started where the loop over pre ends. -/
theorem lintRules_append [Folding] (path : Str) (cursor : Ptr) (pre rs : List Rule) :
    ∀ (choices : List Nat) (st : State),
      lintRules path cursor (pre ++ rs) choices st =
        match lintRules path cursor pre choices st with
        | .done st1 choices1 => lintRules path cursor rs choices1 st1
        | .panic p st1 => .panic p st1
        | .pending => .pending := by
  induction pre with
  | nil => intro choices st; rfl
  | cons r pre ih =>
    intro choices st
    simp only [List.cons_append, lintRules]
    cases lintLoop r choices [(path, cursor)] st with
    | done st1 ch1 => exact ih ch1 st1
    | panic p st1 => rfl
    | pending => rfl

/-- The first iteration for a rule whose path the tokenizer rejects panics with
the tokenizer's error, in contains for an absolute rule and in match for a
relative one, before any call. -/
theorem lintLoop_malformed [Folding] (r : Rule) (e : Error) (he : parts r.Path = .error e) (c : Nat)
    (choices : List Nat) (cursor : Ptr) (st : State) :
    lintLoop r (c :: choices) [(root, cursor)] st = .panic (.error e) st := by
  have hmod : c % 1 = 0 := Nat.mod_one c
  have hroot : parts root = .ok [root] := rfl
  by_cases habs : HasPrefix r.Path root = true
  · have hcont : r.contains root = .error (.error e) := by
      simp only [Rule.contains, habs, Bool.not_true, Bool.false_eq_true, if_false, hroot, he]
    simp only [lintLoop, List.length_singleton, hmod, List.getD_cons_zero, hcont]
    simp
  · have hrel : HasPrefix r.Path root = false := by simpa using habs
    have hcont : r.contains root = .ok true := by
      simp only [Rule.contains, hrel, Bool.not_false, if_true]
    have hmatch : r.«match» root = .error (.error e) := by
      simp only [Rule.«match», hroot, he]
    simp only [lintLoop, List.length_singleton, hmod, List.getD_cons_zero, hcont, hmatch]
    simp

theorem lintRules_malformed_not_done [Folding] (path : Str) (cursor : Ptr) (r : Rule) (e : Error)
    (he : parts r.Path = .error e) (hpath : path = root) (post : List Rule) :
    ∀ (pre : List Rule) (choices : List Nat) (st st2 : State) (left : List Nat),
      lintRules path cursor (pre ++ r :: post) choices st ≠ .done st2 left := by
  subst hpath
  intro pre choices st st2 left
  rw [lintRules_append]
  cases lintRules root cursor pre choices st with
  | done st1 ch1 =>
    simp only [lintRules]
    cases ch1 with
    | nil =>
      have : lintLoop r [] [(root, cursor)] st1 = .pending := rfl
      rw [this]
      exact fun h => by cases h
    | cons c ch1 =>
      rw [lintLoop_malformed r e he]
      exact fun h => by cases h
  | panic p st1 => exact fun h => by cases h
  | pending => exact fun h => by cases h

/-- C16: on a Document with content and a rule list that holds a rule r whose
path the tokenizer rejects, Lint never completes normally; when the rules before
r complete (and leave a removal for r), Lint panics with the tokenizer's error
for r's path in the state those rules left: no function of r has been called and
r has not been skipped. -/
theorem Lint_malformed_rule [Folding] (choices : List Nat) (st : State) (d cursor : Ptr) (rest : List Ptr)
    (pre post : List Rule) (r : Rule) (e : Error)
    (hd : (st.heap.deref d).Kind = .DocumentNode)
    (hc : (st.heap.deref d).Content = cursor :: rest) (he : parts r.Path = .error e) :
    (∀ st2 left, Lint choices st (some d) (pre ++ r :: post) ≠ .done st2 left) ∧
    (∀ st1 c left, lintRules root cursor pre choices st = .done st1 (c :: left) →
      Lint choices st (some d) (pre ++ r :: post) = .panic (.error e) st1) := by
  have hlint : Lint choices st (some d) (pre ++ r :: post) =
      lintRules root cursor (pre ++ r :: post) choices st := by
    simp only [Lint, hd, hc, if_true]
    have : (pre ++ r :: post).length ≠ 0 := by simp
    simp [this]
  rw [hlint]
  refine ⟨fun st2 left => lintRules_malformed_not_done root cursor r e he rfl post pre choices st
    st2 left, ?_⟩
  intro st1 c left h1
  rw [lintRules_append, h1]
  simp only [lintRules, lintLoop_malformed r e he]

/-- C16 at the document of TestLint_DocumentNode and the rule '$[[' of
TestValidate_Errors after the rule '$'. -/
theorem Lint_malformed_rule_witness :
    Lint [0, 0, 0, 0, 0] ⟨documentFooTestAbc, []⟩ (some 0)
        ([NewRule root [StringOrderingFn insertionSortedFunc]] ++
          NewRule "$[[".toList [StringOrderingFn insertionSortedFunc] :: []) =
      .panic (.error (.invalidPath "$[[".toList (.char "[".toList .ErrIllegalToken)))
        ⟨documentFooTestAbc.setContent 1 [6, 7, 2, 3, 4, 5], [(root, 1)]⟩ :=
  (Lint_malformed_rule [0, 0, 0, 0, 0] ⟨documentFooTestAbc, []⟩ 0 1 []
    [NewRule root [StringOrderingFn insertionSortedFunc]] []
    (NewRule "$[[".toList [StringOrderingFn insertionSortedFunc])
    (.invalidPath "$[[".toList (.char "[".toList .ErrIllegalToken)) rfl rfl rfl).2
    ⟨documentFooTestAbc.setContent 1 [6, 7, 2, 3, 4, 5], [(root, 1)]⟩ 0 [] rfl

/-! ## Lint only reorders -/

theorem Reordered.refl (H : Heap) : Reordered H H :=
  ⟨rfl, fun _ => ⟨rfl, rfl, List.Perm.refl _, fun _ => List.Perm.refl _⟩⟩

theorem Reordered.trans {H1 H2 H3 : Heap} (h12 : Reordered H1 H2) (h23 : Reordered H2 H3) :
    Reordered H1 H3 := by
  refine ⟨h23.1.trans h12.1, fun p => ?_⟩
  obtain ⟨a1, a2, a3, a4⟩ := h12.2 p
  obtain ⟨b1, b2, b3, b4⟩ := h23.2 p
  exact ⟨b1.trans a1, b2.trans a2, b3.trans a3, fun hk => (b4 (a1.trans hk)).trans (a4 hk)⟩

theorem unpairs_perm {A B : List Pair} (h : A.Perm B) : (unpairs A).Perm (unpairs B) := by
  induction h with
  | nil => exact List.Perm.refl _
  | cons x _ ih => exact (ih.cons _).cons _
  | swap x y l =>
    simp only [unpairs]
    have h1 : (y.Key :: y.Value :: x.Key :: x.Value :: unpairs l) =
        [y.Key, y.Value] ++ ([x.Key, x.Value] ++ unpairs l) := rfl
    have h2 : (x.Key :: x.Value :: y.Key :: y.Value :: unpairs l) =
        [x.Key, x.Value] ++ ([y.Key, y.Value] ++ unpairs l) := rfl
    rw [h1, h2, ← List.append_assoc, ← List.append_assoc]
    exact List.Perm.append_right _ List.perm_append_comm
  | trans _ _ ih1 ih2 => exact ih1.trans ih2

theorem setContent_reordered (H : Heap) (p : Ptr) (c : List Ptr)
    (hc : c.Perm (H.deref p).Content)
    (hp : (H.deref p).Kind = .MappingNode → (pairs c).Perm (pairs (H.deref p).Content)) :
    Reordered H (H.setContent p c) := by
  refine ⟨by simp [Heap.setContent], fun q => ?_⟩
  obtain ⟨hv, hk⟩ := value_setContent H p q c
  refine ⟨hk, hv, ?_, ?_⟩
  · by_cases hlt : p < H.length
    · by_cases hq : p = q
      · subst hq
        rw [deref_setContent_self H p c hlt]
        exact hc
      · rw [deref_setContent_ne H p q c hq]
    · rw [setContent_of_not_lt H p c hlt]
  · intro hm
    by_cases hlt : p < H.length
    · by_cases hq : p = q
      · subst hq
        rw [deref_setContent_self H p c hlt]
        exact hp hm
      · rw [deref_setContent_ne H p q c hq]
    · rw [setContent_of_not_lt H p c hlt]

/-- Pairs written back over the Content they were gathered from, in another
order. -/
theorem unpairs_drop_reordered (c : List Ptr) (R : List Pair) (hR : R.Perm (pairs c)) :
    (unpairs R ++ c.drop (2 * R.length)).Perm c ∧
      (pairs (unpairs R ++ c.drop (2 * R.length))).Perm (pairs c) := by
  have hlen : R.length = (pairs c).length := hR.length_eq
  constructor
  · have h1 := unpairs_pairs c
    rw [hlen]
    exact ((unpairs_perm hR).append_right _).trans (by rw [h1])
  · rw [pairs_unpairs_append]
    · exact hR
    · rw [List.length_drop, hlen, length_pairs]
      omega

theorem stringOrdering_reordered (S : Sorter) (hS : SortContract S) (key : Str)
    (value : Option Ptr) (H : Heap) : Reordered H (StringOrderingFn S key value H) := by
  cases value with
  | none => exact Reordered.refl H
  | some p =>
    by_cases hne : (H.deref p).Content = []
    · have h0 : (H.deref p).Content.length = 0 ∨
          ((H.deref p).Kind ≠ .MappingNode ∧ (H.deref p).Kind ≠ .SequenceNode) :=
        Or.inl (by simp [hne])
      simp only [StringOrderingFn]
      rw [if_pos h0]
      exact Reordered.refl H
    · by_cases hs : (H.deref p).Kind = .SequenceNode
      · obtain ⟨c, h1, h2, -⟩ := stringOrdering_sequence S hS H p key hs hne
        rw [h1]
        exact setContent_reordered H p c h2 (fun hm => by rw [hs] at hm; cases hm)
      · by_cases hm : (H.deref p).Kind = .MappingNode
        · obtain ⟨R, h1, h2, -⟩ := stringOrdering_mapping S hS H p key hm hne
          rw [h1]
          have := unpairs_drop_reordered (H.deref p).Content R h2
          exact setContent_reordered H p _ this.1 (fun _ => this.2)
        · have h0 : (H.deref p).Content.length = 0 ∨
              ((H.deref p).Kind ≠ .MappingNode ∧ (H.deref p).Kind ≠ .SequenceNode) :=
            Or.inr ⟨hm, hs⟩
          simp only [StringOrderingFn]
          rw [if_pos h0]
          exact Reordered.refl H

theorem simpleOrdering_reordered (S : Sorter) (hS : SortContract S) (ks : List Str) (key : Str)
    (value : Option Ptr) (H : Heap) : Reordered H (NewSimpleOrdering S ks key value H) := by
  cases value with
  | none => exact Reordered.refl H
  | some p =>
    by_cases h0 : ks.length = 0 ∨ (H.deref p).Content.length = 0 ∨
        (H.deref p).Kind ≠ .MappingNode
    · simp only [NewSimpleOrdering]
      rw [if_pos h0]
      exact Reordered.refl H
    · have hR := (hS Pair (simpleCmp H ks (pairs (H.deref p).Content))
        (pairs (H.deref p).Content)).1
      simp only [NewSimpleOrdering]
      rw [if_neg h0, writePairs_zero]
      · have := unpairs_drop_reordered (H.deref p).Content _ hR
        exact setContent_reordered H p _ this.1 (fun _ => this.2)
      · rw [hR.length_eq, length_pairs]
        omega

/-- The functions a rule of the library is built from. -/
theorem run_reordered (S : Sorter) (hS : SortContract S) (key : Str) (p : Ptr) :
    ∀ (fns : List OrderFn) (H : Heap),
      (∀ f ∈ fns, f = StringOrderingFn S ∨ ∃ ks, f = NewSimpleOrdering S ks) →
      Reordered H (fns.foldl (fun H fn => fn key (some p) H) H) := by
  intro fns
  induction fns with
  | nil => intro H _; exact Reordered.refl H
  | cons f fns ih =>
    intro H hf
    have h1 : Reordered H (f key (some p) H) := by
      rcases hf f (List.mem_cons_self _ _) with rfl | ⟨ks, rfl⟩
      · exact stringOrdering_reordered S hS key (some p) H
      · exact simpleOrdering_reordered S hS ks key (some p) H
    exact h1.trans (ih _ (fun g hg => hf g (List.mem_cons_of_mem _ hg)))

theorem lintLoop_reordered [Folding] (S : Sorter) (hS : SortContract S) (rule : Rule)
    (hf : ∀ f ∈ rule.Functions, f = StringOrderingFn S ∨ ∃ ks, f = NewSimpleOrdering S ks) :
    ∀ (choices : List Nat) (queue : PathMap) (st st2 : State) (left : List Nat),
      lintLoop rule choices queue st = .done st2 left → Reordered st.heap st2.heap := by
  intro choices
  induction choices with
  | nil =>
    intro queue st st2 left h
    simp only [lintLoop] at h
    split at h
    · cases h
    · cases h
      exact Reordered.refl _
  | cons c choices ih =>
    intro queue st st2 left h
    simp only [lintLoop] at h
    split at h
    · cases h
      exact Reordered.refl _
    · split at h
      · cases h
      · exact ih _ _ _ _ h
      · split at h
        · cases h
        · have h1 := ih _ _ _ _ h
          exact (run_reordered S hS _ _ rule.Functions st.heap hf).trans h1
        · exact ih _ _ _ _ h

theorem lintRules_reordered [Folding] (S : Sorter) (hS : SortContract S) (path : Str) (cursor : Ptr) :
    ∀ (rules : List Rule),
      (∀ r ∈ rules, ∀ f ∈ r.Functions, f = StringOrderingFn S ∨ ∃ ks, f = NewSimpleOrdering S ks) →
      ∀ (choices : List Nat) (st st2 : State) (left : List Nat),
        lintRules path cursor rules choices st = .done st2 left → Reordered st.heap st2.heap := by
  intro rules
  induction rules with
  | nil =>
    intro _ choices st st2 left h
    simp only [lintRules] at h
    cases h
    exact Reordered.refl _
  | cons r rules ih =>
    intro hf choices st st2 left h
    simp only [lintRules] at h
    cases h1 : lintLoop r choices [(path, cursor)] st with
    | done st1 ch1 =>
      rw [h1] at h
      exact (lintLoop_reordered S hS r (hf r (List.mem_cons_self _ _)) _ _ _ _ _ h1).trans
        (ih (fun r2 hr2 => hf r2 (List.mem_cons_of_mem _ hr2)) _ _ _ _ h)
    | panic p st1 => rw [h1] at h; cases h
    | pending => rw [h1] at h; cases h

/-- C14: when Lint completes on a rule list whose functions are StringOrderingFn
or NewSimpleOrdering(...), the resulting heap differs from the input only by
position: no node is added or removed, every node keeps its kind and its text,
the Content of every node (so the element list of every Sequence) is a
permutation of what it was, and the (key, value) pairs of every Mapping are, as
pairs, a permutation of what they were. -/
theorem Lint_reorders [Folding] (S : Sorter) (hS : SortContract S) (choices : List Nat) (st st2 : State)
    (node : Option Ptr) (rules : List Rule) (left : List Nat)
    (hf : ∀ r ∈ rules, ∀ f ∈ r.Functions,
      f = StringOrderingFn S ∨ ∃ ks, f = NewSimpleOrdering S ks)
    (h : Lint choices st node rules = .done st2 left) : Reordered st.heap st2.heap := by
  cases node with
  | none =>
    simp only [Lint] at h
    cases h
    exact Reordered.refl _
  | some n =>
    simp only [Lint] at h
    split at h
    · cases h
      exact Reordered.refl _
    · split at h
      · split at h
        · cases h
          exact Reordered.refl _
        · exact lintRules_reordered S hS _ _ rules hf _ _ _ _ h
      · exact lintRules_reordered S hS _ _ rules hf _ _ _ _ h

/-- C14 at the document and the rule of TestLint_DocumentNode. -/
theorem Lint_reorders_witness :
    Reordered documentFooTestAbc (documentFooTestAbc.setContent 1 [4, 5, 6, 7, 2, 3]) :=
  Lint_reorders insertionSortedFunc insertionSortedFunc_contract [0, 0, 0, 0]
    ⟨documentFooTestAbc, []⟩ ⟨documentFooTestAbc.setContent 1 [4, 5, 6, 7, 2, 3], [(root, 1)]⟩
    (some 0)
    [NewRule root [StringOrderingFn insertionSortedFunc,
      NewSimpleOrdering insertionSortedFunc ["test".toList]]] []
    (by
      intro r hr f hf
      rw [List.mem_singleton] at hr
      subst hr
      simp only [NewRule, List.mem_cons, List.mem_singleton, List.not_mem_nil, or_false] at hf
      rcases hf with rfl | rfl
      · exact Or.inl rfl
      · exact Or.inr ⟨_, rfl⟩)
    rfl

/-! ## Lint on a root that is not a Document -/

/-- The path of a child of a root with the empty path, under a key free of
structural characters, has one segment. -/
theorem parts_key (k : Str) (h : ∀ c ∈ k, isStructural c = false) :
    parts ([] ++ delimiter ++ k) = .ok [delimiter ++ k] := by
  have h1 : parts ([] ++ delimiter ++ k) =
      partsLoop ([] ++ delimiter ++ k) k [delimiter, indexOpen] [] delimiter := rfl
  rw [h1, partsLoop_plain _ k _ _ _ h]
  simp [delimiter]

theorem contains_key_absolute [Folding] (r : Rule) (rs : List Str) (habs : HasPrefix r.Path root = true)
    (hr : parts r.Path = .ok rs) (k : Str) (h : ∀ c ∈ k, isStructural c = false) :
    r.contains ([] ++ delimiter ++ k) = .ok false := by
  obtain ⟨t, tl, rfl⟩ := absolute_first_segment r.Path rs habs hr
  simp only [Rule.contains, habs, Bool.not_true, Bool.false_eq_true, if_false, parts_key k h, hr]
  have hidx : index (('$' :: t) :: tl) ((0 : Nat) : Int) = .ok ('$' :: t) :=
    index_ok (('$' :: t) :: tl) 0 (by simp)
  have hg : ¬ (((0 : Nat) : Int) > (((('$' :: t) :: tl).length : Nat) : Int) - 1) := by
    simp only [List.length_cons]; omega
  have e1 : EqualFold (delimiter ++ k) ('$' :: t) = false := by
    simp [delimiter, EqualFold, foldEq_plain_ne '.' '$' (by decide) (by decide)]
  have e2 : EqualFold ('$' :: t) all = false := by
    simp [all, EqualFold, foldEq_plain_ne '$' '*' (by decide) (by decide)]
  have e3 : EqualFold ('$' :: t) (indexOpen ++ all ++ indexClose) = false := by
    simp [all, indexOpen, indexClose, EqualFold, foldEq_plain_ne '$' '[' (by decide) (by decide)]
  simp only [containsLoop, hg, if_false, hidx, e1, e2, e3]
  rfl

/-- One rule with an absolute path on a bare mapping root: nothing is called. -/
theorem lintLoop_bare_mapping [Folding] (r : Rule) (habs : HasPrefix r.Path root = true)
    (hr : ∃ rs, parts r.Path = .ok rs) (st : State) (n : Ptr)
    (hk : (st.heap.deref n).Kind = .MappingNode)
    (hfree : ∀ e ∈ pairs (st.heap.deref n).Content, ∀ c ∈ st.heap.keyText e,
      isStructural c = false)
    (choices : List Nat) (hch : (st.heap.deref n).Content.length / 2 + 1 ≤ choices.length) :
    ∃ left, lintLoop r choices [([], n)] st = .done st left ∧
      choices.length ≤ left.length + ((st.heap.deref n).Content.length / 2 + 1) := by
  obtain ⟨rs, hrs⟩ := hr
  obtain ⟨c0, cs, rfl⟩ : ∃ c0 cs, choices = c0 :: cs := by
    cases choices with
    | nil => simp at hch
    | cons c0 cs => exact ⟨c0, cs, rfl⟩
  have hnext := nextMapping_spec st.heap []
    (fun kv => ∃ k : Str, (∀ c ∈ k, isStructural c = false) ∧ kv.1 = [] ++ delimiter ++ k)
    (st.heap.deref n).Content.length (st.heap.deref n).Content 0 [] [] le_rfl rfl (by simp)
    (fun e he => ⟨st.heap.keyText e, hfree e he, rfl⟩)
  have hqueue := foldl_mapSet_spec
    (fun kv => ∃ k : Str, (∀ c ∈ k, isStructural c = false) ∧ kv.1 = [] ++ delimiter ++ k)
    (nextMapping st.heap [] (st.heap.deref n).Content 0 [] []) [] (by simp) hnext.1
  have hlen : ((nextMapping st.heap [] (st.heap.deref n).Content 0 [] []).foldl
      (fun q kv => mapSet q kv.1 kv.2) []).length ≤ (st.heap.deref n).Content.length / 2 := by
    have h1 := hqueue.2
    have h2 := hnext.2
    have h3 := length_pairs (st.heap.deref n).Content
    simp only [List.length_nil] at h1 h2
    omega
  have hpruned := lintLoop_pruned r st cs
    ((nextMapping st.heap [] (st.heap.deref n).Content 0 [] []).foldl
      (fun q kv => mapSet q kv.1 kv.2) [])
    (by
      intro kv hkv
      obtain ⟨k, hk2, hkv2⟩ := hqueue.1 kv hkv
      rw [hkv2]
      exact contains_key_absolute r rs habs hrs k hk2)
    (by simp only [List.length_cons] at hch; omega)
  have hmod : c0 % 1 = 0 := Nat.mod_one c0
  have hcont : r.contains [] = .ok true := by
    have : parts ([] : Str) = .ok [] := rfl
    simp only [Rule.contains, habs, Bool.not_true, Bool.false_eq_true, if_false, this, hrs,
      containsLoop]
  have hmatch : r.«match» [] = .ok false := by
    obtain ⟨t, tl, rfl⟩ := absolute_first_segment r.Path rs habs hrs
    have : parts ([] : Str) = .ok [] := rfl
    simp [Rule.«match», habs, this, hrs]
  have hnx : next st.heap [] (some n) = nextMapping st.heap [] (st.heap.deref n).Content 0 [] [] := by
    simp only [next, hk, if_true]
  refine ⟨cs.drop ((nextMapping st.heap [] (st.heap.deref n).Content 0 [] []).foldl
    (fun q kv => mapSet q kv.1 kv.2) []).length, ?_, ?_⟩
  · simp only [lintLoop, List.length_singleton, hmod, List.getD_cons_zero,
      List.eraseIdx_cons_zero, hcont, hmatch, hnx]
    simp only [Nat.lt_irrefl, gt_iff_lt, Nat.zero_lt_one, not_true_eq_false, if_false]
    exact hpruned
  · simp only [List.length_drop, List.length_cons]
    omega

theorem lintRules_bare_mapping [Folding] (n : Ptr) (st : State)
    (hk : (st.heap.deref n).Kind = .MappingNode)
    (hfree : ∀ e ∈ pairs (st.heap.deref n).Content, ∀ c ∈ st.heap.keyText e,
      isStructural c = false) :
    ∀ (rules : List Rule),
      (∀ r ∈ rules, HasPrefix r.Path root = true ∧ ∃ rs, parts r.Path = .ok rs) →
      ∀ (choices : List Nat),
        rules.length * ((st.heap.deref n).Content.length / 2 + 1) ≤ choices.length →
        ∃ left, lintRules [] n rules choices st = .done st left ∧
          choices.length ≤
            left.length + rules.length * ((st.heap.deref n).Content.length / 2 + 1) := by
  intro rules
  induction rules with
  | nil => intro _ choices _; exact ⟨choices, rfl, by simp⟩
  | cons r rules ih =>
    intro hrules choices hch
    have hr := hrules r (List.mem_cons_self _ _)
    simp only [List.length_cons, Nat.add_mul, Nat.one_mul] at hch
    obtain ⟨left1, h1, hl1⟩ := lintLoop_bare_mapping r hr.1 hr.2 st n hk hfree choices (by omega)
    obtain ⟨left, h2, hl2⟩ := ih (fun r2 hr2 => hrules r2 (List.mem_cons_of_mem _ hr2)) left1
      (by omega)
    refine ⟨left, ?_, ?_⟩
    · simp only [lintRules, h1]
      exact h2
    · simp only [List.length_cons, Nat.add_mul, Nat.one_mul]
      omega

theorem covered_succ (H : Heap) : ∀ (n : Nat) (k : Str) (p : Ptr),
    Covered H n k p → Covered H (n + 1) k p := by
  intro n
  induction n with
  | zero =>
    intro k p h
    simp only [Covered] at h ⊢
    simp [h]
  | succ n ih =>
    intro k p h
    intro kv hkv
    exact ih _ _ (h kv hkv)

theorem covered_child (H : Heap) : ∀ (n : Nat) (k : Str) (p : Ptr),
    Covered H n k p → ∀ kv ∈ next H k (some p), Covered H n kv.1 kv.2 := by
  intro n
  cases n with
  | zero =>
    intro k p h kv hkv
    simp only [Covered] at h
    simp [h] at hkv
  | succ n =>
    intro k p h kv hkv
    exact covered_succ H n _ _ (h kv hkv)

theorem flatMap_congr_mem {α β : Type} (l : List α) (f g : α → List β)
    (h : ∀ a ∈ l, f a = g a) : l.flatMap f = l.flatMap g := by
  induction l with
  | nil => rfl
  | cons a l ih =>
    simp only [List.flatMap_cons]
    rw [h a (List.mem_cons_self _ _), ih (fun b hb => h b (List.mem_cons_of_mem _ hb))]

theorem flatMap_perm_mem {α β : Type} (l : List α) (f g : α → List β)
    (h : ∀ a ∈ l, (f a).Perm (g a)) : (l.flatMap f).Perm (l.flatMap g) := by
  induction l with
  | nil => exact List.Perm.refl _
  | cons a l ih =>
    simp only [List.flatMap_cons]
    exact (h a (List.mem_cons_self _ _)).append (ih (fun b hb => h b (List.mem_cons_of_mem _ hb)))

theorem flatMap_sublist_mem {α β : Type} (l : List α) (f g : α → List β)
    (h : ∀ a ∈ l, (f a).Sublist (g a)) : (l.flatMap f).Sublist (l.flatMap g) := by
  induction l with
  | nil => exact List.Sublist.refl _
  | cons a l ih =>
    simp only [List.flatMap_cons]
    exact (h a (List.mem_cons_self _ _)).append (ih (fun b hb => h b (List.mem_cons_of_mem _ hb)))

theorem heads_sublist {α : Type} (l : List α) (f : α → List α)
    (h : ∀ a ∈ l, ∃ t, f a = a :: t) : l.Sublist (l.flatMap f) := by
  induction l with
  | nil => exact List.Sublist.refl _
  | cons a l ih =>
    obtain ⟨t, ht⟩ := h a (List.mem_cons_self _ _)
    simp only [List.flatMap_cons, ht, List.cons_append]
    refine List.Sublist.cons₂ _ ?_
    exact (ih (fun b hb => h b (List.mem_cons_of_mem _ hb))).trans (List.sublist_append_right _ _)

theorem entries_succ (H : Heap) : ∀ (n : Nat) (k : Str) (p : Ptr),
    Covered H n k p → entries H (n + 1) k p = entries H n k p := by
  intro n
  induction n with
  | zero =>
    intro k p h
    simp only [Covered] at h
    simp [entries, h]
  | succ n ih =>
    intro k p h
    rw [entries, entries]
    congr 1
    exact flatMap_congr_mem _ _ _ (fun kv hkv => ih _ _ (h kv hkv))

theorem entries_eq (H : Heap) (n : Nat) (k : Str) (p : Ptr) (h : Covered H n k p) :
    entries H n k p = (k, p) :: (next H k (some p)).flatMap (fun kv => entries H n kv.1 kv.2) := by
  rw [← entries_succ H n k p h, entries]

theorem visits_succ [Folding] (r : Rule) (H : Heap) : ∀ (n : Nat) (k : Str) (p : Ptr),
    Covered H n k p → visits r H (n + 1) k p = visits r H n k p := by
  intro n
  induction n with
  | zero =>
    intro k p h
    simp only [Covered] at h
    simp only [visits, h, List.flatMap_nil]
    split <;> rfl
  | succ n ih =>
    intro k p h
    rw [visits, visits]
    congr 1
    rw [flatMap_congr_mem _ _ _ (fun kv hkv => ih _ _ (h kv hkv))]

theorem visits_eq [Folding] (r : Rule) (H : Heap) (n : Nat) (k : Str) (p : Ptr) (h : Covered H n k p) :
    visits r H n k p =
      (k, p) :: (match r.contains k with
        | .ok true => (next H k (some p)).flatMap (fun kv => visits r H n kv.1 kv.2)
        | _ => []) := by
  rw [← visits_succ r H n k p h, visits]

theorem visits_head [Folding] (r : Rule) (H : Heap) (n : Nat) (k : Str) (p : Ptr) :
    ∃ t, visits r H n k p = (k, p) :: t := by
  cases n with
  | zero => exact ⟨[], rfl⟩
  | succ n => exact ⟨_, rfl⟩

theorem entries_head (H : Heap) (n : Nat) (k : Str) (p : Ptr) :
    ∃ t, entries H n k p = (k, p) :: t := by
  cases n with
  | zero => exact ⟨[], rfl⟩
  | succ n => exact ⟨_, rfl⟩

theorem visits_sublist [Folding] (r : Rule) (H : Heap) : ∀ (n : Nat) (k : Str) (p : Ptr),
    (visits r H n k p).Sublist (entries H n k p) := by
  intro n
  induction n with
  | zero => intro k p; exact List.Sublist.refl _
  | succ n ih =>
    intro k p
    rw [visits, entries]
    refine List.Sublist.cons₂ _ ?_
    split
    · exact flatMap_sublist_mem _ _ _ (fun kv _ => ih _ _)
    · exact List.nil_sublist _

theorem mapSet_of_not_mem : ∀ (m : PathMap) (k : Str) (v : Ptr),
    k ∉ m.map Prod.fst → mapSet m k v = m ++ [(k, v)]
  | [], k, v, _ => rfl
  | (k0, v0) :: m, k, v, h => by
    simp only [List.map_cons, List.mem_cons, not_or] at h
    have hne : ¬ k0 = k := fun e => h.1 e.symm
    simp only [mapSet, if_neg hne, List.cons_append, mapSet_of_not_mem m k v h.2]

theorem foldl_mapSet_append : ∀ (nx q : PathMap), ((q ++ nx).map Prod.fst).Nodup →
    nx.foldl (fun q kv => mapSet q kv.1 kv.2) q = q ++ nx
  | [], q, _ => by simp
  | kv :: nx, q, h => by
    have h1 : ((q ++ [kv] ++ nx).map Prod.fst).Nodup := by simpa using h
    have hk : kv.1 ∉ q.map Prod.fst := by
      intro hmem
      rw [List.map_append, List.nodup_append] at h
      exact h.2.2 hmem (by simp)
    rw [List.foldl_cons, mapSet_of_not_mem q kv.1 kv.2 hk, foldl_mapSet_append nx _ h1]
    simp

theorem nextMapping_congr (H H2 : Heap) (cursor : Str)
    (hv : ∀ q, (H2.deref q).Value = (H.deref q).Value) :
    ∀ (content : List Ptr) (i : Nat) (key : Str) (res : PathMap),
      nextMapping H2 cursor content i key res = nextMapping H cursor content i key res
  | [], _, _, _ => rfl
  | c :: rest, i, key, res => by
    simp only [nextMapping, hv c, nextMapping_congr H H2 cursor hv rest]

theorem next_congr (H H2 : Heap) (k : Str) (p : Ptr) (hp : H2.deref p = H.deref p)
    (hv : ∀ q, (H2.deref q).Value = (H.deref q).Value) :
    next H2 k (some p) = next H k (some p) := by
  simp only [next, hp, nextMapping_congr H H2 k hv]

theorem nextMapping_foldl (H : Heap) (cursor : Str) :
    ∀ (n : Nat) (content : List Ptr) (i : Nat) (key : Str) (res : PathMap),
      content.length ≤ n → i % 2 = 0 →
      nextMapping H cursor content i key res =
        (pairs content).foldl
          (fun res e => mapSet res (cursor ++ delimiter ++ H.keyText e) e.Value) res := by
  intro n
  induction n using Nat.strong_induction_on with
  | _ n ih =>
    intro content i key res hn hi
    match content, hn with
    | [], _ => rfl
    | [a], _ => simp [nextMapping, pairs, hi]
    | a :: b :: rest, hn =>
      have hi1 : ¬ (i + 1) % 2 = 0 := by omega
      simp only [nextMapping, hi, hi1, if_true, if_false, pairs, List.foldl_cons]
      simp only [List.length_cons] at hn
      exact ih (n - 2) (by omega) rest (i + 1 + 1) _ _ (by omega) (by omega)

theorem next_mapping (H : Heap) (k : Str) (p : Ptr)
    (hk : (H.deref p).Kind = .MappingNode)
    (hd : ((pairs (H.deref p).Content).map H.keyText).Nodup) :
    next H k (some p) =
      (pairs (H.deref p).Content).map (fun e => (k ++ delimiter ++ H.keyText e, e.Value)) := by
  simp only [next, hk, if_true]
  rw [nextMapping_foldl H k _ _ 0 [] [] (le_refl _) rfl]
  have h := foldl_mapSet_append
    ((pairs (H.deref p).Content).map (fun e => (k ++ delimiter ++ H.keyText e, e.Value))) []
    (by
      simp only [List.nil_append, List.map_map]
      have : (Prod.fst ∘ fun e : Pair => (k ++ delimiter ++ H.keyText e, e.Value)) =
          (fun s => k ++ delimiter ++ s) ∘ H.keyText := rfl
      rw [this, ← List.map_map]
      exact hd.map (fun a b hab => List.append_cancel_left hab))
  rw [List.foldl_map] at h
  simpa using h

/-! ## One pass of a rule -/

theorem perm_cons_eraseIdx {α : Type} (d : α) : ∀ (l : List α) (i : Nat), i < l.length →
    l.Perm (l.getD i d :: l.eraseIdx i)
  | [], _, h => by simp at h
  | a :: l, 0, _ => by simp
  | a :: l, i + 1, h => by
    simp only [List.length_cons, Nat.add_lt_add_iff_right] at h
    simp only [List.getD_cons_succ, List.eraseIdx_cons_succ]
    exact ((perm_cons_eraseIdx d l i h).cons a).trans (List.Perm.swap _ _ _)

theorem deref_setContent_congr (H H2 : Heap) (p : Ptr) (c : List Ptr)
    (hl : H2.length = H.length) (hp : H2.deref p = H.deref p) :
    (H2.setContent p c).deref p = (H.setContent p c).deref p := by
  by_cases h : p < H.length
  · rw [deref_setContent_self H p c h, deref_setContent_self H2 p c (hl ▸ h), hp]
  · rw [setContent_of_not_lt H p c h, setContent_of_not_lt H2 p c (hl ▸ h), hp]

theorem length_setContent (H : Heap) (p : Ptr) (c : List Ptr) :
    (H.setContent p c).length = H.length := by
  simp [Heap.setContent]

theorem PassResult.of_mem [Folding] (r : Rule) (H : Heap) (D V : PathMap) (H2 : Heap)
    (h : ∀ kv, kv ∈ D ↔ kv ∈ V) (hD : PassResult r H D H2) : PassResult r H V H2 := by
  obtain ⟨h1, h2, h3, h4, h5⟩ := hD
  refine ⟨h1, h2, fun q hq => h3 q (fun kv hkv => hq kv ((h kv).1 hkv)),
    fun kv hkv => h4 kv ((h kv).2 hkv), fun kv hkv => h5 kv ((h kv).2 hkv)⟩

theorem flatMap_visits_length_pos [Folding] (r : Rule) (H : Heap) (N : Nat) (Q : PathMap)
    (h : Q ≠ []) : 0 < (Q.flatMap (fun q => visits r H N q.1 q.2)).length := by
  cases Q with
  | nil => exact absurd rfl h
  | cons q Q =>
    obtain ⟨t, ht⟩ := visits_head r H N q.1 q.2
    simp [List.flatMap_cons, ht]

theorem lintLoop_cons_nil [Folding] (r : Rule) (c : Nat) (choices : List Nat) (st : State) :
    lintLoop r (c :: choices) [] st = .done st (c :: choices) := by
  simp [lintLoop]

theorem lintLoop_cons_error [Folding] (r : Rule) (c : Nat) (choices : List Nat) (Q : PathMap) (st : State)
    (e : Panic) (hQ : Q ≠ [])
    (h : r.contains (Q.getD (c % Q.length) ([], 0)).1 = .error e) :
    lintLoop r (c :: choices) Q st = .panic e st := by
  have hl : Q.length > 0 := List.length_pos.mpr hQ
  simp only [lintLoop, hl, not_true_eq_false, if_false, h]

theorem lintLoop_cons_false [Folding] (r : Rule) (c : Nat) (choices : List Nat) (Q : PathMap) (st : State)
    (hQ : Q ≠ [])
    (h : r.contains (Q.getD (c % Q.length) ([], 0)).1 = .ok false) :
    lintLoop r (c :: choices) Q st = lintLoop r choices (Q.eraseIdx (c % Q.length)) st := by
  have hl : Q.length > 0 := List.length_pos.mpr hQ
  simp only [lintLoop, hl, not_true_eq_false, if_false, h]

theorem lintLoop_cons_true_error [Folding] (r : Rule) (c : Nat) (choices : List Nat) (Q : PathMap)
    (st : State) (e : Panic) (hQ : Q ≠ [])
    (h : r.contains (Q.getD (c % Q.length) ([], 0)).1 = .ok true)
    (hm : r.«match» (Q.getD (c % Q.length) ([], 0)).1 = .error e) :
    lintLoop r (c :: choices) Q st = .panic e st := by
  have hl : Q.length > 0 := List.length_pos.mpr hQ
  simp only [lintLoop, hl, not_true_eq_false, if_false, h, hm]

theorem lintLoop_cons_true_false [Folding] (r : Rule) (c : Nat) (choices : List Nat) (Q : PathMap)
    (st : State) (hQ : Q ≠ [])
    (h : r.contains (Q.getD (c % Q.length) ([], 0)).1 = .ok true)
    (hm : r.«match» (Q.getD (c % Q.length) ([], 0)).1 = .ok false) :
    lintLoop r (c :: choices) Q st =
      lintLoop r choices
        ((next st.heap (Q.getD (c % Q.length) ([], 0)).1
            (some (Q.getD (c % Q.length) ([], 0)).2)).foldl
          (fun q kv => mapSet q kv.1 kv.2) (Q.eraseIdx (c % Q.length))) st := by
  have hl : Q.length > 0 := List.length_pos.mpr hQ
  simp only [lintLoop, hl, not_true_eq_false, if_false, h, hm]

theorem lintLoop_cons_true_true [Folding] (r : Rule) (c : Nat) (choices : List Nat) (Q : PathMap)
    (st : State) (hQ : Q ≠ [])
    (h : r.contains (Q.getD (c % Q.length) ([], 0)).1 = .ok true)
    (hm : r.«match» (Q.getD (c % Q.length) ([], 0)).1 = .ok true) :
    lintLoop r (c :: choices) Q st =
      lintLoop r choices
        ((next st.heap (Q.getD (c % Q.length) ([], 0)).1
            (some (Q.getD (c % Q.length) ([], 0)).2)).foldl
          (fun q kv => mapSet q kv.1 kv.2) (Q.eraseIdx (c % Q.length)))
        ⟨r.Run (Q.getD (c % Q.length) ([], 0)).1 (Q.getD (c % Q.length) ([], 0)).2 st.heap,
          st.calls ++ [((Q.getD (c % Q.length) ([], 0)).1, (Q.getD (c % Q.length) ([], 0)).2)]⟩ := by
  have hl : Q.length > 0 := List.length_pos.mpr hQ
  simp only [lintLoop, hl, not_true_eq_false, if_false, h, hm]

theorem lintLoop_pass [Folding] (r : Rule) (hr : LocalRule r) (H0 : Heap) (N : Nat) (V : PathMap)
    (hVk : (V.map Prod.fst).Nodup) (hVp : (V.map Prod.snd).Nodup) :
    ∀ (choices : List Nat) (Q D : PathMap) (st : State),
      (∀ q ∈ Q, Covered H0 N q.1 q.2) →
      (D ++ Q.flatMap (fun q => visits r H0 N q.1 q.2)).Perm V →
      PassResult r H0 D st.heap →
      (∀ st2 left, lintLoop r choices Q st = .done st2 left →
        PassResult r H0 V st2.heap ∧
          left.length + (Q.flatMap (fun q => visits r H0 N q.1 q.2)).length = choices.length) ∧
      ((∀ kv ∈ V, r.safeAt kv.1) →
        (Q.flatMap (fun q => visits r H0 N q.1 q.2)).length ≤ choices.length →
        ∃ st2 left, lintLoop r choices Q st = .done st2 left) := by
  obtain ⟨g, hg⟩ := hr
  intro choices
  induction choices with
  | nil =>
    intro Q D st hcov hperm hres
    cases Q with
    | nil =>
      refine ⟨fun st2 left h => ?_, fun _ _ => ⟨st, [], by simp [lintLoop]⟩⟩
      simp only [lintLoop, List.length_nil, gt_iff_lt, lt_self_iff_false, if_false] at h
      cases h
      refine ⟨PassResult.of_mem r H0 D V _ (fun kv => ?_) hres, by simp⟩
      simpa using hperm.mem_iff
    | cons q Q =>
      refine ⟨fun st2 left h => ?_, fun _ hlen => ?_⟩
      · simp [lintLoop] at h
      · have := flatMap_visits_length_pos r H0 N (q :: Q) (by simp)
        simp only [List.length_nil] at hlen
        omega
  | cons c choices ih =>
    intro Q D st hcov hperm hres
    by_cases hQ : Q = []
    · subst hQ
      rw [lintLoop_cons_nil]
      refine ⟨fun st2 left h => ?_, fun _ _ => ⟨_, _, rfl⟩⟩
      cases h
      refine ⟨PassResult.of_mem r H0 D V _ (fun kv => ?_) hres, by simp⟩
      simpa using hperm.mem_iff
    · have hi : c % Q.length < Q.length := Nat.mod_lt _ (List.length_pos.mpr hQ)
      have hqQ := perm_cons_eraseIdx (([], 0) : Str × Ptr) Q (c % Q.length) hi
      generalize hq : Q.getD (c % Q.length) ([], 0) = q at hqQ
      generalize hQ2 : Q.eraseIdx (c % Q.length) = Q2 at hqQ
      have hqmem : q ∈ Q := hqQ.mem_iff.mpr (List.mem_cons_self _ _)
      have hQ2mem : ∀ x ∈ Q2, x ∈ Q := fun x hx => hqQ.mem_iff.mpr (List.mem_cons_of_mem _ hx)
      have hcq := hcov q hqmem
      have hE := visits_eq r H0 N q.1 q.2 hcq
      have hperm1 : (Q.flatMap (fun q => visits r H0 N q.1 q.2)).Perm
          (visits r H0 N q.1 q.2 ++ Q2.flatMap (fun q => visits r H0 N q.1 q.2)) := by
        have := hqQ.flatMap_right (fun q => visits r H0 N q.1 q.2)
        simpa [List.flatMap_cons] using this
      have hpermV : (D ++ (visits r H0 N q.1 q.2 ++
          Q2.flatMap (fun q => visits r H0 N q.1 q.2))).Perm V :=
        ((List.Perm.refl D).append hperm1.symm).trans hperm
      have hndp : ((D ++ (visits r H0 N q.1 q.2 ++
          Q2.flatMap (fun q => visits r H0 N q.1 q.2))).map Prod.snd).Nodup :=
        ((hpermV.map Prod.snd).nodup_iff).mpr hVp
      have hndk : ((D ++ (visits r H0 N q.1 q.2 ++
          Q2.flatMap (fun q => visits r H0 N q.1 q.2))).map Prod.fst).Nodup :=
        ((hpermV.map Prod.fst).nodup_iff).mpr hVk
      have hqE : q ∈ visits r H0 N q.1 q.2 := by
        obtain ⟨t, ht⟩ := visits_head r H0 N q.1 q.2
        rw [ht]; exact List.mem_cons_self _ _
      have hqV : q ∈ V := hpermV.mem_iff.mp (by simp [hqE])
      have hpD : ∀ kv ∈ D, kv.2 ≠ q.2 := by
        intro kv hkv heq
        rw [List.map_append, List.nodup_append] at hndp
        have h1 : kv.2 ∈ D.map Prod.snd := List.mem_map_of_mem Prod.snd hkv
        have h2 : q.2 ∈ (visits r H0 N q.1 q.2 ++
            Q2.flatMap (fun q => visits r H0 N q.1 q.2)).map Prod.snd :=
          List.mem_map_of_mem Prod.snd (List.mem_append_left _ hqE)
        rw [heq] at h1
        exact hndp.2.2 h1 h2
      obtain ⟨hr1, hr2, hr3, hr4, hr5⟩ := hres
      have hderef : st.heap.deref q.2 = H0.deref q.2 :=
        hr3 q.2 (fun kv hkv heq => absurd heq (hpD kv hkv))
      have hlen1 := hperm1.length_eq
      cases hcon : r.contains q.1 with
      | error e =>
        rw [lintLoop_cons_error r c choices Q st e hQ (by rw [hq]; exact hcon)]
        refine ⟨fun st2 left h => (by cases h), fun hsafe _ => ?_⟩
        obtain ⟨⟨b, hb⟩, _⟩ := hsafe q hqV
        rw [hcon] at hb; cases hb
      | ok b =>
        cases b with
        | false =>
          rw [lintLoop_cons_false r c choices Q st hQ (by rw [hq]; exact hcon), hQ2]
          rw [hcon] at hE
          simp only at hE
          rw [hE] at hpermV hlen1
          have hres2 : PassResult r H0 (D ++ [q]) st.heap := by
            refine ⟨hr1, hr2, fun x hx => hr3 x (fun kv hkv => hx kv (List.mem_append_left _ hkv)),
              fun kv hkv hrun => ?_, fun kv hkv => ?_⟩
            · rcases List.mem_append.mp hkv with h | h
              · exact hr4 kv h hrun
              · rw [List.mem_singleton] at h
                subst h
                rw [Rule.runsAt, hcon] at hrun
                cases hrun.1
            · rcases List.mem_append.mp hkv with h | h
              · exact hr5 kv h
              · rw [List.mem_singleton] at h
                subst h
                exact ⟨⟨false, hcon⟩, fun h => by rw [hcon] at h; cases h⟩
          obtain ⟨ih1, ih2⟩ := ih Q2 (D ++ [q]) st (fun x hx => hcov x (hQ2mem x hx))
            (by simpa using hpermV) hres2
          refine ⟨fun st2 left h => ?_, fun hsafe hl => ?_⟩
          · obtain ⟨h1, h2⟩ := ih1 st2 left h
            refine ⟨h1, ?_⟩
            simp only [List.length_cons, List.length_append, List.length_nil] at hlen1 ⊢
            omega
          · refine ih2 hsafe ?_
            simp only [List.length_cons, List.length_append, List.length_nil] at hlen1 hl
            omega
        | true =>
          rw [hcon] at hE
          simp only at hE
          have hnx : next st.heap q.1 (some q.2) = next H0 q.1 (some q.2) :=
            next_congr H0 st.heap q.1 q.2 hderef hr2
          rw [hE] at hpermV hlen1 hndk
          have hpermQ : ((Q2 ++ next H0 q.1 (some q.2)).flatMap
              (fun q => visits r H0 N q.1 q.2)).Perm
              ((next H0 q.1 (some q.2)).flatMap (fun q => visits r H0 N q.1 q.2) ++
                Q2.flatMap (fun q => visits r H0 N q.1 q.2)) := by
            rw [List.flatMap_append]
            exact List.perm_append_comm
          have hkeys : ((Q2 ++ next H0 q.1 (some q.2)).map Prod.fst).Nodup := by
            have hsub := heads_sublist (Q2 ++ next H0 q.1 (some q.2))
              (fun q => visits r H0 N q.1 q.2) (fun a _ => visits_head r H0 N a.1 a.2)
            refine (hsub.map Prod.fst).nodup ?_
            refine ((hpermQ.map Prod.fst).nodup_iff).mpr ?_
            rw [List.map_append, List.nodup_append] at hndk
            have := hndk.2.1
            simp only [List.cons_append, List.map_cons, List.nodup_cons] at this
            exact this.2
          have hfold := foldl_mapSet_append (next H0 q.1 (some q.2)) Q2 hkeys
          have hcov2 : ∀ x ∈ Q2 ++ next H0 q.1 (some q.2), Covered H0 N x.1 x.2 := by
            intro x hx
            rcases List.mem_append.mp hx with h | h
            · exact hcov x (hQ2mem x h)
            · exact covered_child H0 N q.1 q.2 hcq x h
          have hperm2 : (D ++ [q] ++ (Q2 ++ next H0 q.1 (some q.2)).flatMap
              (fun q => visits r H0 N q.1 q.2)).Perm V := by
            refine List.Perm.trans ?_ hpermV
            rw [List.append_assoc]
            refine (List.Perm.refl D).append ?_
            simp only [List.singleton_append, List.cons_append]
            exact hpermQ.cons q
          have hlen2 := hpermQ.length_eq
          cases hmat : r.«match» q.1 with
          | error e =>
            rw [lintLoop_cons_true_error r c choices Q st e hQ (by rw [hq]; exact hcon)
              (by rw [hq]; exact hmat)]
            refine ⟨fun st2 left h => (by cases h), fun hsafe _ => ?_⟩
            obtain ⟨_, hb⟩ := hsafe q hqV
            obtain ⟨b, hb⟩ := hb hcon
            rw [hmat] at hb; cases hb
          | ok b =>
            have hsafeq : r.safeAt q.1 := ⟨⟨true, hcon⟩, fun _ => ⟨b, hmat⟩⟩
            cases b with
            | false =>
              rw [lintLoop_cons_true_false r c choices Q st hQ (by rw [hq]; exact hcon)
                (by rw [hq]; exact hmat), hq, hQ2, hnx, hfold]
              have hres2 : PassResult r H0 (D ++ [q]) st.heap := by
                refine ⟨hr1, hr2,
                  fun x hx => hr3 x (fun kv hkv => hx kv (List.mem_append_left _ hkv)),
                  fun kv hkv hrun => ?_, fun kv hkv => ?_⟩
                · rcases List.mem_append.mp hkv with h | h
                  · exact hr4 kv h hrun
                  · rw [List.mem_singleton] at h
                    subst h
                    rw [Rule.runsAt, hmat] at hrun
                    cases hrun.2
                · rcases List.mem_append.mp hkv with h | h
                  · exact hr5 kv h
                  · rw [List.mem_singleton] at h
                    subst h
                    exact hsafeq
              obtain ⟨ih1, ih2⟩ := ih (Q2 ++ next H0 q.1 (some q.2)) (D ++ [q]) st hcov2
                hperm2 hres2
              refine ⟨fun st2 left h => ?_, fun hsafe hl => ?_⟩
              · obtain ⟨h1, h2⟩ := ih1 st2 left h
                refine ⟨h1, ?_⟩
                simp only [List.length_cons, List.length_append, List.length_nil] at hlen1 hlen2 ⊢
                omega
              · refine ih2 hsafe ?_
                simp only [List.length_cons, List.length_append, List.length_nil] at hlen1 hlen2 hl
                omega
            | true =>
              rw [lintLoop_cons_true_true r c choices Q st hQ (by rw [hq]; exact hcon)
                (by rw [hq]; exact hmat), hq, hQ2, hnx, hfold]
              have htexts : (fun x => (st.heap.deref x).Value) = (fun x => (H0.deref x).Value) :=
                funext hr2
              have hrun : r.Run q.1 q.2 st.heap = st.heap.setContent q.2
                  (g q.1 (H0.deref q.2) (fun x => (H0.deref x).Value)) := by
                rw [hg, hderef, htexts]
              have hres2 : PassResult r H0 (D ++ [q]) (r.Run q.1 q.2 st.heap) := by
                rw [hrun]
                refine ⟨by rw [length_setContent, hr1],
                  fun x => by rw [(value_setContent _ _ _ _).1, hr2], fun x hx => ?_,
                  fun kv hkv hrun => ?_, fun kv hkv => ?_⟩
                · have hne : q.2 ≠ x := by
                    intro heq
                    exact hx q (by simp) heq ⟨hcon, hmat⟩
                  rw [deref_setContent_ne _ _ _ _ hne]
                  exact hr3 x (fun kv hkv => hx kv (List.mem_append_left _ hkv))
                · rcases List.mem_append.mp hkv with h | h
                  · rw [deref_setContent_ne _ _ _ _ (fun e => hpD kv h e.symm)]
                    exact hr4 kv h hrun
                  · rw [List.mem_singleton] at h
                    subst h
                    rw [hg kv.1 kv.2 H0]
                    exact deref_setContent_congr H0 st.heap kv.2 _ hr1 hderef
                · rcases List.mem_append.mp hkv with h | h
                  · exact hr5 kv h
                  · rw [List.mem_singleton] at h
                    subst h
                    exact hsafeq
              obtain ⟨ih1, ih2⟩ := ih (Q2 ++ next H0 q.1 (some q.2)) (D ++ [q])
                ⟨r.Run q.1 q.2 st.heap, st.calls ++ [(q.1, q.2)]⟩ hcov2 hperm2 hres2
              refine ⟨fun st2 left h => ?_, fun hsafe hl => ?_⟩
              · obtain ⟨h1, h2⟩ := ih1 st2 left h
                refine ⟨h1, ?_⟩
                simp only [List.length_cons, List.length_append, List.length_nil] at hlen1 hlen2 ⊢
                omega
              · refine ih2 hsafe ?_
                simp only [List.length_cons, List.length_append, List.length_nil] at hlen1 hlen2 hl
                omega

/-! ## The library functions act on one node -/

theorem stringOrdering_local (S : Sorter) : LocalFn (StringOrderingFn S) := by
  refine ⟨fun _ node text =>
    if node.Content.length = 0 ∨ (node.Kind ≠ .MappingNode ∧ node.Kind ≠ .SequenceNode) then
      node.Content
    else if node.Kind = .SequenceNode then
      copy node.Content (S Ptr (fun e e2 => Compare (text e) (text e2)) node.Content)
    else
      writePairs (S Pair (fun e e2 => Compare (text e.Key) (text e2.Key)) (pairs node.Content))
        0 node.Content, fun key p H => ?_⟩
  simp only [StringOrderingFn]
  split
  · exact (setContent_self H p).symm
  · split <;> rfl

theorem simpleOrdering_local (S : Sorter) (ks : List Str) : LocalFn (NewSimpleOrdering S ks) := by
  refine ⟨fun _ node text =>
    if ks.length = 0 ∨ node.Content.length = 0 ∨ node.Kind ≠ .MappingNode then node.Content
    else
      writePairs (S Pair (fun e e2 =>
        if Index ks (text e.Key) ≥ 0 ∧ Index ks (text e2.Key) ≥ 0 then
          CompareInt (Index ks (text e.Key)) (Index ks (text e2.Key))
        else if Index ks (text e.Key) ≥ 0 then -1
        else if Index ks (text e2.Key) ≥ 0 then 1
        else CompareInt (Index (pairs node.Content) e) (Index (pairs node.Content) e2))
        (pairs node.Content)) 0 node.Content, fun key p H => ?_⟩
  simp only [NewSimpleOrdering]
  split
  · exact (setContent_self H p).symm
  · rfl

theorem localFns_fold : ∀ fns : List OrderFn, (∀ f ∈ fns, LocalFn f) →
    ∃ g : Str → Node → (Ptr → Str) → List Ptr,
      ∀ (key : Str) (p : Ptr) (H : Heap),
        fns.foldl (fun H fn => fn key (some p) H) H =
          H.setContent p (g key (H.deref p) (fun q => (H.deref q).Value))
  | [], _ => ⟨fun _ node _ => node.Content, fun _ p H => (setContent_self H p).symm⟩
  | f :: fns, h => by
    obtain ⟨g1, hg1⟩ := h f (List.mem_cons_self _ _)
    obtain ⟨g2, hg2⟩ := localFns_fold fns (fun f2 hf2 => h f2 (List.mem_cons_of_mem _ hf2))
    refine ⟨fun key node text => g2 key { node with Content := g1 key node text } text,
      fun key p H => ?_⟩
    rw [List.foldl_cons, hg1, hg2, setContent_setContent]
    have htext : (fun q => ((H.setContent p
        (g1 key (H.deref p) (fun q => (H.deref q).Value))).deref q).Value) =
        (fun q => (H.deref q).Value) := funext (fun q => (value_setContent H p q _).1)
    rw [htext]
    by_cases hp : p < H.length
    · rw [deref_setContent_self H p _ hp]
    · rw [setContent_of_not_lt H p _ hp, setContent_of_not_lt H p _ hp]

theorem localRule_of_fns (r : Rule) (h : ∀ f ∈ r.Functions, LocalFn f) : LocalRule r := by
  obtain ⟨g, hg⟩ := localFns_fold r.Functions h
  exact ⟨g, fun key p H => hg key p H⟩

theorem localRule_library (S : Sorter) (r : Rule)
    (h : ∀ f ∈ r.Functions, f = StringOrderingFn S ∨ ∃ ks, f = NewSimpleOrdering S ks) :
    LocalRule r := by
  refine localRule_of_fns r (fun f hf => ?_)
  rcases h f hf with h1 | ⟨ks, h1⟩
  · rw [h1]; exact stringOrdering_local S
  · rw [h1]; exact simpleOrdering_local S ks

/-! ## Heaps that differ by the order of mapping pairs -/

theorem Shuffled.same (H : Heap) : Shuffled H H :=
  ⟨rfl, fun _ => ⟨rfl, rfl, fun _ => rfl, fun _ => ⟨List.Perm.refl _, rfl⟩⟩⟩

theorem Shuffled.chain {H1 H2 H3 : Heap} (h12 : Shuffled H1 H2) (h23 : Shuffled H2 H3) :
    Shuffled H1 H3 := by
  refine ⟨h23.1.trans h12.1, fun p => ?_⟩
  obtain ⟨a1, a2, a3, a4⟩ := h12.2 p
  obtain ⟨b1, b2, b3, b4⟩ := h23.2 p
  refine ⟨b1.trans a1, b2.trans a2, fun hk => (b3 (a1 ▸ hk)).trans (a3 hk), fun hk => ?_⟩
  have hk2 := a1.trans hk
  exact ⟨(b4 hk2).1.trans (a4 hk).1, (b4 hk2).2.trans (a4 hk).2⟩

theorem Shuffled.keyText {H G : Heap} (h : Shuffled H G) : G.keyText = H.keyText := by
  funext e
  exact (h.2 e.Key).2.1

theorem Shuffled.deref_eq {H G : Heap} (h : Shuffled H G) (p : Ptr)
    (hk : (H.deref p).Kind ≠ .MappingNode) : G.deref p = H.deref p := by
  obtain ⟨a1, a2, a3, _⟩ := h.2 p
  have a3 := a3 hk
  cases hG : G.deref p
  cases hH : H.deref p
  rw [hG, hH] at a1 a2 a3
  simp only at a1 a2 a3
  rw [a1, a2, a3]

theorem Shuffled.wellKeyed {H G : Heap} (h : Shuffled H G) (p : Ptr) (hw : WellKeyed H p) :
    WellKeyed G p := by
  intro hk
  obtain ⟨a1, _, _, a4⟩ := h.2 p
  have hk2 := a1 ▸ hk
  obtain ⟨he, hd⟩ := hw hk2
  obtain ⟨hp, hl⟩ := a4 hk2
  refine ⟨hl ▸ he, ?_⟩
  rw [h.keyText]
  exact ((hp.map H.keyText).nodup_iff).mpr hd

theorem Shuffled.next_perm {H G : Heap} (h : Shuffled H G) (k : Str) (p : Ptr)
    (hw : WellKeyed H p) : (next G k (some p)).Perm (next H k (some p)) := by
  by_cases hk : (H.deref p).Kind = .MappingNode
  · have hkG : (G.deref p).Kind = .MappingNode := (h.2 p).1.trans hk
    rw [next_mapping H k p hk (hw hk).2, next_mapping G k p hkG (h.wellKeyed p hw hkG).2,
      h.keyText]
    exact (((h.2 p).2.2.2 hk).1).map _
  · rw [next_congr H G k p (h.deref_eq p hk) (fun q => (h.2 q).2.1)]

theorem Shuffled.entries_perm {H G : Heap} (h : Shuffled H G) : ∀ (n : Nat) (k : Str) (p : Ptr),
    (∀ kv ∈ entries H n k p, WellKeyed H kv.2) → (entries G n k p).Perm (entries H n k p) := by
  intro n
  induction n with
  | zero => intro k p _; exact List.Perm.refl _
  | succ n ih =>
    intro k p hw
    rw [entries, entries]
    refine List.Perm.cons _ ?_
    have hwp : WellKeyed H p := hw (k, p) (by rw [entries]; exact List.mem_cons_self _ _)
    refine ((h.next_perm k p hwp).flatMap_right _).trans ?_
    refine flatMap_perm_mem _ _ _ (fun kv hkv => ih _ _ (fun x hx => hw x ?_))
    rw [entries]
    exact List.mem_cons_of_mem _ (List.mem_flatMap.mpr ⟨kv, hkv, hx⟩)

theorem Shuffled.visits_perm [Folding] {H G : Heap} (h : Shuffled H G) (r : Rule) :
    ∀ (n : Nat) (k : Str) (p : Ptr),
      (∀ kv ∈ entries H n k p, WellKeyed H kv.2) → (visits r G n k p).Perm (visits r H n k p) := by
  intro n
  induction n with
  | zero => intro k p _; exact List.Perm.refl _
  | succ n ih =>
    intro k p hw
    rw [visits, visits]
    refine List.Perm.cons _ ?_
    have hwp : WellKeyed H p := hw (k, p) (by rw [entries]; exact List.mem_cons_self _ _)
    split
    · refine ((h.next_perm k p hwp).flatMap_right _).trans ?_
      refine flatMap_perm_mem _ _ _ (fun kv hkv => ih _ _ (fun x hx => hw x ?_))
      rw [entries]
      exact List.mem_cons_of_mem _ (List.mem_flatMap.mpr ⟨kv, hkv, hx⟩)
    · exact List.Perm.refl _

theorem Shuffled.covered {H G : Heap} (h : Shuffled H G) : ∀ (n : Nat) (k : Str) (p : Ptr),
    (∀ kv ∈ entries H n k p, WellKeyed H kv.2) → Covered H n k p → Covered G n k p := by
  intro n
  induction n with
  | zero =>
    intro k p hw hc
    have hwp : WellKeyed H p := hw (k, p) (by rw [entries]; exact List.mem_singleton_self _)
    simp only [Covered] at hc ⊢
    have := h.next_perm k p hwp
    rw [hc] at this
    exact this.eq_nil
  | succ n ih =>
    intro k p hw hc kv hkv
    have hwp : WellKeyed H p := hw (k, p) (by rw [entries]; exact List.mem_cons_self _ _)
    have hkv2 : kv ∈ next H k (some p) := (h.next_perm k p hwp).mem_iff.mp hkv
    refine ih _ _ (fun x hx => hw x ?_) (hc kv hkv2)
    rw [entries]
    exact List.mem_cons_of_mem _ (List.mem_flatMap.mpr ⟨kv, hkv2, hx⟩)

theorem Shuffled.treeLike {H G : Heap} (h : Shuffled H G) (n : Nat) (k : Str) (p : Ptr)
    (ht : TreeLike H n k p) : TreeLike G n k p := by
  obtain ⟨h1, h2, h3, h4⟩ := ht
  have hp := h.entries_perm n k p h4
  exact ⟨h.covered n k p h4 h1, ((hp.map _).nodup_iff).mpr h2, ((hp.map _).nodup_iff).mpr h3,
    fun kv hkv => h.wellKeyed kv.2 (h4 kv (hp.mem_iff.mp hkv))⟩

/-! ## The result of a run on a mapping with distinct keys -/

theorem eq_of_perm_of_rank_sorted {α β : Type} [LinearOrder β] (f : α → β) (A B : List α)
    (hp : A.Perm B) (hnd : (A.map f).Nodup)
    (hA : A.Pairwise (fun a b => f a ≤ f b)) (hB : B.Pairwise (fun a b => f a ≤ f b)) :
    A = B := by
  haveI : IsAntisymm α (fun a b => f a < f b) :=
    ⟨fun a b h1 h2 => absurd h1 (not_lt_of_gt h2)⟩
  have hndB : (B.map f).Nodup := ((hp.map f).nodup_iff).mp hnd
  have strict : ∀ l : List α, (l.map f).Nodup → l.Pairwise (fun a b => f a ≤ f b) →
      l.Pairwise (fun a b => f a < f b) := by
    intro l h1 h2
    rw [List.Nodup, List.pairwise_map] at h1
    exact (h1.and h2).imp (fun h => lt_of_le_of_ne h.2 h.1)
  exact List.eq_of_perm_of_sorted hp (strict A hnd hA) (strict B hndB hB)

theorem Index_inj {α : Type} [DecidableEq α] (l : List α) (s t : α) (hs : s ∈ l)
    (h : Index l s = Index l t) : s = t := by
  rw [Index_eq_indexOf, Index_eq_indexOf] at h
  by_cases ht : t ∈ l
  · simp only [hs, ht, if_true] at h
    exact (List.indexOf_inj hs ht).mp (by exact_mod_cast h)
  · simp only [hs, ht, if_true, if_false] at h
    omega

theorem run_only_functions (r r2 : Rule) (h : r.Functions = r2.Functions) (key : Str) (p : Ptr)
    (H : Heap) : r.Run key p H = r2.Run key p H := by
  simp only [Rule.Run, h]

theorem run_other_kind (S : Sorter) (key : Str) (p : Ptr) (H : Heap)
    (h1 : (H.deref p).Kind ≠ .MappingNode) (h2 : (H.deref p).Kind ≠ .SequenceNode) :
    ∀ fns : List OrderFn,
      (∀ f ∈ fns, f = StringOrderingFn S ∨ ∃ ks, f = NewSimpleOrdering S ks) →
      fns.foldl (fun H fn => fn key (some p) H) H = H
  | [], _ => rfl
  | f :: fns, h => by
    have hf : f key (some p) H = H := by
      rcases h f (List.mem_cons_self _ _) with e | ⟨ks, e⟩
      · rw [e]
        simp only [StringOrderingFn]
        rw [if_pos (Or.inr ⟨h1, h2⟩)]
      · rw [e]
        simp only [NewSimpleOrdering]
        rw [if_pos (Or.inr (Or.inr h1))]
    rw [List.foldl_cons, hf]
    exact run_other_kind S key p H h1 h2 fns (fun f2 hf2 => h f2 (List.mem_cons_of_mem _ hf2))

theorem run_canonical_mapping (S : Sorter) (hS : SortContract S) (H G : Heap)
    (h : Shuffled H G) (p : Ptr) (key : Str) (ks : List Str)
    (hk : (H.deref p).Kind = .MappingNode) (hw : WellKeyed H p) :
    ((NewRule root [StringOrderingFn S, NewSimpleOrdering S ks]).Run key p G).deref p =
      ((NewRule root [StringOrderingFn S, NewSimpleOrdering S ks]).Run key p H).deref p := by
  obtain ⟨he, hd⟩ := hw hk
  have hkG : (G.deref p).Kind = .MappingNode := (h.2 p).1.trans hk
  obtain ⟨heG, hdG⟩ := h.wellKeyed p hw hkG
  obtain ⟨hpp, _⟩ := (h.2 p).2.2.2 hk
  obtain ⟨A, B, hrun, hA1, hA2, hB1, hB2⟩ :=
    run_string_then_simple S hS H p key ks hk he (List.Nodup.of_map _ hd)
  obtain ⟨A2, B2, hrun2, hA3, hA4, hB3, hB4⟩ :=
    run_string_then_simple S hS G p key ks hkG heG (List.Nodup.of_map _ hdG)
  rw [h.keyText] at hA3 hA4 hB3 hB4
  have hAp : A2.Perm A := (hA3.trans (hpp.filter _)).trans hA1.symm
  have hBp : B2.Perm B := (hB3.trans (hpp.filter _)).trans hB1.symm
  have hAk : (A.map H.keyText).Nodup :=
    ((hA1.map H.keyText).nodup_iff).mpr ((List.filter_sublist _).map H.keyText |>.nodup hd)
  have hBk : (B.map H.keyText).Nodup :=
    ((hB1.map H.keyText).nodup_iff).mpr ((List.filter_sublist _).map H.keyText |>.nodup hd)
  have hAin : ∀ a ∈ A, H.keyText a ∈ ks := by
    intro a ha
    have := hA1.mem_iff.mp ha
    simpa using (List.mem_filter.mp this).2
  have hAi : (A.map (fun a => Index ks (H.keyText a))).Nodup := by
    have : A.map (fun a => Index ks (H.keyText a)) = (A.map H.keyText).map (Index ks) := by
      rw [List.map_map]; rfl
    rw [this]
    refine List.Nodup.map_on ?_ hAk
    intro x hx y _ hxy
    obtain ⟨a, ha, rfl⟩ := List.mem_map.mp hx
    exact Index_inj ks _ _ (hAin a ha) hxy
  have eA : A2 = A :=
    (eq_of_perm_of_rank_sorted (fun a => Index ks (H.keyText a)) A A2 hAp.symm hAi hA2 hA4).symm
  have eB : B2 = B :=
    (eq_of_perm_of_rank_sorted H.keyText B B2 hBp.symm hBk hB2 hB4).symm
  rw [hrun, hrun2, eA, eB]
  by_cases hp : p < H.length
  · rw [deref_setContent_self H p _ hp, deref_setContent_self G p _ (h.1 ▸ hp)]
    obtain ⟨a1, a2, _, _⟩ := h.2 p
    simp only [a1, a2]
  · rw [deref_of_not_lt H p hp] at hk
    cases hk

theorem run_canonical (S : Sorter) (hS : SortContract S) (r : Rule)
    (hr : r.Functions = [StringOrderingFn S] ∨
      ∃ ks, r.Functions = [StringOrderingFn S, NewSimpleOrdering S ks])
    (H G : Heap) (h : Shuffled H G) (p : Ptr) (key : Str)
    (hw : WellKeyed H p) (hs : (H.deref p).Kind ≠ .SequenceNode) :
    (r.Run key p G).deref p = (r.Run key p H).deref p := by
  by_cases hk : (H.deref p).Kind = .MappingNode
  · have hr2 : ∃ ks, ∀ X : Heap, r.Run key p X =
        (NewRule root [StringOrderingFn S, NewSimpleOrdering S ks]).Run key p X := by
      rcases hr with e | ⟨ks, e⟩
      · refine ⟨[], fun X => ?_⟩
        simp only [Rule.Run, e, NewRule, List.foldl_cons, List.foldl_nil]
        simp [NewSimpleOrdering]
      · exact ⟨ks, fun X => run_only_functions r _ (by rw [e]; rfl) key p X⟩
    obtain ⟨ks, hks⟩ := hr2
    rw [hks G, hks H]
    exact run_canonical_mapping S hS H G h p key ks hk hw
  · have hlib : ∀ f ∈ r.Functions, f = StringOrderingFn S ∨ ∃ ks, f = NewSimpleOrdering S ks := by
      intro f hf
      rcases hr with e | ⟨ks, e⟩
      · rw [e] at hf; simp at hf; exact Or.inl hf
      · rw [e] at hf
        simp at hf
        rcases hf with hf | hf
        · exact Or.inl hf
        · exact Or.inr ⟨ks, hf⟩
    have hkG := (h.2 p).1
    have e1 : r.Run key p H = H := run_other_kind S key p H hk hs r.Functions hlib
    have e2 : r.Run key p G = G :=
      run_other_kind S key p G (hkG ▸ hk) (hkG ▸ hs) r.Functions hlib
    rw [e1, e2]
    exact h.deref_eq p hk

theorem run_shuffled (S : Sorter) (hS : SortContract S) (r : Rule)
    (hlib : ∀ f ∈ r.Functions, f = StringOrderingFn S ∨ ∃ ks, f = NewSimpleOrdering S ks)
    (G : Heap) (p : Ptr) (key : Str) (hs : (G.deref p).Kind ≠ .SequenceNode) :
    Shuffled G (r.Run key p G) := by
  have hre : Reordered G (r.Run key p G) := run_reordered S hS key p r.Functions G hlib
  obtain ⟨g, hg⟩ := localRule_library S r hlib
  refine ⟨hre.1, fun q => ?_⟩
  obtain ⟨a1, a2, a3, a4⟩ := hre.2 q
  refine ⟨a1, a2, fun hk => ?_, fun hk => ⟨a4 hk, a3.length_eq⟩⟩
  by_cases hqp : p = q
  · subst hqp
    have : r.Run key p G = G := run_other_kind S key p G hk hs r.Functions hlib
    rw [this]
  · rw [hg, deref_setContent_ne _ _ _ _ hqp]

theorem pass_shuffled [Folding] (S : Sorter) (hS : SortContract S) (r : Rule)
    (hlib : ∀ f ∈ r.Functions, f = StringOrderingFn S ∨ ∃ ks, f = NewSimpleOrdering S ks)
    (G G2 : Heap) (V : PathMap) (hres : PassResult r G V G2)
    (hs : ∀ kv ∈ V, r.runsAt kv.1 → (G.deref kv.2).Kind ≠ .SequenceNode) :
    Shuffled G G2 := by
  obtain ⟨h1, _, h3, h4, _⟩ := hres
  refine ⟨h1, fun q => ?_⟩
  by_cases hq : ∃ kv ∈ V, kv.2 = q ∧ r.runsAt kv.1
  · obtain ⟨kv, hkv, rfl, hrun⟩ := hq
    rw [h4 kv hkv hrun]
    exact (run_shuffled S hS r hlib G kv.2 kv.1 (hs kv hkv hrun)).2 kv.2
  · rw [h3 q (fun kv hkv heq hrun => hq ⟨kv, hkv, heq, hrun⟩)]
    exact (Shuffled.same G).2 q

theorem heap_ext (H1 H2 : Heap) (hl : H1.length = H2.length)
    (h : ∀ q, H1.deref q = H2.deref q) : H1 = H2 := by
  refine List.ext_getElem hl (fun i h1 h2 => ?_)
  have := h i
  simp only [Heap.deref, List.getD_eq_getElem?_getD, List.getElem?_eq_getElem h1,
    List.getElem?_eq_getElem h2, Option.getD_some] at this
  exact this

/-! ## Two runs of Lint -/

theorem lintLoop_pass_start [Folding] (r : Rule) (hr : LocalRule r) (N : Nat) (k0 : Str) (p0 : Ptr)
    (choices : List Nat) (st : State) (ht : TreeLike st.heap N k0 p0) :
    (∀ st2 left, lintLoop r choices [(k0, p0)] st = .done st2 left →
        PassResult r st.heap (visits r st.heap N k0 p0) st2.heap ∧
          left.length + (visits r st.heap N k0 p0).length = choices.length) ∧
      ((∀ kv ∈ visits r st.heap N k0 p0, r.safeAt kv.1) →
        (visits r st.heap N k0 p0).length ≤ choices.length →
        ∃ st2 left, lintLoop r choices [(k0, p0)] st = .done st2 left) := by
  obtain ⟨h1, h2, h3, _⟩ := ht
  have hsub := visits_sublist r st.heap N k0 p0
  have := lintLoop_pass r hr st.heap N (visits r st.heap N k0 p0)
    ((hsub.map Prod.fst).nodup h2) ((hsub.map Prod.snd).nodup h3) choices [(k0, p0)] [] st
    (fun q hq => by rw [List.mem_singleton] at hq; subst hq; exact h1)
    (by simp)
    ⟨rfl, fun _ => rfl, fun _ _ => rfl, fun kv hkv => absurd hkv (List.not_mem_nil _),
      fun kv hkv => absurd hkv (List.not_mem_nil _)⟩
  simpa using this

theorem lintRules_twice [Folding] (S : Sorter) (hS : SortContract S) (H : Heap) (N : Nat) (k0 : Str)
    (p0 : Ptr) (ht : TreeLike H N k0 p0) :
    ∀ rs : List Rule,
      (∀ r ∈ rs, r.Functions = [StringOrderingFn S] ∨
        ∃ ks, r.Functions = [StringOrderingFn S, NewSimpleOrdering S ks]) →
      (∀ r ∈ rs, ∀ kv ∈ entries H N k0 p0, r.«match» kv.1 = .ok true →
        (H.deref kv.2).Kind ≠ .SequenceNode) →
      ∀ (choices : List Nat) (st K : State) (left : List Nat),
        Shuffled H st.heap →
        lintRules k0 p0 rs choices st = .done K left →
        Shuffled H K.heap ∧ left.length ≤ choices.length ∧
        ∀ (choices2 : List Nat) (st2 : State), Shuffled H st2.heap →
          choices.length - left.length ≤ choices2.length →
          ∃ K2 left2, lintRules k0 p0 rs choices2 st2 = .done K2 left2 ∧
            Shuffled H K2.heap ∧
            ∀ q, (K.heap.deref q = st.heap.deref q ∧ K2.heap.deref q = st2.heap.deref q) ∨
              K.heap.deref q = K2.heap.deref q := by
  intro rs
  induction rs with
  | nil =>
    intro _ _ choices st K left hsh h
    simp only [lintRules] at h
    cases h
    refine ⟨hsh, le_refl _, fun choices2 st2 hsh2 _ => ⟨st2, choices2, rfl, hsh2, fun q => ?_⟩⟩
    exact Or.inl ⟨rfl, rfl⟩
  | cons r rs ih =>
    intro hshape hseq choices st K left hsh h
    simp only [lintRules] at h
    have hshr := hshape r (List.mem_cons_self _ _)
    have hlib : ∀ f ∈ r.Functions, f = StringOrderingFn S ∨ ∃ ks, f = NewSimpleOrdering S ks := by
      intro f hf
      rcases hshr with e | ⟨ks, e⟩
      · rw [e] at hf; simp at hf; exact Or.inl hf
      · rw [e] at hf
        simp at hf
        rcases hf with hf | hf
        · exact Or.inl hf
        · exact Or.inr ⟨ks, hf⟩
    have hloc := localRule_library S r hlib
    have hVin : ∀ kv ∈ visits r H N k0 p0, kv ∈ entries H N k0 p0 :=
      fun kv hkv => (visits_sublist r H N k0 p0).subset hkv
    have hnoseq : ∀ (G : Heap), Shuffled H G → ∀ kv ∈ visits r G N k0 p0, r.runsAt kv.1 →
        (G.deref kv.2).Kind ≠ .SequenceNode := by
      intro G hG kv hkv hrun
      have hkvH := hVin kv ((hG.visits_perm r N k0 p0 ht.2.2.2).mem_iff.mp hkv)
      rw [(hG.2 kv.2).1]
      exact hseq r (List.mem_cons_self _ _) kv hkvH hrun.2
    cases h1 : lintLoop r choices [(k0, p0)] st with
    | done st1 ch1 =>
      rw [h1] at h
      simp only at h
      obtain ⟨pass1, _⟩ := lintLoop_pass_start r hloc N k0 p0 choices st (hsh.treeLike N k0 p0 ht)
      obtain ⟨hres1, hlen1⟩ := pass1 st1 ch1 h1
      have hV1 := hsh.visits_perm r N k0 p0 ht.2.2.2
      have hsh1 : Shuffled H st1.heap :=
        hsh.chain (pass_shuffled S hS r hlib st.heap st1.heap _ hres1 (hnoseq st.heap hsh))
      obtain ⟨hK, hleft, hrest⟩ := ih (fun r2 hr2 => hshape r2 (List.mem_cons_of_mem _ hr2))
        (fun r2 hr2 => hseq r2 (List.mem_cons_of_mem _ hr2)) ch1 st1 K left hsh1 h
      refine ⟨hK, by omega, fun choices2 st2 hsh2 hfuel => ?_⟩
      obtain ⟨pass2, prog2⟩ :=
        lintLoop_pass_start r hloc N k0 p0 choices2 st2 (hsh2.treeLike N k0 p0 ht)
      have hV2 := hsh2.visits_perm r N k0 p0 ht.2.2.2
      have hVV : (visits r st2.heap N k0 p0).Perm (visits r st.heap N k0 p0) :=
        hV2.trans hV1.symm
      have hVl := hVV.length_eq
      obtain ⟨st12, ch12, h2⟩ := prog2
        (fun kv hkv => hres1.2.2.2.2 kv (hVV.mem_iff.mp hkv)) (by omega)
      obtain ⟨hres2, hlen2⟩ := pass2 st12 ch12 h2
      have hsh12 : Shuffled H st12.heap :=
        hsh2.chain (pass_shuffled S hS r hlib st2.heap st12.heap _ hres2 (hnoseq st2.heap hsh2))
      obtain ⟨K2, left2, hK2run, hK2sh, hcells⟩ := hrest ch12 st12 hsh12 (by omega)
      refine ⟨K2, left2, ?_, hK2sh, fun q => ?_⟩
      · simp only [lintRules, h2]
        exact hK2run
      · rcases hcells q with ⟨c1, c2⟩ | c
        · by_cases hq : ∃ kv ∈ visits r st.heap N k0 p0, kv.2 = q ∧ r.runsAt kv.1
          · obtain ⟨kv, hkv, rfl, hrun⟩ := hq
            right
            have hkvH := hVin kv (hV1.mem_iff.mp hkv)
            have hs := hseq r (List.mem_cons_self _ _) kv hkvH hrun.2
            rw [c1, c2, hres1.2.2.2.1 kv hkv hrun, hres2.2.2.2.1 kv (hVV.mem_iff.mpr hkv) hrun,
              run_canonical S hS r hshr H st.heap hsh kv.2 kv.1 (ht.2.2.2 kv hkvH) hs,
              run_canonical S hS r hshr H st2.heap hsh2 kv.2 kv.1 (ht.2.2.2 kv hkvH) hs]
          · left
            exact ⟨c1.trans (hres1.2.2.1 q (fun kv hkv heq hrun => hq ⟨kv, hkv, heq, hrun⟩)),
              c2.trans (hres2.2.2.1 q
                (fun kv hkv heq hrun => hq ⟨kv, hVV.mem_iff.mp hkv, heq, hrun⟩))⟩
        · exact Or.inr c
    | panic e st1 => rw [h1] at h; cases h
    | pending => rw [h1] at h; cases h

theorem Lint_twice [Folding] (S : Sorter) (hS : SortContract S) (rules : List Rule)
    (hshape : ∀ r ∈ rules, r.Functions = [StringOrderingFn S] ∨
      ∃ ks, r.Functions = [StringOrderingFn S, NewSimpleOrdering S ks])
    (H : Heap) (d p0 : Ptr) (rest : List Ptr) (n : Nat) (choices choices2 : List Nat)
    (calls calls2 : List (Str × Ptr)) (st1 : State) (left : List Nat)
    (hd : (H.deref d).Kind = .DocumentNode) (hc : (H.deref d).Content = p0 :: rest)
    (ht : TreeLike H n root p0)
    (hseq : ∀ r ∈ rules, ∀ kv ∈ entries H n root p0, r.«match» kv.1 = .ok true →
      (H.deref kv.2).Kind ≠ .SequenceNode)
    (h1 : Lint choices ⟨H, calls⟩ (some d) rules = .done st1 left)
    (hfuel : choices.length ≤ choices2.length) :
    ∃ st2 left2, Lint choices2 ⟨st1.heap, calls2⟩ (some d) rules = .done st2 left2 ∧
      st2.heap = st1.heap := by
  by_cases hr : rules.length = 0
  · simp only [Lint, hr, if_true] at h1 ⊢
    exact ⟨_, _, rfl, rfl⟩
  · simp only [Lint, hr, if_false, hd, if_true, hc] at h1
    obtain ⟨hK, hleft, hrest⟩ :=
      lintRules_twice S hS H n root p0 ht rules hshape hseq choices ⟨H, calls⟩ st1 left
        (Shuffled.same H) h1
    obtain ⟨K2, left2, hrun, hsh2, hcells⟩ := hrest choices2 ⟨st1.heap, calls2⟩ hK (by omega)
    have hd2 : (st1.heap.deref d).Kind = .DocumentNode := (hK.2 d).1.trans hd
    have hc2 : (st1.heap.deref d).Content = p0 :: rest :=
      ((hK.2 d).2.2.1 (by rw [hd]; decide)).trans hc
    refine ⟨K2, left2, ?_, ?_⟩
    · simp only [Lint, hr, if_false, hd2, if_true, hc2]
      exact hrun
    · refine heap_ext _ _ (hsh2.1.trans hK.1.symm) (fun q => ?_)
      rcases hcells q with ⟨_, c2⟩ | c
      · exact c2
      · exact c.symm

theorem defaultRules_shape (S : Sorter) :
    ∀ r ∈ DefaultOpenAPIRules S, r.Functions = [StringOrderingFn S] ∨
      ∃ ks, r.Functions = [StringOrderingFn S, NewSimpleOrdering S ks] := by
  simp only [DefaultOpenAPIRules, List.forall_mem_cons, List.not_mem_nil, false_implies,
    implies_true, and_true]
  and_intros
  all_goals first
    | exact Or.inl rfl
    | exact Or.inr ⟨_, rfl⟩

/-! ## Lint with the default rules, applied twice -/

theorem firstIllegal_eq_none (l : List Char) :
    ∀ prev : Option Char, firstIllegal prev l = none →
      ∀ pre c post, l = pre ++ c :: post → ¬ Illegal ((pre.getLast?).or prev) c := by
  induction l with
  | nil =>
    intro prev _ pre c post h
    simp at h
  | cons a rest ih =>
    intro prev h pre c post hsplit
    by_cases hi : Illegal prev a
    · simp [firstIllegal, hi] at h
    · simp only [firstIllegal, hi, if_false] at h
      cases pre with
      | nil =>
        simp only [List.nil_append, List.cons.injEq] at hsplit
        rw [← hsplit.1]
        simpa using hi
      | cons b pre2 =>
        simp only [List.cons_append, List.cons.injEq] at hsplit
        obtain ⟨rfl, hrest⟩ := hsplit
        have := ih (some a) h pre2 c post hrest
        cases pre2 with
        | nil => simpa using this
        | cons d pre3 =>
          have e : ((a :: d :: pre3).getLast?).or prev = ((d :: pre3).getLast?).or (some a) := by
            simp [List.getLast?_cons_cons, List.getLast?_eq_getLast]
          rw [e]
          exact this

theorem parts_ok_firstIllegal (path : Str) (l : List Str) (h : parts path = .ok l) :
    firstIllegal none (structural path) = none := by
  have hspec := parts_spec path
  cases hf : firstIllegal none (structural path) with
  | none => rfl
  | some c =>
    rw [hf] at hspec
    rw [hspec] at h
    cases h

/-- C21, as the claim states it, fails: parts accepts '$.servers[0', whose '[' no
']' closes, with the segments '$', '.servers', '[0', and Validate accepts a rule
with this path. -/
theorem parts_accepts_unclosed_bracket :
    parts "$.servers[0".toList = .ok ["$".toList, ".servers".toList, "[0".toList] ∧
      '[' ∈ "$.servers[0".toList ∧ ']' ∉ "$.servers[0".toList ∧
      Validate [NewRule "$.servers[0".toList []] = none :=
  ⟨rfl, by decide, by decide, rfl⟩

/-- C21, amended: the tokenizer checks what follows an open bracket, not that it
is closed. In every path that parts accepts, a '[' that is followed by another
structural character ('.', '[' or ']') is followed by ']' as the next of them,
and every ']' closes the '[' that is the structural character right before it; a
'[' after which no structural character comes stays open. -/
theorem parts_brackets (path : Str) (l : List Str) (h : parts path = .ok l) :
    (∀ pre post, structural path = pre ++ '[' :: post → post = [] ∨ post.head? = some ']') ∧
      (∀ pre post, structural path = pre ++ ']' :: post → pre.getLast? = some '[') := by
  have hnone := firstIllegal_eq_none (structural path) none (parts_ok_firstIllegal path l h)
  simp only [Option.or_none] at hnone
  constructor
  · intro pre post hsplit
    cases post with
    | nil => exact Or.inl rfl
    | cons c post2 =>
      right
      have hc : c ∈ structural path := by rw [hsplit]; simp
      have hs : isStructural c = true := (List.mem_filter.mp hc).2
      have hno := hnone (pre ++ ['[']) c post2 (by rw [hsplit]; simp)
      simp only [List.getLast?_append, List.getLast?_singleton, Option.or_some] at hno
      simp only [isStructural, Bool.decide_or, Bool.or_eq_true, decide_eq_true_eq] at hs
      simp only [Illegal, not_or, not_and] at hno
      rcases hs with h1 | h1 | h1
      · exact absurd trivial (hno.2 (Or.inl h1))
      · exact absurd trivial (hno.2 (Or.inr h1))
      · simp [h1]
  · intro pre post hsplit
    have hno := hnone pre ']' post hsplit
    simp only [Illegal, not_or, not_and, not_not] at hno
    exact hno.1 trivial

/-- C21, amended, at the paths '$[*].servers[0]' and '$.servers[0'. -/
theorem parts_brackets_witness :
    ((∀ pre post, structural "$[*].servers[0]".toList = pre ++ '[' :: post →
        post = [] ∨ post.head? = some ']') ∧
      (∀ pre post, structural "$[*].servers[0]".toList = pre ++ ']' :: post →
        pre.getLast? = some '[')) ∧
    ((∀ pre post, structural "$.servers[0".toList = pre ++ '[' :: post →
        post = [] ∨ post.head? = some ']') ∧
      (∀ pre post, structural "$.servers[0".toList = pre ++ ']' :: post →
        pre.getLast? = some '[')) :=
  ⟨parts_brackets "$[*].servers[0]".toList
      ["$".toList, "[*]".toList, ".servers".toList, "[0]".toList] rfl,
    parts_brackets "$.servers[0".toList ["$".toList, ".servers".toList, "[0".toList] rfl⟩

/-! ## A mapping key with a bracket -/

/-- C22: on the document a]: 1 children expansion gives the candidate path
'$.a]', which the tokenizer rejects. With the rule '$', a rule that Validate
accepts, Lint sorts the root and then panics in contains with the tokenizer
error of the candidate path; with the relative rule '.x', also accepted by
Validate, it panics in match. -/
theorem Lint_bracket_key_panics :
    next docBracketKey root (some 1) = [("$.a]".toList, 3)] ∧
    parts "$.a]".toList =
      .error (.invalidPath "$.a]".toList (.char "]".toList .ErrIllegalToken)) ∧
    Validate [NewRule root [StringOrderingFn insertionSortedFunc]] = none ∧
    Lint [0, 0, 0] ⟨docBracketKey, []⟩ (some 0)
        [NewRule root [StringOrderingFn insertionSortedFunc]] =
      .panic (.error (.invalidPath "$.a]".toList (.char "]".toList .ErrIllegalToken)))
        ⟨docBracketKey, [(root, 1)]⟩ ∧
    Validate [NewRule ".x".toList [StringOrderingFn insertionSortedFunc]] = none ∧
    Lint [0, 0, 0] ⟨docBracketKey, []⟩ (some 0)
        [NewRule ".x".toList [StringOrderingFn insertionSortedFunc]] =
      .panic (.error (.invalidPath "$.a]".toList (.char "]".toList .ErrIllegalToken)))
        ⟨docBracketKey, []⟩ :=
  ⟨rfl, rfl, rfl, rfl, rfl, rfl⟩

/-! ## A rule with the empty path -/

theorem match_empty_path [Folding] (fns : List OrderFn) (path : Str) :
    (NewRule [] fns).«match» path =
      match parts path with
      | .error e => .error (.error e)
      | .ok _ => .ok true := by
  simp only [Rule.«match», NewRule]
  cases parts path with
  | error e => rfl
  | ok l => rfl

/-- C25, as the claim states it, fails: the rule with the empty path matches the
candidate '$.a', which is not the root marker, and Lint with this rule and
StringOrderingFn on the document b: 1, a: 2 invokes the function on the root
mapping and on both of its values. -/
theorem empty_rule_matches_key :
    (NewRule [] []).«match» "$.a".toList = .ok true ∧ "$.a".toList ≠ root ∧
    Lint [0, 0, 0] ⟨documentBA, []⟩ (some 0) [NewRule [] [StringOrderingFn insertionSortedFunc]] =
      .done ⟨documentBA.setContent 1 [4, 5, 2, 3],
        [(root, 1), ("$.b".toList, 3), ("$.a".toList, 5)]⟩ [] :=
  ⟨rfl, by decide, rfl⟩

/-- C25, amended: a rule whose path is empty is a relative rule without
segments. contains is true for every candidate path, and match is true for every
candidate path the tokenizer accepts (for the others it panics with the
tokenizer error), so an iteration of the loop of Lint that removes an entry with
an accepted path puts the children of the entry in the queue and invokes the
functions of the rule on its node, whichever node of the tree that is. -/
theorem empty_rule_matches_all [Folding] (fns : List OrderFn) :
    (∀ path, (NewRule [] fns).contains path = .ok true) ∧
    (∀ path l, parts path = .ok l → (NewRule [] fns).«match» path = .ok true) ∧
    (∀ path e, parts path = .error e → (NewRule [] fns).«match» path = .error (.error e)) ∧
    (∀ (c : Nat) (choices : List Nat) (queue : PathMap) (st : State) (l : List Str),
      queue ≠ [] → parts (queue.getD (c % queue.length) ([], 0)).1 = .ok l →
      lintLoop (NewRule [] fns) (c :: choices) queue st =
        lintLoop (NewRule [] fns) choices
          ((next st.heap (queue.getD (c % queue.length) ([], 0)).1
              (some (queue.getD (c % queue.length) ([], 0)).2)).foldl
            (fun q kv => mapSet q kv.1 kv.2) (queue.eraseIdx (c % queue.length)))
          ⟨(NewRule [] fns).Run (queue.getD (c % queue.length) ([], 0)).1
              (queue.getD (c % queue.length) ([], 0)).2 st.heap,
            st.calls ++ [((queue.getD (c % queue.length) ([], 0)).1,
              (queue.getD (c % queue.length) ([], 0)).2)]⟩) := by
  have hcon : ∀ path, (NewRule [] fns).contains path = .ok true := fun path => rfl
  refine ⟨hcon, fun path l h => ?_, fun path e h => ?_, fun c choices queue st l hq h => ?_⟩
  · rw [match_empty_path, h]
  · rw [match_empty_path, h]
  · exact lintLoop_cons_true_true (NewRule [] fns) c choices queue st hq (hcon _)
      (by rw [match_empty_path, h])

/-! ## Children expansion -/

theorem toDigitsCore_append (b : Nat) : ∀ (f n : Nat) (ds : List Char),
    Nat.toDigitsCore b f n ds = Nat.toDigitsCore b f n [] ++ ds := by
  intro f
  induction f with
  | zero => intro n ds; rfl
  | succ f ih =>
    intro n ds
    simp only [Nat.toDigitsCore]
    split
    · rfl
    · rw [ih (n / b) (Nat.digitChar (n % b) :: ds), ih (n / b) [Nat.digitChar (n % b)]]
      simp

theorem digitChar_value (d : Nat) (h : d < 10) : (Nat.digitChar d).toNat - 48 = d := by
  interval_cases d <;> rfl

theorem toDigitsCore_value : ∀ (f n : Nat), n < f →
    (Nat.toDigitsCore 10 f n []).foldl (fun a c => 10 * a + (c.toNat - 48)) 0 = n := by
  intro f
  induction f with
  | zero => intro n h; omega
  | succ f ih =>
    intro n h
    simp only [Nat.toDigitsCore]
    have hd := digitChar_value (n % 10) (Nat.mod_lt _ (by decide))
    split
    · rename_i h0
      simp only [List.foldl_cons, List.foldl_nil, Nat.mul_zero, Nat.zero_add, hd]
      omega
    · rename_i h0
      rw [toDigitsCore_append, List.foldl_append, ih (n / 10) (by omega)]
      simp only [List.foldl_cons, List.foldl_nil, hd]
      omega

theorem Itoa_inj (i j : Nat) (h : Itoa i = Itoa j) : i = j := by
  have hi := toDigitsCore_value (i + 1) i (by omega)
  have hj := toDigitsCore_value (j + 1) j (by omega)
  simp only [Itoa, Nat.toDigits] at h
  rw [h] at hi
  exact hi.symm.trans hj

theorem nextSequence_foldl (cursor : Str) : ∀ (content : List Ptr) (i : Nat) (res : PathMap),
    nextSequence cursor content i res =
      ((content.enumFrom i).map
        (fun ie => (cursor ++ indexOpen ++ Itoa ie.1 ++ indexClose, ie.2))).foldl
        (fun q kv => mapSet q kv.1 kv.2) res
  | [], _, _ => rfl
  | c :: rest, i, res => by
    simp only [nextSequence, List.enumFrom_cons, List.map_cons, List.foldl_cons]
    exact nextSequence_foldl cursor rest (i + 1) _

theorem next_sequence (H : Heap) (k : Str) (p : Ptr) (hk : (H.deref p).Kind = .SequenceNode) :
    next H k (some p) =
      (H.deref p).Content.enum.map (fun ie => (k ++ indexOpen ++ Itoa ie.1 ++ indexClose, ie.2)) := by
  have hne : ¬ (H.deref p).Kind = .MappingNode := by rw [hk]; decide
  simp only [next, hne, if_false, hk, if_true]
  rw [nextSequence_foldl]
  have h := foldl_mapSet_append
    (((H.deref p).Content.enumFrom 0).map
      (fun ie => (k ++ indexOpen ++ Itoa ie.1 ++ indexClose, ie.2))) []
    (by
      simp only [List.nil_append, List.map_map]
      have hfst : (Prod.fst ∘ fun ie : Nat × Ptr =>
          (k ++ indexOpen ++ Itoa ie.1 ++ indexClose, ie.2)) =
          (fun i => k ++ indexOpen ++ Itoa i ++ indexClose) ∘ Prod.fst := rfl
      rw [hfst, ← List.map_map, List.enumFrom_map_fst]
      refine (List.nodup_range' _ _).map ?_
      intro a b hab
      have h1 : k ++ indexOpen ++ Itoa a = k ++ indexOpen ++ Itoa b :=
        List.append_cancel_right hab
      exact Itoa_inj a b (List.append_cancel_left h1))
  simpa [List.enum] using h

theorem mapSet_keys : ∀ (m : PathMap) (k : Str) (v : Ptr),
    (mapSet m k v).map Prod.fst =
      if k ∈ m.map Prod.fst then m.map Prod.fst else m.map Prod.fst ++ [k]
  | [], k, v => by simp [mapSet]
  | (k0, v0) :: m, k, v => by
    by_cases h : k0 = k
    · subst h
      simp [mapSet]
    · have hne : ¬ k = k0 := fun e => h e.symm
      simp only [mapSet, h, if_false, List.map_cons, mapSet_keys m k v, List.mem_cons, hne,
        false_or]
      split <;> simp

theorem foldl_mapSet_nodup : ∀ (nx q : PathMap), (q.map Prod.fst).Nodup →
    ((nx.foldl (fun q kv => mapSet q kv.1 kv.2) q).map Prod.fst).Nodup
  | [], _, h => h
  | kv :: nx, q, h => by
    rw [List.foldl_cons]
    refine foldl_mapSet_nodup nx _ ?_
    rw [mapSet_keys]
    split
    · exact h
    · rename_i hk
      rw [List.nodup_append]
      refine ⟨h, List.nodup_singleton _, ?_⟩
      intro a ha hb
      rw [List.mem_singleton] at hb
      exact hk (hb ▸ ha)

theorem next_nodup (H : Heap) (cursor : Str) (node : Option Ptr) :
    ((next H cursor node).map Prod.fst).Nodup := by
  cases node with
  | none => simp [next]
  | some p =>
    simp only [next]
    split
    · rw [nextMapping_foldl H cursor _ _ 0 [] [] (le_refl _) rfl]
      have := foldl_mapSet_nodup
        ((pairs (H.deref p).Content).map
          (fun e => (cursor ++ delimiter ++ H.keyText e, e.Value))) [] (by simp)
      rw [List.foldl_map] at this
      exact this
    · split
      · rw [nextSequence_foldl]
        exact foldl_mapSet_nodup _ [] (by simp)
      · simp

/-- C26: children expansion next(cursor, node) returns, for a Mapping with
pairwise distinct key texts, one entry per (key, value) pair of the Content, in
order, at the path cursor + '.' + key text and bound to the value node (a last
child without partner gives none); for a Sequence one entry per element, in
order, at the path cursor + '[' + decimal index + ']' and bound to the element;
no entry for an absent node, for a node that is neither Mapping nor Sequence,
and for an empty container. No path occurs twice among the entries. -/
theorem next_entries (H : Heap) (cursor : Str) :
    next H cursor none = [] ∧
    (∀ p, (H.deref p).Kind = .MappingNode →
      ((pairs (H.deref p).Content).map H.keyText).Nodup →
      next H cursor (some p) =
        (pairs (H.deref p).Content).map
          (fun e => (cursor ++ delimiter ++ H.keyText e, e.Value))) ∧
    (∀ p, (H.deref p).Kind = .SequenceNode →
      next H cursor (some p) =
        (H.deref p).Content.enum.map
          (fun ie => (cursor ++ indexOpen ++ Itoa ie.1 ++ indexClose, ie.2))) ∧
    (∀ p, ((H.deref p).Kind ≠ .MappingNode ∧ (H.deref p).Kind ≠ .SequenceNode) ∨
        (H.deref p).Content = [] → next H cursor (some p) = []) ∧
    (∀ node, ((next H cursor node).map Prod.fst).Nodup) ∧
    (∀ i j, Itoa i = Itoa j → i = j) := by
  refine ⟨rfl, fun p hk hd => next_mapping H cursor p hk hd,
    fun p hk => next_sequence H cursor p hk, fun p h => ?_,
    fun node => next_nodup H cursor node, Itoa_inj⟩
  rcases h with ⟨h1, h2⟩ | h
  · simp [next, h1, h2]
  · simp only [next, h]
    split
    · rfl
    · split <;> rfl

/-- The tests TestNext_NilNode, TestNext_MappingNode and TestNext_SequenceNode. -/
theorem tests_of_next :
    next [] [] none = [] ∧
    next [⟨.MappingNode, [], [1, 2]⟩, ⟨.ScalarNode, "key".toList, []⟩,
        ⟨.ScalarNode, "content".toList, []⟩] root (some 0) = [("$.key".toList, 2)] ∧
    next [⟨.SequenceNode, [], [1, 2]⟩, ⟨.ScalarNode, "value1".toList, []⟩,
        ⟨.ScalarNode, "value2".toList, []⟩] root (some 0) =
      [("$[0]".toList, 1), ("$[1]".toList, 2)] :=
  ⟨rfl, rfl, rfl⟩

/-! ## The order of removal within one pass -/

theorem passResult_unique [Folding] (r : Rule) (H : Heap) (V : PathMap) (A B : Heap)
    (hA : PassResult r H V A) (hB : PassResult r H V B) : A = B := by
  obtain ⟨a1, _, a3, a4, _⟩ := hA
  obtain ⟨b1, _, b3, b4, _⟩ := hB
  refine heap_ext A B (a1.trans b1.symm) (fun q => ?_)
  by_cases hq : ∃ kv ∈ V, kv.2 = q ∧ r.runsAt kv.1
  · obtain ⟨kv, hkv, rfl, hrun⟩ := hq
    rw [a4 kv hkv hrun, b4 kv hkv hrun]
  · have hno : ∀ kv ∈ V, kv.2 = q → ¬ r.runsAt kv.1 :=
      fun kv hkv heq hrun => hq ⟨kv, hkv, heq, hrun⟩
    rw [a3 q hno, b3 q hno]

theorem lintLoop_pass_distinct [Folding] (r : Rule) (hr : LocalRule r) (N : Nat) (k0 : Str) (p0 : Ptr)
    (choices : List Nat) (st : State) (hcov : Covered st.heap N k0 p0)
    (hpaths : ((entries st.heap N k0 p0).map Prod.fst).Nodup)
    (hnodes : ((entries st.heap N k0 p0).map Prod.snd).Nodup) :
    (∀ st2 left, lintLoop r choices [(k0, p0)] st = .done st2 left →
        PassResult r st.heap (visits r st.heap N k0 p0) st2.heap ∧
          left.length + (visits r st.heap N k0 p0).length = choices.length) ∧
      ((∀ kv ∈ visits r st.heap N k0 p0, r.safeAt kv.1) →
        (visits r st.heap N k0 p0).length ≤ choices.length →
        ∃ st2 left, lintLoop r choices [(k0, p0)] st = .done st2 left) := by
  have hsub := visits_sublist r st.heap N k0 p0
  have := lintLoop_pass r hr st.heap N (visits r st.heap N k0 p0)
    ((hsub.map Prod.fst).nodup hpaths) ((hsub.map Prod.snd).nodup hnodes) choices [(k0, p0)] []
    st (fun q hq => by rw [List.mem_singleton] at hq; subst hq; exact hcov)
    (by simp)
    ⟨rfl, fun _ => rfl, fun _ _ => rfl, fun kv hkv => absurd hkv (List.not_mem_nil _),
      fun kv hkv => absurd hkv (List.not_mem_nil _)⟩
  simpa using this

theorem lintLoop_order [Folding] (r : Rule) (hr : LocalRule r) (N : Nat) (k0 : Str) (p0 : Ptr)
    (H : Heap) (hcov : Covered H N k0 p0)
    (hpaths : ((entries H N k0 p0).map Prod.fst).Nodup)
    (hnodes : ((entries H N k0 p0).map Prod.snd).Nodup)
    (choices choices2 : List Nat) (calls calls2 : List (Str × Ptr)) (st1 : State)
    (left : List Nat) (h1 : lintLoop r choices [(k0, p0)] ⟨H, calls⟩ = .done st1 left)
    (hfuel : choices.length ≤ choices2.length) :
    ∃ st2 left2, lintLoop r choices2 [(k0, p0)] ⟨H, calls2⟩ = .done st2 left2 ∧
      st2.heap = st1.heap := by
  obtain ⟨pass1, _⟩ := lintLoop_pass_distinct r hr N k0 p0 choices ⟨H, calls⟩ hcov hpaths hnodes
  obtain ⟨pass2, prog2⟩ :=
    lintLoop_pass_distinct r hr N k0 p0 choices2 ⟨H, calls2⟩ hcov hpaths hnodes
  obtain ⟨hres1, hlen1⟩ := pass1 st1 left h1
  obtain ⟨st2, left2, h2⟩ := prog2 hres1.2.2.2.2 (by simp only at hlen1 ⊢; omega)
  exact ⟨st2, left2, h2, passResult_unique r H _ _ _ (pass2 st2 left2 h2).1 hres1⟩

/-- C23, as the claim states it, fails, in two ways. In the document
info.contact: (b: 1, a: 2), info: (contact: x) two nodes get the path
'$.info.contact': in the pass of the rule '$.info.contact' with
StringOrderingFn, the order that removes the entry of the key info.contact
before the entry of info sorts the mapping (b, a) to (a, b); the order that
removes the entry of info first overwrites the queue entry '$.info.contact' with
the value of contact, and the mapping stays (b, a). And in the document
a: (x), b: (y), where all paths differ, the rule '$[*]' with the function peek,
which rewrites only the Content of the node it is given but reads the Content of
the other sequence, leaves both sequences (y) when the entry of a is removed
first and both (x) when the entry of b is removed first. -/
theorem Lint_pass_depends_on_order :
    Lint (List.replicate 6 0) ⟨docCollide, []⟩ (some 0)
        [NewRule "$.info.contact".toList [StringOrderingFn insertionSortedFunc]] =
      .done ⟨docCollide.setContent 3 [8, 9, 6, 7],
        [("$.info.contact".toList, 3), ("$.info.contact".toList, 11)]⟩ [] ∧
    Lint (List.replicate 6 1) ⟨docCollide, []⟩ (some 0)
        [NewRule "$.info.contact".toList [StringOrderingFn insertionSortedFunc]] =
      .done ⟨docCollide, [("$.info.contact".toList, 11)]⟩ [1, 1, 1] ∧
    docCollide.setContent 3 [8, 9, 6, 7] ≠ docCollide ∧
    Lint (List.replicate 5 0) ⟨docSiblings, []⟩ (some 0) [NewRule "$[*]".toList [peek]] =
      .done ⟨docSiblings.setContent 3 [7], [("$.a".toList, 3), ("$.b".toList, 5)]⟩ [] ∧
    Lint (List.replicate 5 1) ⟨docSiblings, []⟩ (some 0) [NewRule "$[*]".toList [peek]] =
      .done ⟨docSiblings.setContent 5 [6], [("$.b".toList, 5), ("$.a".toList, 3)]⟩ [] ∧
    docSiblings.setContent 3 [7] ≠ docSiblings.setContent 5 [6] ∧
    (Covered docSiblings 2 root 1 ∧ ((entries docSiblings 2 root 1).map Prod.fst).Nodup ∧
      ((entries docSiblings 2 root 1).map Prod.snd).Nodup) :=
  ⟨rfl, rfl, by decide, rfl, rfl, by decide, by decide⟩

/-- C23, amended: take a Document d whose content node p0 heads a tree in which
children expansion from p0 at path '$' ends within n levels, reaches no node
twice and gives no two nodes the same path (a Mapping may hold a key twice:
children expansion keeps one entry for it), and a rule that is made of
StringOrderingFn and NewSimpleOrdering or, more generally, is local: running its
functions rewrites nothing but the Content of the node they are given, and the
new Content is a function of the key, of that node and of the texts of the
nodes alone, so of the Content of no other node (LocalRule). When the pass of
the rule completes for one order of removal, it completes for every order of
removal that has as many removals at hand, and the heap it leaves is the
same. -/
theorem Lint_pass_order [Folding] (r : Rule)
    (hr : (∃ S : Sorter, ∀ f ∈ r.Functions,
        f = StringOrderingFn S ∨ ∃ ks, f = NewSimpleOrdering S ks) ∨ LocalRule r)
    (H : Heap) (d p0 : Ptr) (rest : List Ptr)
    (n : Nat) (choices choices2 : List Nat) (calls calls2 : List (Str × Ptr)) (st1 : State)
    (left : List Nat)
    (hd : (H.deref d).Kind = .DocumentNode) (hc : (H.deref d).Content = p0 :: rest)
    (hcov : Covered H n root p0)
    (hpaths : ((entries H n root p0).map Prod.fst).Nodup)
    (hnodes : ((entries H n root p0).map Prod.snd).Nodup)
    (h1 : Lint choices ⟨H, calls⟩ (some d) [r] = .done st1 left)
    (hfuel : choices.length ≤ choices2.length) :
    ∃ st2 left2, Lint choices2 ⟨H, calls2⟩ (some d) [r] = .done st2 left2 ∧
      st2.heap = st1.heap := by
  have hloc : LocalRule r := by
    rcases hr with ⟨S, hS⟩ | hr
    · exact localRule_library S r hS
    · exact hr
  simp only [Lint, List.length_singleton, one_ne_zero, if_false, hd, if_true, hc,
    lintRules] at h1 ⊢
  cases hl : lintLoop r choices [(root, p0)] ⟨H, calls⟩ with
  | done st ch =>
    rw [hl] at h1
    simp only at h1
    cases h1
    obtain ⟨st2, left2, h2, he⟩ := lintLoop_order r hloc n root p0 H hcov hpaths hnodes choices
      choices2 calls calls2 st1 left hl hfuel
    refine ⟨st2, left2, ?_, he⟩
    rw [h2]
  | panic e st => rw [hl] at h1; cases h1
  | pending => rw [hl] at h1; cases h1

/-- C23, amended, at the document info: (version: 1, title: t), openapi: 3 and
the rule '$.info' with StringOrderingFn: the order that always removes the
second entry of the queue leaves what the order that always removes the first
one leaves, info: (title: t, version: 1). -/
theorem Lint_pass_order_witness :
    ∃ st2 left2,
      Lint (List.replicate 5 1) ⟨docInfo, []⟩ (some 0)
          [NewRule "$.info".toList [StringOrderingFn insertionSortedFunc]] = .done st2 left2 ∧
        st2.heap = docInfo.setContent 3 [8, 9, 6, 7] :=
  Lint_pass_order (NewRule "$.info".toList [StringOrderingFn insertionSortedFunc])
    (Or.inl ⟨insertionSortedFunc, by
      intro f hf
      simp only [NewRule, List.mem_singleton] at hf
      exact Or.inl hf⟩)
    docInfo 0 1 [] 2 (List.replicate 5 0) (List.replicate 5 1) [] []
    ⟨docInfo.setContent 3 [8, 9, 6, 7], [("$.info".toList, 3)]⟩ []
    rfl rfl (by decide) (by decide) (by decide) rfl (by decide)

/-! ## Rule lists in sequence -/

theorem run_keeps_other_kind (S : Sorter) (r : Rule)
    (hlib : ∀ f ∈ r.Functions, f = StringOrderingFn S ∨ ∃ ks, f = NewSimpleOrdering S ks)
    (key : Str) (p d : Ptr) (H : Heap) :
    ((r.Run key p H).deref d).Kind = (H.deref d).Kind ∧
      ((H.deref d).Kind ≠ .MappingNode → (H.deref d).Kind ≠ .SequenceNode →
        (r.Run key p H).deref d = H.deref d) := by
  obtain ⟨g, hg⟩ := localRule_library S r hlib
  refine ⟨by rw [hg]; exact (value_setContent H p d _).2, fun h1 h2 => ?_⟩
  by_cases hpd : p = d
  · subst hpd
    have : r.Run key p H = H := run_other_kind S key p H h1 h2 r.Functions hlib
    rw [this]
  · rw [hg, deref_setContent_ne _ _ _ _ hpd]

theorem lintLoop_keeps_other_kind [Folding] (S : Sorter) (r : Rule)
    (hlib : ∀ f ∈ r.Functions, f = StringOrderingFn S ∨ ∃ ks, f = NewSimpleOrdering S ks)
    (d : Ptr) :
    ∀ (choices : List Nat) (queue : PathMap) (st st2 : State) (left : List Nat),
      lintLoop r choices queue st = .done st2 left →
      ((st2.heap.deref d).Kind = (st.heap.deref d).Kind) ∧
        ((st.heap.deref d).Kind ≠ .MappingNode → (st.heap.deref d).Kind ≠ .SequenceNode →
          st2.heap.deref d = st.heap.deref d) := by
  intro choices
  induction choices with
  | nil =>
    intro queue st st2 left h
    simp only [lintLoop] at h
    split at h
    · cases h
    · cases h
      exact ⟨rfl, fun _ _ => rfl⟩
  | cons c choices ih =>
    intro queue st st2 left h
    simp only [lintLoop] at h
    split at h
    · cases h
      exact ⟨rfl, fun _ _ => rfl⟩
    · split at h
      · cases h
      · exact ih _ _ _ _ h
      · split at h
        · cases h
        · obtain ⟨k1, k2⟩ := ih _ _ _ _ h
          obtain ⟨r1, r2⟩ := run_keeps_other_kind S r hlib
            (queue.getD (c % queue.length) ([], 0)).1 (queue.getD (c % queue.length) ([], 0)).2
            d st.heap
          simp only at k1 k2
          refine ⟨k1.trans r1, fun h1 h2 => ?_⟩
          rw [k2 (r1 ▸ h1) (r1 ▸ h2), r2 h1 h2]
        · exact ih _ _ _ _ h

theorem lintRules_keeps_other_kind [Folding] (S : Sorter) (path : Str) (cursor d : Ptr) :
    ∀ (rules : List Rule),
      (∀ r ∈ rules, ∀ f ∈ r.Functions, f = StringOrderingFn S ∨ ∃ ks, f = NewSimpleOrdering S ks) →
      ∀ (choices : List Nat) (st st2 : State) (left : List Nat),
        lintRules path cursor rules choices st = .done st2 left →
        ((st2.heap.deref d).Kind = (st.heap.deref d).Kind) ∧
          ((st.heap.deref d).Kind ≠ .MappingNode → (st.heap.deref d).Kind ≠ .SequenceNode →
            st2.heap.deref d = st.heap.deref d) := by
  intro rules
  induction rules with
  | nil =>
    intro _ choices st st2 left h
    simp only [lintRules] at h
    cases h
    exact ⟨rfl, fun _ _ => rfl⟩
  | cons r rules ih =>
    intro hf choices st st2 left h
    simp only [lintRules] at h
    cases h1 : lintLoop r choices [(path, cursor)] st with
    | done st1 ch1 =>
      rw [h1] at h
      obtain ⟨a1, a2⟩ := lintLoop_keeps_other_kind S r (hf r (List.mem_cons_self _ _)) d
        _ _ _ _ _ h1
      obtain ⟨b1, b2⟩ := ih (fun r2 hr2 => hf r2 (List.mem_cons_of_mem _ hr2)) _ _ _ _ h
      refine ⟨b1.trans a1, fun h1 h2 => ?_⟩
      rw [b2 (a1 ▸ h1) (a1 ▸ h2), a2 h1 h2]
    | panic p st1 => rw [h1] at h; cases h
    | pending => rw [h1] at h; cases h

/-- A run of Lint on rules of StringOrderingFn and NewSimpleOrdering leaves the
kind of the node it is called on, and a Document it is called on as a whole, as
they were. -/
theorem Lint_library_keeps_root [Folding] (S : Sorter) (choices : List Nat) (st : State) (d : Ptr)
    (rules : List Rule)
    (hlib : ∀ r ∈ rules, ∀ f ∈ r.Functions,
      f = StringOrderingFn S ∨ ∃ ks, f = NewSimpleOrdering S ks)
    (st1 : State) (left : List Nat) (h : Lint choices st (some d) rules = .done st1 left) :
    (st1.heap.deref d).Kind = (st.heap.deref d).Kind ∧
      ((st.heap.deref d).Kind = .DocumentNode → st1.heap.deref d = st.heap.deref d) := by
  simp only [Lint] at h
  split at h
  · cases h
    exact ⟨rfl, fun _ => rfl⟩
  · split at h
    · rename_i hd
      split at h
      · cases h
        exact ⟨rfl, fun _ => rfl⟩
      · obtain ⟨a1, a2⟩ := lintRules_keeps_other_kind S _ _ d rules hlib _ _ _ _ h
        exact ⟨a1, fun _ => a2 (by rw [hd]; decide) (by rw [hd]; decide)⟩
    · obtain ⟨a1, a2⟩ := lintRules_keeps_other_kind S _ _ d rules hlib _ _ _ _ h
      exact ⟨a1, fun hd => a2 (by rw [hd]; decide) (by rw [hd]; decide)⟩

theorem Lint_concat_of_root [Folding] (choices : List Nat) (st : State) (node : Option Ptr)
    (rs1 rs2 : List Rule)
    (hroot : ∀ d st1 left, node = some d → Lint choices st node rs1 = .done st1 left →
      (st1.heap.deref d).Kind = (st.heap.deref d).Kind ∧
        ((st.heap.deref d).Kind = .DocumentNode →
          (st1.heap.deref d).Content.head? = (st.heap.deref d).Content.head?)) :
    Lint choices st node (rs1 ++ rs2) =
      match Lint choices st node rs1 with
      | .done st1 left => Lint left st1 node rs2
      | .panic p st1 => .panic p st1
      | .pending => .pending := by
  cases node with
  | none => rfl
  | some d =>
    by_cases h1 : rs1 = []
    · subst h1
      simp [Lint]
    · by_cases h2 : rs2 = []
      · subst h2
        rw [List.append_nil]
        cases Lint choices st (some d) rs1 with
        | done st1 left => simp [Lint]
        | panic p st1 => rfl
        | pending => rfl
      · have l1 : ¬ rs1.length = 0 := fun h => h1 (List.length_eq_zero.mp h)
        have l2 : ¬ rs2.length = 0 := fun h => h2 (List.length_eq_zero.mp h)
        have l12 : ¬ (rs1 ++ rs2).length = 0 := by
          rw [List.length_append]; omega
        have hr := hroot d
        by_cases hd : (st.heap.deref d).Kind = .DocumentNode
        · cases hc : (st.heap.deref d).Content with
          | nil =>
            simp only [Lint, l1, l2, l12, if_false, hd, if_true, hc]
          | cons cursor rest =>
            simp only [Lint, l1, l12, if_false, hd, if_true, hc] at hr ⊢
            rw [lintRules_append]
            cases hl : lintRules root cursor rs1 choices st with
            | done st1 left =>
              obtain ⟨k1, k2⟩ := hr st1 left trivial hl
              have k2 := k2 trivial
              simp only [l2, if_false, k1, hd, if_true]
              cases hc1 : (st1.heap.deref d).Content with
              | nil => rw [hc1] at k2; simp at k2
              | cons c1 rest1 =>
                rw [hc1] at k2
                simp only [List.head?_cons, Option.some.injEq] at k2
                rw [k2]
            | panic p st1 => rfl
            | pending => rfl
        · simp only [Lint, l1, l12, if_false, hd] at hr ⊢
          rw [lintRules_append]
          cases hl : lintRules [] d rs1 choices st with
          | done st1 left =>
            obtain ⟨k1, _⟩ := hr st1 left trivial hl
            simp only [l2, if_false, k1, hd]
          | panic p st1 => rfl
          | pending => rfl

/-- C24, as the claim states it, fails: Lint reads the kind and the first child
of the node it is called on once, before the first rule. With the rule '$' and
the function repoint, which makes node 6 the content of the Document, followed
by the rule '$' with StringOrderingFn, one call of Lint on both rules sorts the
mapping b, a that was the content at the start; Lint on the first rule and then
Lint on the second sorts the mapping d, c that is the content after the first
run. -/
theorem Lint_concat_differs :
    Lint (List.replicate 6 0) ⟨docSpare, []⟩ (some 0)
        ([NewRule root [repoint]] ++ [NewRule root [StringOrderingFn insertionSortedFunc]]) =
      .done ⟨(docSpare.setContent 0 [6]).setContent 1 [4, 5, 2, 3], [(root, 1), (root, 1)]⟩ [] ∧
    Lint (List.replicate 6 0) ⟨docSpare, []⟩ (some 0) [NewRule root [repoint]] =
      .done ⟨docSpare.setContent 0 [6], [(root, 1)]⟩ [0, 0, 0] ∧
    Lint [0, 0, 0] ⟨docSpare.setContent 0 [6], [(root, 1)]⟩ (some 0)
        [NewRule root [StringOrderingFn insertionSortedFunc]] =
      .done ⟨(docSpare.setContent 0 [6]).setContent 6 [9, 10, 7, 8], [(root, 1), (root, 6)]⟩ [] ∧
    (docSpare.setContent 0 [6]).setContent 1 [4, 5, 2, 3] ≠
      (docSpare.setContent 0 [6]).setContent 6 [9, 10, 7, 8] :=
  ⟨rfl, rfl, rfl, by decide⟩

/-- C24, amended: take rule lists rs1 and rs2 where rs1 is made of
StringOrderingFn and NewSimpleOrdering or, more generally, where the run of Lint
on rs1, when it completes, leaves the node Lint is called on with its kind and,
if it is a Document, with its first child. Then Lint on rs1 ++ rs2 is Lint on
rs1 followed, from the state and with the removals it leaves, by Lint on rs2;
when the run on rs1 panics or does not end, so does the run on rs1 ++ rs2, in
the same state. -/
theorem Lint_append [Folding] (choices : List Nat) (st : State) (node : Option Ptr)
    (rs1 rs2 : List Rule)
    (hroot : (∃ S : Sorter, ∀ r ∈ rs1, ∀ f ∈ r.Functions,
        f = StringOrderingFn S ∨ ∃ ks, f = NewSimpleOrdering S ks) ∨
      (∀ d st1 left, node = some d → Lint choices st node rs1 = .done st1 left →
        (st1.heap.deref d).Kind = (st.heap.deref d).Kind ∧
          ((st.heap.deref d).Kind = .DocumentNode →
            (st1.heap.deref d).Content.head? = (st.heap.deref d).Content.head?))) :
    Lint choices st node (rs1 ++ rs2) =
      match Lint choices st node rs1 with
      | .done st1 left => Lint left st1 node rs2
      | .panic p st1 => .panic p st1
      | .pending => .pending := by
  refine Lint_concat_of_root choices st node rs1 rs2 ?_
  rcases hroot with ⟨S, hlib⟩ | hroot
  · intro d st1 left hd h
    subst hd
    obtain ⟨k1, k2⟩ := Lint_library_keeps_root S choices st d rs1 hlib st1 left h
    exact ⟨k1, fun hk => by rw [k2 hk]⟩
  · exact hroot

/-- C24, amended, at the document info: (version: 1, title: t), openapi: 3, the
rule '$.info' with StringOrderingFn and then the rule '$' with StringOrderingFn
and NewSimpleOrdering(openapi): the run on both rules is the run on the second
rule from what the run on the first leaves, with the three removals it leaves. -/
theorem Lint_append_witness :
    Lint (List.replicate 8 0) ⟨docInfo, []⟩ (some 0)
        ([NewRule "$.info".toList [StringOrderingFn insertionSortedFunc]] ++
          [NewRule root [StringOrderingFn insertionSortedFunc,
            NewSimpleOrdering insertionSortedFunc ["openapi".toList]]]) =
      Lint [0, 0, 0] ⟨docInfo.setContent 3 [8, 9, 6, 7], [("$.info".toList, 3)]⟩ (some 0)
        [NewRule root [StringOrderingFn insertionSortedFunc,
          NewSimpleOrdering insertionSortedFunc ["openapi".toList]]] :=
  Lint_append (List.replicate 8 0) ⟨docInfo, []⟩ (some 0)
    [NewRule "$.info".toList [StringOrderingFn insertionSortedFunc]]
    [NewRule root [StringOrderingFn insertionSortedFunc,
      NewSimpleOrdering insertionSortedFunc ["openapi".toList]]]
    (Or.inl ⟨insertionSortedFunc, by
      intro r hr f hf
      rw [List.mem_singleton] at hr
      subst hr
      simp only [NewRule, List.mem_singleton] at hf
      exact Or.inl hf⟩)

end Yamlfmt
